import Mathlib

set_option maxHeartbeats 1600000

/- Verification of the skog forest container (src/src/lib.rs): an ordered
   multi-way forest stored as a doubly linked Euler tour.  Every node carries
   four links (trailing/leading x prior/next); a cursor is a (node, edge)
   pair.  The heap is modelled as a total map from node ids to link records;
   machine pointers become node ids (Nat). -/

inductive ForestEdge where
  | Trailing
  | Leading
deriving DecidableEq

/-- Mirror of `impl From<bool> for ForestEdge`. -/
def ForestEdge.fromBool : Bool → ForestEdge
  | false => ForestEdge.Trailing
  | true => ForestEdge.Leading

def pivot : ForestEdge → ForestEdge
  | ForestEdge.Trailing => ForestEdge.Leading
  | ForestEdge.Leading => ForestEdge.Trailing

def is_leading (e : ForestEdge) : Bool := e = ForestEdge.Leading

def is_trailing (e : ForestEdge) : Bool := e = ForestEdge.Trailing

inductive NextPrior where
  | Prior
  | Next
deriving DecidableEq

/-- The four raw links of `NodeBase`; null pointers never matter because every
    link of a live node is initialised before use, so links are plain ids. -/
structure NodeBase where
  trailing_prior : Nat
  trailing_next : Nat
  leading_prior : Nat
  leading_next : Nat
deriving DecidableEq

def NodeBase.link (b : NodeBase) : ForestEdge → NextPrior → Nat
  | ForestEdge.Trailing, NextPrior.Prior => b.trailing_prior
  | ForestEdge.Trailing, NextPrior.Next => b.trailing_next
  | ForestEdge.Leading, NextPrior.Prior => b.leading_prior
  | ForestEdge.Leading, NextPrior.Next => b.leading_next

def NodeBase.setLink (b : NodeBase) : ForestEdge → NextPrior → Nat → NodeBase
  | ForestEdge.Trailing, NextPrior.Prior, v => { b with trailing_prior := v }
  | ForestEdge.Trailing, NextPrior.Next, v => { b with trailing_next := v }
  | ForestEdge.Leading, NextPrior.Prior, v => { b with leading_prior := v }
  | ForestEdge.Leading, NextPrior.Next, v => { b with leading_next := v }

/-- The heap: node ids to link records. -/
def Mem : Type := Nat → NodeBase

def getLink (m : Mem) (n : Nat) (e : ForestEdge) (w : NextPrior) : Nat :=
  (m n).link e w

def setLink (m : Mem) (n : Nat) (e : ForestEdge) (w : NextPrior) (v : Nat) : Mem :=
  fun k => if k = n then (m k).setLink e w v else m k

/-- Mirror of `NodeBase::init`: all four links point back at the node. -/
def initNode (m : Mem) (n : Nat) : Mem :=
  fun k => if k = n then ⟨n, n, n, n⟩ else m k

structure RawCursor where
  node : Nat
  edge : ForestEdge
deriving DecidableEq

instance : Inhabited RawCursor := ⟨⟨0, ForestEdge.Leading⟩⟩

def RawCursor.leading_of (c : RawCursor) : RawCursor := ⟨c.node, ForestEdge.Leading⟩

def RawCursor.trailing_of (c : RawCursor) : RawCursor := ⟨c.node, ForestEdge.Trailing⟩

def RawCursor.pivotC (c : RawCursor) : RawCursor := ⟨c.node, pivot c.edge⟩

/-- Mirror of `RawCursor::move_next`. -/
def move_next (m : Mem) (c : RawCursor) : RawCursor :=
  let next := getLink m c.node c.edge NextPrior.Next
  if is_leading c.edge then
    ⟨next, ForestEdge.fromBool (next != c.node)⟩
  else
    ⟨next, ForestEdge.fromBool (getLink m next ForestEdge.Leading NextPrior.Prior == c.node)⟩

/-- Mirror of `RawCursor::move_prev`. -/
def move_prev (m : Mem) (c : RawCursor) : RawCursor :=
  let next := getLink m c.node c.edge NextPrior.Prior
  if is_leading c.edge then
    ⟨next, ForestEdge.fromBool (getLink m next ForestEdge.Trailing NextPrior.Next != c.node)⟩
  else
    ⟨next, ForestEdge.fromBool (next == c.node)⟩

/-- Mirror of `RawCursor::prev_child`: `move_prev`, `pivot`, then the forced
    `leading_of` (new child iterators are leading). -/
def prev_child (m : Mem) (c : RawCursor) : RawCursor :=
  ((move_prev m c).pivotC).leading_of

/-- Mirror of `RawCursor::has_children`. -/
def has_children (m : Mem) (c : RawCursor) : Bool :=
  !((move_next m c.leading_of).node == c.node)

/-- Mirror of the free function `set_next`: rewrites x's next link on x's edge
    family and y's prior link on y's edge family. -/
def set_next (m : Mem) (x y : RawCursor) : Mem :=
  setLink (setLink m x.node x.edge NextPrior.Next y.node) y.node y.edge NextPrior.Prior x.node

/-- Mirror of `RawCursor::insert`: allocate a fresh self-linked node `nu`,
    then the two `set_next` calls in source order (the second prev/next
    computations happen on the already updated heap, as in the source). -/
def RawCursor.insert (m : Mem) (c : RawCursor) (nu : Nat) : Mem × RawCursor :=
  let m1 := initNode m nu
  let result : RawCursor := ⟨nu, ForestEdge.Leading⟩
  let m2 := set_next m1 (move_prev m1 c) result
  let m3 := set_next m2 (move_next m2 result) c
  (m3, result)

/-- Mirror of `RawCursor::erase`: the four neighbor cursors are gathered on
    the pristine heap, then the relinks happen, then the return cursor is
    computed (the leading branch reads the mutated heap, as in the source). -/
def RawCursor.erase (m : Mem) (c : RawCursor) : Mem × RawCursor :=
  let leading_prior := move_prev m c.leading_of
  let leading_next := move_next m c.leading_of
  let trailing_prior := move_prev m c.trailing_of
  let trailing_next := move_next m c.trailing_of
  let m' :=
    if has_children m c then
      set_next (set_next m leading_prior leading_next) trailing_prior trailing_next
    else
      set_next m leading_prior trailing_next
  (m', if is_leading c.edge then move_next m' leading_prior else trailing_next)

/-- 2^64, the modulus of `usize` arithmetic on the reference 64-bit target. -/
def U64 : Nat := 2 ^ 64

/-- Loop body of `RawCursor::erase_range`, with explicit fuel for the `while`
    loop.  `stack_depth` is a `usize`; the source decrement
    `std::cmp::max(0, stack_depth - 1)` is modelled exactly: an unsigned
    subtraction that wraps modulo 2^64 (release profile) followed by a
    vacuous `max` with zero. -/
def erase_range_go (last : RawCursor) : Nat → Mem → RawCursor → Nat → Option Mem
  | 0, _, _, _ => none
  | fuel + 1, m, position, stack_depth =>
    if position = last then some m
    else if position.edge = ForestEdge.Leading then
      erase_range_go last fuel m (move_next m position) ((stack_depth + 1) % U64)
    else if stack_depth > 0 then
      let r := RawCursor.erase m position
      erase_range_go last fuel r.1 r.2 (max 0 ((stack_depth + (U64 - 1)) % U64))
    else
      erase_range_go last fuel m (move_next m position) (max 0 ((stack_depth + (U64 - 1)) % U64))

/-- Mirror of `RawCursor::erase_range` (returns `last`). -/
def RawCursor.erase_range (m : Mem) (first last : RawCursor) (fuel : Nat) :
    Option (Mem × RawCursor) :=
  (erase_range_go last fuel m first 0).map (fun m' => (m', last))

/-- Mirror of `RawCursor::splice` on raw cursors; `c` is the destination
    (`self`).  Heap reads interleave with the three `set_next` calls exactly
    as in the source. -/
def RawCursor.splice (m : Mem) (c first last : RawCursor) : Mem × RawCursor :=
  if first = last ∨ first = c then (m, c)
  else
    let back := move_prev m last
    let m1 := set_next m (prev_child m first) last
    let m2 := set_next m1 (move_prev m1 c) first
    let m3 := set_next m2 back c
    (m3, first)

/-- Mirror of `Forest` metadata: the cached size and the sentinel (`tail`). -/
structure Forest where
  size : Nat
  tail : Nat
deriving DecidableEq

def Forest.unsafe_root (f : Forest) : RawCursor := ⟨f.tail, ForestEdge.Leading⟩

def Forest.unsafe_end (f : Forest) : RawCursor := ⟨f.tail, ForestEdge.Trailing⟩

def Forest.unsafe_begin (m : Mem) (f : Forest) : RawCursor := move_next m f.unsafe_root

/-- Mirror of `Forest::new` with an explicitly chosen sentinel id. -/
def Forest.new (m : Mem) (s : Nat) : Mem × Forest :=
  (initNode m s, ⟨0, s⟩)

/-- Mirror of `Forest::empty`: `begin() == end()`. -/
def Forest.empty (m : Mem) (f : Forest) : Bool := f.unsafe_begin m == f.unsafe_end

/-- Mirror of `Forest::size_valid`: `size != 0 || empty()`. -/
def Forest.size_valid (m : Mem) (f : Forest) : Bool := f.size != 0 || f.empty m

/-- Mirror of `Cursor::find_edge`: advance until the cursor sits on `e`. -/
def find_edge (m : Mem) (e : ForestEdge) : Nat → RawCursor → RawCursor
  | 0, c => c
  | fuel + 1, c => if c.edge = e then c else find_edge m e fuel (move_next m c)

/-- Count of the `EdgeCursor` iterator used by `Forest::size`: yield the
    current position unless it dereferences to `None` (sentinel node `s`),
    then `move_next` followed by `find_edge e`.  `ff` is the fuel given to
    each inner `find_edge` loop, the outer fuel bounds the item count. -/
def edge_count (m : Mem) (s : Nat) (e : ForestEdge) (ff : Nat) : Nat → RawCursor → Nat
  | 0, _ => 0
  | fuel + 1, c =>
    if c.node = s then 0
    else edge_count m s e ff fuel (find_edge m e ff (move_next m c)) + 1

/-- Mirror of `Forest::size`: return the cache when trustworthy, otherwise
    recompute by counting leading-edge stops from begin and cache it. -/
def Forest.sizeFn (m : Mem) (f : Forest) (fuel : Nat) : Nat × Forest :=
  if f.size_valid m then (f.size, f)
  else
    let n := edge_count m f.tail ForestEdge.Leading fuel fuel (f.unsafe_begin m)
    (n, { f with size := n })

/-- Mirror of `Cursor::current` for payloads `data`: `None` exactly on the
    sentinel node, otherwise the payload. -/
def Cursor.current {α : Type} (data : Nat → α) (f : Forest) (c : RawCursor) : Option α :=
  if c.node = f.unsafe_root.node then none else some (data c.node)

/-- Mirror of `CursorMut::current`: the same sentinel guard around the raw
    mutable dereference. -/
def CursorMut.current {α : Type} (data : Nat → α) (f : Forest) (c : RawCursor) : Option α :=
  if c.node = f.unsafe_root.node then none else some (data c.node)

/-- A mutable cursor: the borrowed forest plus the raw cursor. -/
structure CursorMut where
  forest : Forest
  cursor : RawCursor
deriving DecidableEq

/-- Mirror of `CursorMut::insert`: size bookkeeping first, then the raw
    insert; the caller's cursor does not move. -/
def CursorMut.insert (m : Mem) (cm : CursorMut) (nu : Nat) : Mem × CursorMut :=
  let f := if cm.forest.size_valid m then { cm.forest with size := cm.forest.size + 1 }
           else cm.forest
  let r := RawCursor.insert m cm.cursor nu
  (r.1, ⟨f, cm.cursor⟩)

/-- Mirror of `CursorMut::insert_and_move`: as `insert`, but the cursor moves
    onto the returned position. -/
def CursorMut.insert_and_move (m : Mem) (cm : CursorMut) (nu : Nat) : Mem × CursorMut :=
  let f := if cm.forest.size_valid m then { cm.forest with size := cm.forest.size + 1 }
           else cm.forest
  let r := RawCursor.insert m cm.cursor nu
  (r.1, ⟨f, r.2⟩)

/-- Mirror of `CursorMut::splice`: transfer the source cache when both caches
    are trustworthy (the call `x.size()` then just reads the cache),
    otherwise invalidate to zero; then the raw splice of `[x.begin, x.end)`.
    The destination cursor does not move. -/
def CursorMut.splice (m : Mem) (cm : CursorMut) (x : Forest) (fuel : Nat) : Mem × CursorMut :=
  let f := if cm.forest.size_valid m && x.size_valid m then
             { cm.forest with size := cm.forest.size + (x.sizeFn m fuel).1 }
           else { cm.forest with size := 0 }
  let r := RawCursor.splice m cm.cursor (x.unsafe_begin m) x.unsafe_end
  (r.1, ⟨f, cm.cursor⟩)

/-- Mirror of `CursorMut::splice_and_move`. -/
def CursorMut.splice_and_move (m : Mem) (cm : CursorMut) (x : Forest) (fuel : Nat) :
    Mem × CursorMut :=
  let f := if cm.forest.size_valid m && x.size_valid m then
             { cm.forest with size := cm.forest.size + (x.sizeFn m fuel).1 }
           else { cm.forest with size := 0 }
  let r := RawCursor.splice m cm.cursor (x.unsafe_begin m) x.unsafe_end
  (r.1, ⟨f, r.2⟩)

/-- Mirror of `CursorMut::remove` (single-node erase; under its precondition
    the forest is nonempty, so a trustworthy cache is at least 1 and the
    `usize` decrement is exact). -/
def CursorMut.remove (m : Mem) (cm : CursorMut) : Mem × CursorMut :=
  let f := if cm.forest.size_valid m then { cm.forest with size := cm.forest.size - 1 }
           else cm.forest
  let r := RawCursor.erase m cm.cursor
  (r.1, ⟨f, r.2⟩)

/- ===== The abstract model: ordered forests and their Euler tours. ===== -/

mutual
inductive FTree where
  | mk : Nat → FList → FTree
deriving DecidableEq
inductive FList where
  | nil : FList
  | cons : FTree → FList → FList
deriving DecidableEq
end

def FTree.rootId : FTree → Nat
  | FTree.mk n _ => n

mutual
/-- Euler tour of a tree: leading edge, the children's tour, trailing edge. -/
def tourT : FTree → List RawCursor
  | FTree.mk n ch => ⟨n, ForestEdge.Leading⟩ :: (tourF ch ++ [⟨n, ForestEdge.Trailing⟩])
def tourF : FList → List RawCursor
  | FList.nil => []
  | FList.cons t ts => tourT t ++ tourF ts
end

mutual
def nodesT : FTree → List Nat
  | FTree.mk n ch => n :: nodesF ch
def nodesF : FList → List Nat
  | FList.nil => []
  | FList.cons t ts => nodesT t ++ nodesF ts
end

/-- The cyclic Euler tour of a whole forest anchored at sentinel `s`:
    root position, the forest tour, then the end position. -/
def ringL (s : Nat) (ts : FList) : List RawCursor :=
  ⟨s, ForestEdge.Leading⟩ :: (tourF ts ++ [⟨s, ForestEdge.Trailing⟩])

/-- `ringL` with the wrap-around back to the root position made explicit. -/
def ringExt (s : Nat) (ts : FList) : List RawCursor :=
  ringL s ts ++ [⟨s, ForestEdge.Leading⟩]

/-- One doubly linked step of the heap: `a`'s next link (on `a`'s edge
    family) reaches `b`, and `b`'s prior link reaches back to `a`. -/
def linkRel (m : Mem) (a b : RawCursor) : Prop :=
  getLink m a.node a.edge NextPrior.Next = b.node ∧
  getLink m b.node b.edge NextPrior.Prior = a.node

instance (m : Mem) : DecidableRel (linkRel m) := fun a b =>
  inferInstanceAs (Decidable
    (getLink m a.node a.edge NextPrior.Next = b.node ∧
     getLink m b.node b.edge NextPrior.Prior = a.node))

/-- Well-formed forest: distinct node ids, and the heap links realise the
    cyclic Euler tour. -/
structure WF (m : Mem) (s : Nat) (ts : FList) : Prop where
  nodup : (s :: nodesF ts).Nodup
  chain : List.Chain' (linkRel m) (ringExt s ts)

/-- Executable check of the link chain, for deciding `WF` by evaluation. -/
def chainLinkB (m : Mem) : List RawCursor → Bool
  | [] => true
  | [_] => true
  | a :: b :: rest => decide (linkRel m a b) && chainLinkB m (b :: rest)

theorem chainLinkB_iff (m : Mem) :
    ∀ l, chainLinkB m l = true ↔ List.Chain' (linkRel m) l
  | [] => by simp [chainLinkB]
  | [a] => by simp [chainLinkB]
  | a :: b :: rest => by
    rw [List.chain'_cons, ← chainLinkB_iff m (b :: rest)]
    simp [chainLinkB]

instance (m : Mem) (s : Nat) (ts : FList) : Decidable (WF m s ts) :=
  decidable_of_iff ((s :: nodesF ts).Nodup ∧ chainLinkB m (ringExt s ts) = true)
    ⟨fun h => ⟨h.1, (chainLinkB_iff m _).mp h.2⟩,
     fun h => ⟨h.nodup, (chainLinkB_iff m _).mpr h.chain⟩⟩

/-- Link every adjacent pair of a cursor list in the heap. -/
def linkAll : List RawCursor → Mem → Mem
  | a :: b :: rest, m => linkAll (b :: rest) (set_next m a b)
  | _, m => m

/-- Canonical concrete heap for a forest, used to instantiate theorems. -/
def buildMem (s : Nat) (ts : FList) : Mem :=
  linkAll (ringExt s ts) (fun _ => ⟨0, 0, 0, 0⟩)

/- ===== Heap update computation lemmas. ===== -/

theorem NodeBase.link_setLink (b : NodeBase) (e : ForestEdge) (w : NextPrior) (v : Nat)
    (e' : ForestEdge) (w' : NextPrior) :
    (b.setLink e w v).link e' w' = if e' = e ∧ w' = w then v else b.link e' w' := by
  cases e <;> cases w <;> cases e' <;> cases w' <;>
    simp [NodeBase.link, NodeBase.setLink]

theorem getLink_setLink (m : Mem) (n : Nat) (e : ForestEdge) (w : NextPrior) (v : Nat)
    (k : Nat) (e' : ForestEdge) (w' : NextPrior) :
    getLink (setLink m n e w v) k e' w' =
      if k = n ∧ e' = e ∧ w' = w then v else getLink m k e' w' := by
  show (if k = n then (m k).setLink e w v else m k).link e' w' = _
  by_cases h : k = n <;> simp [h, NodeBase.link_setLink, getLink]

theorem getLink_initNode (m : Mem) (n : Nat) (k : Nat) (e : ForestEdge) (w : NextPrior) :
    getLink (initNode m n) k e w = if k = n then n else getLink m k e w := by
  show (if k = n then (⟨n, n, n, n⟩ : NodeBase) else m k).link e w = _
  by_cases h : k = n <;> cases e <;> cases w <;> simp [h, NodeBase.link, getLink]

theorem getLink_set_next (m : Mem) (x y : RawCursor) (k : Nat) (e : ForestEdge)
    (w : NextPrior) :
    getLink (set_next m x y) k e w =
      if k = y.node ∧ e = y.edge ∧ w = NextPrior.Prior then x.node
      else if k = x.node ∧ e = x.edge ∧ w = NextPrior.Next then y.node
      else getLink m k e w := by
  show getLink (setLink (setLink m x.node x.edge NextPrior.Next y.node)
    y.node y.edge NextPrior.Prior x.node) k e w = _
  rw [getLink_setLink, getLink_setLink]

/- ===== Single-step characterisations of cursor movement. ===== -/

theorem move_next_spec (m : Mem) (a : RawCursor) :
    move_next m a =
      (let v := getLink m a.node a.edge NextPrior.Next
      if a.edge = ForestEdge.Leading then
        ⟨v, if v = a.node then ForestEdge.Trailing else ForestEdge.Leading⟩
      else
        ⟨v, if getLink m v ForestEdge.Leading NextPrior.Prior = a.node then ForestEdge.Leading
            else ForestEdge.Trailing⟩) := by
  show (if is_leading a.edge then _ else _) = _
  by_cases h : a.edge = ForestEdge.Leading <;>
    · simp only [is_leading, h]
      split <;> simp_all [ForestEdge.fromBool, bne, BEq.beq]
      <;> split <;> simp_all [ForestEdge.fromBool]

theorem move_prev_spec (m : Mem) (a : RawCursor) :
    move_prev m a =
      (let v := getLink m a.node a.edge NextPrior.Prior
      if a.edge = ForestEdge.Leading then
        ⟨v, if getLink m v ForestEdge.Trailing NextPrior.Next = a.node then ForestEdge.Trailing
            else ForestEdge.Leading⟩
      else
        ⟨v, if v = a.node then ForestEdge.Leading else ForestEdge.Trailing⟩) := by
  show (if is_leading a.edge then _ else _) = _
  by_cases h : a.edge = ForestEdge.Leading <;>
    · simp only [is_leading, h]
      split <;> simp_all [ForestEdge.fromBool, bne, BEq.beq]
      <;> split <;> simp_all [ForestEdge.fromBool]

theorem move_next_L_desc (m : Mem) (a : RawCursor) (v : Nat)
    (ha : a.edge = ForestEdge.Leading)
    (h1 : getLink m a.node a.edge NextPrior.Next = v) (hv : v ≠ a.node) :
    move_next m a = ⟨v, ForestEdge.Leading⟩ := by
  rw [move_next_spec]; rw [ha] at h1; simp [ha, h1, hv]

theorem move_next_L_leaf (m : Mem) (a : RawCursor)
    (ha : a.edge = ForestEdge.Leading)
    (h1 : getLink m a.node a.edge NextPrior.Next = a.node) :
    move_next m a = ⟨a.node, ForestEdge.Trailing⟩ := by
  rw [move_next_spec]; rw [ha] at h1; simp [ha, h1]

theorem move_next_T_toL (m : Mem) (a : RawCursor) (v : Nat)
    (ha : a.edge = ForestEdge.Trailing)
    (h1 : getLink m a.node a.edge NextPrior.Next = v)
    (h2 : getLink m v ForestEdge.Leading NextPrior.Prior = a.node) :
    move_next m a = ⟨v, ForestEdge.Leading⟩ := by
  rw [move_next_spec]; rw [ha] at h1; simp [ha, h1, h2]

theorem move_next_T_toT (m : Mem) (a : RawCursor) (v : Nat)
    (ha : a.edge = ForestEdge.Trailing)
    (h1 : getLink m a.node a.edge NextPrior.Next = v)
    (h2 : getLink m v ForestEdge.Leading NextPrior.Prior ≠ a.node) :
    move_next m a = ⟨v, ForestEdge.Trailing⟩ := by
  rw [move_next_spec]; rw [ha] at h1; simp [ha, h1, h2]

theorem move_prev_L_fromT (m : Mem) (a : RawCursor) (u : Nat)
    (ha : a.edge = ForestEdge.Leading)
    (h1 : getLink m a.node a.edge NextPrior.Prior = u)
    (h2 : getLink m u ForestEdge.Trailing NextPrior.Next = a.node) :
    move_prev m a = ⟨u, ForestEdge.Trailing⟩ := by
  rw [move_prev_spec]; rw [ha] at h1; simp [ha, h1, h2]

theorem move_prev_L_fromL (m : Mem) (a : RawCursor) (u : Nat)
    (ha : a.edge = ForestEdge.Leading)
    (h1 : getLink m a.node a.edge NextPrior.Prior = u)
    (h2 : getLink m u ForestEdge.Trailing NextPrior.Next ≠ a.node) :
    move_prev m a = ⟨u, ForestEdge.Leading⟩ := by
  rw [move_prev_spec]; rw [ha] at h1; simp [ha, h1, h2]

theorem move_prev_T_fromL (m : Mem) (a : RawCursor)
    (ha : a.edge = ForestEdge.Trailing)
    (h1 : getLink m a.node a.edge NextPrior.Prior = a.node) :
    move_prev m a = ⟨a.node, ForestEdge.Leading⟩ := by
  rw [move_prev_spec]; rw [ha] at h1; simp [ha, h1]

theorem move_prev_T_fromT (m : Mem) (a : RawCursor) (u : Nat)
    (ha : a.edge = ForestEdge.Trailing)
    (h1 : getLink m a.node a.edge NextPrior.Prior = u) (hu : u ≠ a.node) :
    move_prev m a = ⟨u, ForestEdge.Trailing⟩ := by
  rw [move_prev_spec]; rw [ha] at h1; simp [ha, h1, hu]

/- ===== Structural lemmas about Euler tours. ===== -/

theorem tourT_eq (n : Nat) (ch : FList) :
    tourT (FTree.mk n ch) =
      ⟨n, ForestEdge.Leading⟩ :: (tourF ch ++ [⟨n, ForestEdge.Trailing⟩]) := rfl

theorem tourT_ne_nil (t : FTree) : tourT t ≠ [] := by
  cases t; simp [tourT]

theorem tourF_cons (t : FTree) (l : FList) :
    tourF (FList.cons t l) = tourT t ++ tourF l := rfl

theorem tourF_cons_ne_nil (t : FTree) (l : FList) : tourF (FList.cons t l) ≠ [] := by
  rw [tourF_cons]
  rcases t with ⟨n, ch⟩
  simp [tourT]

theorem head?_tourT (t : FTree) :
    (tourT t).head? = some ⟨t.rootId, ForestEdge.Leading⟩ := by
  cases t; simp [tourT, FTree.rootId]

theorem getLast?_tourT (t : FTree) :
    (tourT t).getLast? = some ⟨t.rootId, ForestEdge.Trailing⟩ := by
  rcases t with ⟨n, ch⟩
  show (⟨n, ForestEdge.Leading⟩ :: (tourF ch ++ [⟨n, ForestEdge.Trailing⟩])).getLast? = _
  rw [show (⟨n, ForestEdge.Leading⟩ :: (tourF ch ++ [⟨n, ForestEdge.Trailing⟩]) : List RawCursor)
      = (⟨n, ForestEdge.Leading⟩ :: tourF ch) ++ [⟨n, ForestEdge.Trailing⟩] by simp]
  exact List.getLast?_concat _

theorem head?_tourF_cons (t : FTree) (l : FList) :
    (tourF (FList.cons t l)).head? = some ⟨t.rootId, ForestEdge.Leading⟩ := by
  rw [tourF_cons]
  rcases t with ⟨n, ch⟩
  simp [tourT, FTree.rootId]

/-- Root of the last tree in a forest. -/
def lastRoot : FList → Option Nat
  | FList.nil => none
  | FList.cons t FList.nil => some t.rootId
  | FList.cons _ (FList.cons u rest) => lastRoot (FList.cons u rest)

theorem getLast?_tourF (l : FList) :
    (tourF l).getLast? = (lastRoot l).map (fun r => ⟨r, ForestEdge.Trailing⟩) := by
  match l with
  | FList.nil => simp [tourF, lastRoot]
  | FList.cons t FList.nil =>
    simp [tourF, lastRoot, getLast?_tourT]
  | FList.cons t (FList.cons u rest) =>
    have ih := getLast?_tourF (FList.cons u rest)
    rw [tourF_cons, List.getLast?_append_of_ne_nil _ (tourF_cons_ne_nil u rest), ih]
    simp [lastRoot]

mutual
theorem node_mem_tourT (t : FTree) (c : RawCursor) (h : c ∈ tourT t) : c.node ∈ nodesT t := by
  rcases t with ⟨n, ch⟩
  rw [tourT_eq] at h
  rcases List.mem_cons.mp h with h | h
  · simp [h, nodesT]
  · rcases List.mem_append.mp h with h | h
    · have := node_mem_tourF ch c h
      simp [nodesT, this]
    · simp only [List.mem_singleton] at h
      simp [h, nodesT]
theorem node_mem_tourF (l : FList) (c : RawCursor) (h : c ∈ tourF l) : c.node ∈ nodesF l := by
  match l with
  | FList.nil => simp [tourF] at h
  | FList.cons t rest =>
    rw [tourF_cons] at h
    rcases List.mem_append.mp h with h | h
    · have := node_mem_tourT t c h
      simp [nodesF, this]
    · have := node_mem_tourF rest c h
      simp [nodesF, this]
end

mutual
theorem cursor_mem_tourT (t : FTree) (n : Nat) (e : ForestEdge) (h : n ∈ nodesT t) :
    (⟨n, e⟩ : RawCursor) ∈ tourT t := by
  rcases t with ⟨r, ch⟩
  rw [tourT_eq]
  rcases List.mem_cons.mp (show n ∈ r :: nodesF ch from h) with h | h
  · subst h
    cases e
    · simp
    · simp
  · have := cursor_mem_tourF ch n e h
    simp [this]
theorem cursor_mem_tourF (l : FList) (n : Nat) (e : ForestEdge) (h : n ∈ nodesF l) :
    (⟨n, e⟩ : RawCursor) ∈ tourF l := by
  match l with
  | FList.nil => simp [nodesF] at h
  | FList.cons t rest =>
    rw [tourF_cons]
    rcases List.mem_append.mp (show n ∈ nodesT t ++ nodesF rest from h) with h | h
    · exact List.mem_append.mpr (Or.inl (cursor_mem_tourT t n e h))
    · exact List.mem_append.mpr (Or.inr (cursor_mem_tourF rest n e h))
end

mutual
theorem count_tourT (t : FTree) (n : Nat) (e : ForestEdge) :
    (tourT t).count ⟨n, e⟩ = (nodesT t).count n := by
  rcases t with ⟨r, ch⟩
  rw [tourT_eq]
  show ((⟨r, ForestEdge.Leading⟩ : RawCursor) :: (tourF ch ++ [⟨r, ForestEdge.Trailing⟩])).count _
    = (r :: nodesF ch).count n
  rw [List.count_cons, List.count_cons, List.count_append, count_tourF ch n e]
  by_cases h : r = n <;> cases e <;> simp [h, List.count_singleton] <;> omega
theorem count_tourF (l : FList) (n : Nat) (e : ForestEdge) :
    (tourF l).count ⟨n, e⟩ = (nodesF l).count n := by
  match l with
  | FList.nil => simp [tourF, nodesF]
  | FList.cons t rest =>
    rw [tourF_cons, show nodesF (FList.cons t rest) = nodesT t ++ nodesF rest from rfl,
      List.count_append, List.count_append, count_tourT t n e, count_tourF rest n e]
end

theorem tourF_nodup (l : FList) (h : (nodesF l).Nodup) : (tourF l).Nodup := by
  rw [List.nodup_iff_count_le_one] at h ⊢
  intro c
  rcases c with ⟨n, e⟩
  rw [count_tourF]
  exact h n

theorem s_notin_tourF (s : Nat) (ts : FList) (hs : s ∉ nodesF ts) (e : ForestEdge) :
    (⟨s, e⟩ : RawCursor) ∉ tourF ts := fun h => hs (node_mem_tourF ts _ h)

theorem ringL_nodup (s : Nat) (ts : FList) (h : (s :: nodesF ts).Nodup) :
    (ringL s ts).Nodup := by
  have hs : s ∉ nodesF ts := (List.nodup_cons.mp h).1
  have hnd : (nodesF ts).Nodup := (List.nodup_cons.mp h).2
  rw [ringL, List.nodup_cons, List.nodup_append]
  refine ⟨?_, tourF_nodup ts hnd, List.nodup_singleton _, ?_⟩
  · intro hc
    rcases List.mem_append.mp hc with hc | hc
    · exact s_notin_tourF s ts hs _ hc
    · simp at hc
  · intro c hc hc'
    simp only [List.mem_singleton] at hc'
    subst hc'
    exact s_notin_tourF s ts hs _ hc

theorem node_mem_ringL (s : Nat) (ts : FList) (c : RawCursor) (h : c ∈ ringL s ts) :
    c.node ∈ s :: nodesF ts := by
  rw [ringL] at h
  rcases List.mem_cons.mp h with h | h
  · simp [h]
  · rcases List.mem_append.mp h with h | h
    · exact List.mem_cons.mpr (Or.inr (node_mem_tourF ts c h))
    · simp only [List.mem_singleton] at h
      simp [h]


theorem nodesT_eq (n : Nat) (ch : FList) : nodesT (FTree.mk n ch) = n :: nodesF ch := rfl

theorem nodesF_cons (t : FTree) (l : FList) :
    nodesF (FList.cons t l) = nodesT t ++ nodesF l := rfl

theorem rootId_mem_nodesT (t : FTree) : t.rootId ∈ nodesT t := by
  cases t; simp [nodesT, FTree.rootId]

theorem lastRoot_mem (l : FList) (r : Nat) (h : lastRoot l = some r) : r ∈ nodesF l := by
  match l with
  | FList.nil => simp [lastRoot] at h
  | FList.cons t FList.nil =>
    simp only [lastRoot, Option.some.injEq] at h
    subst h
    rw [nodesF_cons]
    exact List.mem_append.mpr (Or.inl (rootId_mem_nodesT t))
  | FList.cons t (FList.cons u rest) =>
    have ih := lastRoot_mem (FList.cons u rest) r (by simpa [lastRoot] using h)
    rw [nodesF_cons]
    exact List.mem_append.mpr (Or.inr ih)

theorem lastRoot_cons_some (u : FTree) (rest : FList) :
    ∃ r, lastRoot (FList.cons u rest) = some r := by
  match rest with
  | FList.nil => exact ⟨u.rootId, rfl⟩
  | FList.cons v rest2 =>
    rcases lastRoot_cons_some v rest2 with ⟨r, hr⟩
    exact ⟨r, by simpa [lastRoot] using hr⟩

/-- The relation stating that advancing from `a` lands exactly on `b`. -/
def nextRel (m : Mem) (a b : RawCursor) : Prop := move_next m a = b

/-- The relation stating that retreating from `b` lands exactly on `a`. -/
def prevRel (m : Mem) (a b : RawCursor) : Prop := move_prev m b = a

theorem chain_last_pair {m : Mem} {l : List RawCursor} {a b : RawCursor}
    (h : List.Chain' (linkRel m) (l ++ [b])) (hl : l.getLast? = some a) :
    linkRel m a b :=
  (List.chain'_append.mp h).2.2 _ hl _ rfl

/-- Advancing from a trailing edge lands on the linked successor, with the
    reconstructed edge correct whenever the one prior-comparison the code
    makes is conclusive. -/
theorem move_next_T_post (m : Mem) (n : Nat) (post : RawCursor)
    (hlk : linkRel m ⟨n, ForestEdge.Trailing⟩ post)
    (hpost : post.edge = ForestEdge.Trailing →
      getLink m post.node ForestEdge.Leading NextPrior.Prior ≠ n) :
    move_next m ⟨n, ForestEdge.Trailing⟩ = post := by
  rcases hlk with ⟨h1, h2⟩
  rcases hpe : post.edge with _ | _
  · rw [move_next_T_toT m ⟨n, ForestEdge.Trailing⟩ post.node rfl h1 (hpost hpe)]
    rcases post with ⟨pn, pe⟩
    simp_all
  · rw [hpe] at h2
    rw [move_next_T_toL m ⟨n, ForestEdge.Trailing⟩ post.node rfl h1 h2]
    rcases post with ⟨pn, pe⟩
    simp_all

/-- Retreating from a leading edge lands on the linked predecessor, with the
    reconstructed edge correct whenever the one next-comparison the code
    makes is conclusive. -/
theorem move_prev_L_pre (m : Mem) (n : Nat) (pre : RawCursor)
    (hlk : linkRel m pre ⟨n, ForestEdge.Leading⟩)
    (hpre : pre.edge = ForestEdge.Leading →
      getLink m pre.node ForestEdge.Trailing NextPrior.Next ≠ n) :
    move_prev m ⟨n, ForestEdge.Leading⟩ = pre := by
  rcases hlk with ⟨h1, h2⟩
  rcases hpe : pre.edge with _ | _
  · rw [hpe] at h1
    rw [move_prev_L_fromT m ⟨n, ForestEdge.Leading⟩ pre.node rfl h2 h1]
    rcases pre with ⟨pn, pe⟩
    simp_all
  · rw [move_prev_L_fromL m ⟨n, ForestEdge.Leading⟩ pre.node rfl h2 (hpre hpe)]
    rcases pre with ⟨pn, pe⟩
    simp_all

mutual
/-- Along a well linked tour segment of one tree, `move_next` steps to the
    successor and `move_prev` to the predecessor at every position. -/
theorem segT (m : Mem) (t : FTree) (pre post : RawCursor)
    (hch : List.Chain' (linkRel m) (pre :: (tourT t ++ [post])))
    (hpre : pre.edge = ForestEdge.Leading →
      getLink m pre.node ForestEdge.Trailing NextPrior.Next ≠ t.rootId)
    (hpost : post.edge = ForestEdge.Trailing →
      getLink m post.node ForestEdge.Leading NextPrior.Prior ≠ t.rootId)
    (hnd : (nodesT t).Nodup)
    (hpren : pre.node ∉ nodesT t)
    (hpostn : post.node ∉ nodesT t) :
    List.Chain' (nextRel m) (tourT t ++ [post]) ∧
    List.Chain' (prevRel m) (pre :: tourT t) := by
  rcases t with ⟨n, ch⟩
  rw [nodesT_eq] at hnd hpren hpostn
  have hroot : (FTree.mk n ch).rootId = n := rfl
  rw [hroot] at hpre hpost
  have hch' : List.Chain' (linkRel m)
      (pre :: ⟨n, ForestEdge.Leading⟩ :: (tourF ch ++ [⟨n, ForestEdge.Trailing⟩, post])) := by
    simpa [tourT_eq] using hch
  have p1 : linkRel m pre ⟨n, ForestEdge.Leading⟩ := (List.chain'_cons.mp hch').1
  have hch2 : List.Chain' (linkRel m)
      (⟨n, ForestEdge.Leading⟩ :: (tourF ch ++ [⟨n, ForestEdge.Trailing⟩, post])) :=
    (List.chain'_cons.mp hch').2
  have e1 : (⟨n, ForestEdge.Leading⟩ ::
        (tourF ch ++ [⟨n, ForestEdge.Trailing⟩, post]) : List RawCursor)
      = (⟨n, ForestEdge.Leading⟩ :: (tourF ch ++ [⟨n, ForestEdge.Trailing⟩])) ++ [post] := by
    simp
  rw [e1] at hch2
  have hchI : List.Chain' (linkRel m)
      (⟨n, ForestEdge.Leading⟩ :: (tourF ch ++ [⟨n, ForestEdge.Trailing⟩])) :=
    (List.chain'_append.mp hch2).1
  have glast : (⟨n, ForestEdge.Leading⟩ ::
      (tourF ch ++ [⟨n, ForestEdge.Trailing⟩]) : List RawCursor).getLast?
      = some ⟨n, ForestEdge.Trailing⟩ := by
    rw [show (⟨n, ForestEdge.Leading⟩ :: (tourF ch ++ [⟨n, ForestEdge.Trailing⟩]) :
        List RawCursor) = (⟨n, ForestEdge.Leading⟩ :: tourF ch)
        ++ [⟨n, ForestEdge.Trailing⟩] by simp]
    exact List.getLast?_concat _
  have p_last : linkRel m ⟨n, ForestEdge.Trailing⟩ post :=
    (List.chain'_append.mp hch2).2.2 _ glast _ rfl
  have hnn : n ∉ nodesF ch := (List.nodup_cons.mp hnd).1
  have hndch : (nodesF ch).Nodup := (List.nodup_cons.mp hnd).2
  have hpren2 : pre.node ∉ nodesF ch := fun h => hpren (List.mem_cons.mpr (Or.inr h))
  have hpostn2 : post.node ∉ nodesF ch := fun h => hpostn (List.mem_cons.mpr (Or.inr h))
  have hpostnn : post.node ≠ n := fun h => hpostn (by simp [h])
  have hprenn : pre.node ≠ n := fun h => hpren (by simp [h])
  match ch with
  | FList.nil =>
    have pm : linkRel m ⟨n, ForestEdge.Leading⟩ ⟨n, ForestEdge.Trailing⟩ := by
      have := List.Chain'.rel_head (show List.Chain' (linkRel m)
        (⟨n, ForestEdge.Leading⟩ :: ⟨n, ForestEdge.Trailing⟩ :: []) by
          simpa [tourF] using hchI)
      exact this
    constructor
    · rw [tourT_eq]
      show List.Chain' (nextRel m)
        (⟨n, ForestEdge.Leading⟩ :: ⟨n, ForestEdge.Trailing⟩ :: [post])
      refine List.Chain'.cons ?_ (List.Chain'.cons ?_ (List.chain'_singleton _))
      · exact move_next_L_leaf m ⟨n, ForestEdge.Leading⟩ rfl pm.1
      · exact move_next_T_post m n post p_last hpost
    · rw [tourT_eq]
      show List.Chain' (prevRel m)
        (pre :: ⟨n, ForestEdge.Leading⟩ :: [⟨n, ForestEdge.Trailing⟩])
      refine List.Chain'.cons ?_ (List.Chain'.cons ?_ (List.chain'_singleton _))
      · exact move_prev_L_pre m n pre p1 hpre
      · exact move_prev_T_fromL m ⟨n, ForestEdge.Trailing⟩ rfl pm.2
  | FList.cons u rest =>
    have hH : tourF (FList.cons u rest) ≠ [] := tourF_cons_ne_nil u rest
    have hhead : (tourF (FList.cons u rest)).head? = some ⟨u.rootId, ForestEdge.Leading⟩ :=
      head?_tourF_cons u rest
    rcases lastRoot_cons_some u rest with ⟨g, hg⟩
    have hlast : (tourF (FList.cons u rest)).getLast? = some ⟨g, ForestEdge.Trailing⟩ := by
      rw [getLast?_tourF, hg]; rfl
    have hgmem : g ∈ nodesF (FList.cons u rest) := lastRoot_mem _ _ hg
    have humem : u.rootId ∈ nodesF (FList.cons u rest) := by
      rw [nodesF_cons]
      exact List.mem_append.mpr (Or.inl (rootId_mem_nodesT u))
    have seg := segF m (FList.cons u rest) ⟨n, ForestEdge.Leading⟩ ⟨n, ForestEdge.Trailing⟩
      hchI
      (fun _ h hh => by
        rw [hhead] at hh
        simp only [Option.mem_def, Option.some.injEq] at hh
        subst hh
        show getLink m n ForestEdge.Trailing NextPrior.Next ≠ u.rootId
        rw [p_last.1]
        exact fun hc => hpostn2 (by rw [hc]; exact humem))
      (fun _ g' hg' => by
        rw [hlast] at hg'
        simp only [Option.mem_def, Option.some.injEq] at hg'
        subst hg'
        show getLink m n ForestEdge.Leading NextPrior.Prior ≠ g
        rw [p1.2]
        exact fun hc => hpren2 (by rw [hc]; exact hgmem))
      hndch hnn hnn
    constructor
    · rw [tourT_eq, List.cons_append, List.append_assoc]
      refine List.Chain'.cons' ?_ ?_
      · rw [← List.append_assoc]
        refine List.Chain'.append seg.1 (List.chain'_singleton _) ?_
        intro x hx y hy
        rw [List.getLast?_concat] at hx
        simp only [Option.mem_some_iff] at hx
        simp only [List.head?_cons, Option.mem_some_iff] at hy
        subst hx; subst hy
        exact move_next_T_post m n post p_last hpost
      · intro y hy
        rw [List.head?_append_of_ne_nil _ hH, hhead] at hy
        simp only [Option.mem_some_iff] at hy
        subst hy
        refine move_next_L_desc m ⟨n, ForestEdge.Leading⟩ u.rootId rfl ?_ ?_
        · have hh2 : (⟨u.rootId, ForestEdge.Leading⟩ : RawCursor)
              ∈ ((tourF (FList.cons u rest)
                ++ [⟨n, ForestEdge.Trailing⟩] : List RawCursor)).head? := by
            rw [List.head?_append_of_ne_nil _ hH, hhead]
            simp
          exact (List.Chain'.rel_head? hchI hh2).1
        · exact fun hc => hnn (by
            have hc' : u.rootId = n := hc
            rw [← hc']
            exact humem)
    · rw [tourT_eq]
      show List.Chain' (prevRel m)
        (pre :: ⟨n, ForestEdge.Leading⟩ :: (tourF (FList.cons u rest)
          ++ [⟨n, ForestEdge.Trailing⟩]))
      refine List.Chain'.cons (move_prev_L_pre m n pre p1 hpre) ?_
      rw [show (⟨n, ForestEdge.Leading⟩ :: (tourF (FList.cons u rest)
          ++ [⟨n, ForestEdge.Trailing⟩]) : List RawCursor)
          = (⟨n, ForestEdge.Leading⟩ :: tourF (FList.cons u rest))
            ++ [⟨n, ForestEdge.Trailing⟩] by simp]
      refine List.Chain'.append seg.2 (List.chain'_singleton _) ?_
      intro x hx y hy
      rw [show (⟨n, ForestEdge.Leading⟩ :: tourF (FList.cons u rest) : List RawCursor)
          = [⟨n, ForestEdge.Leading⟩] ++ tourF (FList.cons u rest) by simp,
        List.getLast?_append_of_ne_nil _ hH, hlast] at hx
      simp only [Option.mem_some_iff] at hx
      simp only [List.head?_cons, Option.mem_some_iff] at hy
      subst hx; subst hy
      have pg : linkRel m ⟨g, ForestEdge.Trailing⟩ ⟨n, ForestEdge.Trailing⟩ := by
        refine chain_last_pair (l := ⟨n, ForestEdge.Leading⟩ :: tourF (FList.cons u rest))
          ?_ ?_
        · simpa using hchI
        · rw [show (⟨n, ForestEdge.Leading⟩ :: tourF (FList.cons u rest) : List RawCursor)
            = [⟨n, ForestEdge.Leading⟩] ++ tourF (FList.cons u rest) by simp,
            List.getLast?_append_of_ne_nil _ hH, hlast]
      exact move_prev_T_fromT m ⟨n, ForestEdge.Trailing⟩ g rfl pg.2
        (fun hc => hnn (by
          have hc' : g = n := hc
          rw [← hc']
          exact hgmem))

/-- As `segT`, for a whole forest segment. -/
theorem segF (m : Mem) (l : FList) (pre post : RawCursor)
    (hch : List.Chain' (linkRel m) (pre :: (tourF l ++ [post])))
    (hpre : pre.edge = ForestEdge.Leading →
      ∀ h ∈ (tourF l).head?, getLink m pre.node ForestEdge.Trailing NextPrior.Next ≠ h.node)
    (hpost : post.edge = ForestEdge.Trailing →
      ∀ g ∈ (tourF l).getLast?, getLink m post.node ForestEdge.Leading NextPrior.Prior ≠ g.node)
    (hnd : (nodesF l).Nodup)
    (hpren : pre.node ∉ nodesF l)
    (hpostn : post.node ∉ nodesF l) :
    List.Chain' (nextRel m) (tourF l ++ [post]) ∧
    List.Chain' (prevRel m) (pre :: tourF l) := by
  match l with
  | FList.nil =>
    constructor
    · exact List.chain'_singleton _
    · exact List.chain'_singleton _
  | FList.cons u FList.nil =>
    have e0 : tourF (FList.cons u FList.nil) = tourT u := by simp [tourF_cons, tourF]
    rw [e0] at hch hpre hpost ⊢
    rw [show nodesF (FList.cons u FList.nil) = nodesT u by simp [nodesF_cons, nodesF]]
      at hnd hpren hpostn
    exact segT m u pre post hch
      (fun he => by
        have h2 : (⟨u.rootId, ForestEdge.Leading⟩ : RawCursor) ∈ (tourT u).head? := by
          rw [head?_tourT]
          simp
        have := hpre he _ h2
        simpa using this)
      (fun he => by
        have h2 : (⟨u.rootId, ForestEdge.Trailing⟩ : RawCursor) ∈ (tourT u).getLast? := by
          rw [getLast?_tourT]
          simp
        have := hpost he _ h2
        simpa using this)
      hnd hpren hpostn
  | FList.cons u (FList.cons v rest2) =>
    have hRne : tourF (FList.cons v rest2) ≠ [] := tourF_cons_ne_nil v rest2
    have hRhead : (tourF (FList.cons v rest2)).head? = some ⟨v.rootId, ForestEdge.Leading⟩ :=
      head?_tourF_cons v rest2
    rcases u with ⟨r, chU⟩
    have eU : tourT (FTree.mk r chU)
        = ⟨r, ForestEdge.Leading⟩ :: (tourF chU ++ [⟨r, ForestEdge.Trailing⟩]) := rfl
    have hndU : (nodesT (FTree.mk r chU)).Nodup := by
      rw [nodesF_cons] at hnd
      exact (List.nodup_append.mp hnd).1
    have hndR : (nodesF (FList.cons v rest2)).Nodup := by
      rw [nodesF_cons] at hnd
      exact (List.nodup_append.mp hnd).2.1
    have hdisj : (nodesT (FTree.mk r chU)).Disjoint (nodesF (FList.cons v rest2)) := by
      rw [nodesF_cons] at hnd
      exact (List.nodup_append.mp hnd).2.2
    have hvmem : v.rootId ∈ nodesF (FList.cons v rest2) := by
      rw [nodesF_cons]
      exact List.mem_append.mpr (Or.inl (rootId_mem_nodesT v))
    have hrmem : r ∈ nodesT (FTree.mk r chU) := by simp [nodesT_eq]
    have hprenU : pre.node ∉ nodesT (FTree.mk r chU) := fun h => hpren (by
      rw [nodesF_cons]; exact List.mem_append.mpr (Or.inl h))
    have hpostnR : post.node ∉ nodesF (FList.cons v rest2) := fun h => hpostn (by
      rw [nodesF_cons]; exact List.mem_append.mpr (Or.inr h))
    rcases hre : tourF (FList.cons v rest2) with _ | ⟨mid0, M⟩
    · exact absurd hre hRne
    have hmid : mid0 = ⟨v.rootId, ForestEdge.Leading⟩ := by
      rw [hre] at hRhead
      simpa using hRhead
    subst hmid
    have hchU : List.Chain' (linkRel m)
        (pre :: (tourT (FTree.mk r chU) ++ [⟨v.rootId, ForestEdge.Leading⟩])) := by
      refine List.Chain'.prefix hch ⟨M ++ [post], ?_⟩
      rw [tourF_cons, hre]
      simp
    have segU := segT m (FTree.mk r chU) pre ⟨v.rootId, ForestEdge.Leading⟩
      hchU
      (fun he => by
        have h2 : (⟨(FTree.mk r chU).rootId, ForestEdge.Leading⟩ : RawCursor)
            ∈ (tourF (FList.cons (FTree.mk r chU) (FList.cons v rest2))).head? := by
          rw [head?_tourF_cons]
          simp
        have := hpre he _ h2
        simpa using this)
      (fun he => absurd he (by simp))
      hndU hprenU
      (fun h => hdisj h hvmem)
    have hchR : List.Chain' (linkRel m)
        (⟨r, ForestEdge.Trailing⟩ :: (tourF (FList.cons v rest2) ++ [post])) := by
      refine List.Chain'.suffix hch ⟨pre :: ⟨r, ForestEdge.Leading⟩ :: tourF chU, ?_⟩
      simp [tourF_cons, eU]
    have segR := segF m (FList.cons v rest2) ⟨r, ForestEdge.Trailing⟩ post
      hchR
      (fun he => absurd he (by simp))
      (fun he g' hg' => by
        refine hpost he g' ?_
        rw [tourF_cons, List.getLast?_append_of_ne_nil _ hRne]
        exact hg')
      hndR
      (fun h => hdisj hrmem h)
      hpostnR
    have hUlast : (tourT (FTree.mk r chU)).getLast? = some ⟨r, ForestEdge.Trailing⟩ :=
      getLast?_tourT _
    have hUne : tourT (FTree.mk r chU) ≠ [] := tourT_ne_nil _
    constructor
    · rw [tourF_cons, List.append_assoc]
      refine List.Chain'.append (List.Chain'.left_of_append segU.1) segR.1 ?_
      intro x hx y hy
      rw [hUlast] at hx
      rw [List.head?_append_of_ne_nil _ hRne, hRhead] at hy
      simp only [Option.mem_some_iff] at hx hy
      subst hx; subst hy
      exact (List.chain'_append.mp segU.1).2.2 _ hUlast _ rfl
    · rw [tourF_cons, show pre :: (tourT (FTree.mk r chU) ++ tourF (FList.cons v rest2))
        = (pre :: tourT (FTree.mk r chU)) ++ tourF (FList.cons v rest2) by simp]
      refine List.Chain'.append segU.2 (List.Chain'.tail segR.2) ?_
      intro x hx y hy
      rw [show pre :: tourT (FTree.mk r chU) = [pre] ++ tourT (FTree.mk r chU) by simp,
        List.getLast?_append_of_ne_nil _ hUne, hUlast] at hx
      rw [hRhead] at hy
      simp only [Option.mem_some_iff] at hx hy
      subst hx; subst hy
      exact List.Chain'.rel_head? segR.2 (by rw [hRhead]; simp)
end

theorem ringExt_eq (s : Nat) (ts : FList) :
    ringExt s ts = ⟨s, ForestEdge.Leading⟩ ::
      (tourF ts ++ [⟨s, ForestEdge.Trailing⟩, ⟨s, ForestEdge.Leading⟩]) := by
  show (⟨s, ForestEdge.Leading⟩ :: (tourF ts ++ [⟨s, ForestEdge.Trailing⟩]))
      ++ [⟨s, ForestEdge.Leading⟩] = _
  simp

theorem ringL_getLast? (s : Nat) (ts : FList) :
    (ringL s ts).getLast? = some ⟨s, ForestEdge.Trailing⟩ := by
  show ((⟨s, ForestEdge.Leading⟩ :: (tourF ts ++ [⟨s, ForestEdge.Trailing⟩]) :
    List RawCursor)).getLast? = _
  rw [show (⟨s, ForestEdge.Leading⟩ :: (tourF ts ++ [⟨s, ForestEdge.Trailing⟩]) :
      List RawCursor) = (⟨s, ForestEdge.Leading⟩ :: tourF ts)
      ++ [⟨s, ForestEdge.Trailing⟩] by simp]
  exact List.getLast?_concat _

/-- The wrap-around pair of a well formed ring: the end position links
    forward to the root position. -/
theorem wf_wrap_pair (m : Mem) (s : Nat) (ts : FList) (w : WF m s ts) :
    linkRel m ⟨s, ForestEdge.Trailing⟩ ⟨s, ForestEdge.Leading⟩ := by
  have hchain' : List.Chain' (linkRel m) (ringL s ts ++ [⟨s, ForestEdge.Leading⟩]) := w.chain
  exact (List.chain'_append.mp hchain').2.2 _ (ringL_getLast? s ts) _ rfl

theorem wf_ringL_chain (m : Mem) (s : Nat) (ts : FList) (w : WF m s ts) :
    List.Chain' (linkRel m) (ringL s ts) :=
  List.Chain'.left_of_append
    (show List.Chain' (linkRel m) (ringL s ts ++ [⟨s, ForestEdge.Leading⟩]) from w.chain)

/-- The main movement theorem: in a well-formed forest, `move_next` maps
    each position of the cyclic Euler tour to its successor, and `move_prev`
    maps it back. -/
theorem move_ring (m : Mem) (s : Nat) (ts : FList) (w : WF m s ts) :
    List.Chain' (nextRel m) (ringExt s ts) ∧ List.Chain' (prevRel m) (ringExt s ts) := by
  have hs : s ∉ nodesF ts := (List.nodup_cons.mp w.nodup).1
  have hndF : (nodesF ts).Nodup := (List.nodup_cons.mp w.nodup).2
  have pw := wf_wrap_pair m s ts w
  have pw1 : getLink m s ForestEdge.Trailing NextPrior.Next = s := pw.1
  have pw2 : getLink m s ForestEdge.Leading NextPrior.Prior = s := pw.2
  have hrl : List.Chain' (linkRel m)
      (⟨s, ForestEdge.Leading⟩ :: (tourF ts ++ [⟨s, ForestEdge.Trailing⟩])) :=
    wf_ringL_chain m s ts w
  have seg := segF m ts ⟨s, ForestEdge.Leading⟩ ⟨s, ForestEdge.Trailing⟩ hrl
    (fun _ h hh => by
      have hmem : h.node ∈ nodesF ts :=
        node_mem_tourF ts h (List.mem_of_mem_head? hh)
      show getLink m s ForestEdge.Trailing NextPrior.Next ≠ h.node
      rw [pw1]
      exact fun hc => hs (by rw [hc]; exact hmem))
    (fun _ g hg => by
      have hmem : g.node ∈ nodesF ts :=
        node_mem_tourF ts g (List.mem_of_mem_getLast? hg)
      show getLink m s ForestEdge.Leading NextPrior.Prior ≠ g.node
      rw [pw2]
      exact fun hc => hs (by rw [hc]; exact hmem))
    hndF hs hs
  have mn_end : move_next m ⟨s, ForestEdge.Trailing⟩ = ⟨s, ForestEdge.Leading⟩ :=
    move_next_T_toL m ⟨s, ForestEdge.Trailing⟩ s rfl pw1 pw2
  have mp_root : move_prev m ⟨s, ForestEdge.Leading⟩ = ⟨s, ForestEdge.Trailing⟩ :=
    move_prev_L_fromT m ⟨s, ForestEdge.Leading⟩ s rfl pw2 pw1
  constructor
  · rw [ringExt_eq]
    refine List.Chain'.cons' ?_ ?_
    · rw [show (tourF ts ++ [⟨s, ForestEdge.Trailing⟩, ⟨s, ForestEdge.Leading⟩] :
          List RawCursor) = (tourF ts ++ [⟨s, ForestEdge.Trailing⟩])
          ++ [⟨s, ForestEdge.Leading⟩] by simp]
      refine List.Chain'.append seg.1 (List.chain'_singleton _) ?_
      intro x hx y hy
      rw [List.getLast?_concat] at hx
      simp only [Option.mem_def, Option.some.injEq, List.head?_cons] at hx hy
      rw [← hx, ← hy]
      exact mn_end
    · intro y hy
      match hts : ts with
      | FList.nil =>
        simp only [hts, tourF, List.nil_append, List.head?_cons, Option.mem_def,
          Option.some.injEq] at hy
        have hp0 : linkRel m ⟨s, ForestEdge.Leading⟩ ⟨s, ForestEdge.Trailing⟩ := by
          simpa [tourF] using hrl
        rw [← hy]
        exact move_next_L_leaf m ⟨s, ForestEdge.Leading⟩ rfl hp0.1
      | FList.cons u rest =>
        have hne : tourF (FList.cons u rest) ≠ [] := tourF_cons_ne_nil u rest
        rw [List.head?_append_of_ne_nil _ hne, head?_tourF_cons] at hy
        simp only [Option.mem_def, Option.some.injEq] at hy
        have hp0 : linkRel m ⟨s, ForestEdge.Leading⟩ ⟨u.rootId, ForestEdge.Leading⟩ := by
          refine List.Chain'.rel_head? hrl ?_
          rw [List.head?_append_of_ne_nil _ hne, head?_tourF_cons]
          simp
        have hu : u.rootId ∈ nodesF (FList.cons u rest) := by
          rw [nodesF_cons]
          exact List.mem_append.mpr (Or.inl (rootId_mem_nodesT u))
        rw [← hy]
        refine move_next_L_desc m ⟨s, ForestEdge.Leading⟩ u.rootId rfl hp0.1 ?_
        exact fun hc => hs (by
          have hc' : u.rootId = s := hc
          rw [← hc']
          exact hu)
  · rw [ringExt_eq]
    rw [show (⟨s, ForestEdge.Leading⟩ :: (tourF ts
        ++ [⟨s, ForestEdge.Trailing⟩, ⟨s, ForestEdge.Leading⟩]) : List RawCursor)
        = ((⟨s, ForestEdge.Leading⟩ :: tourF ts) ++ [⟨s, ForestEdge.Trailing⟩])
          ++ [⟨s, ForestEdge.Leading⟩] by simp]
    refine List.Chain'.append ?_ (List.chain'_singleton _) ?_
    · refine List.Chain'.append seg.2 (List.chain'_singleton _) ?_
      intro x hx y hy
      simp only [List.head?_cons, Option.mem_def, Option.some.injEq] at hy
      match hts : ts with
      | FList.nil =>
        simp only [hts, tourF] at hx
        simp only [List.getLast?_singleton, Option.mem_def, Option.some.injEq] at hx
        have hp0 : linkRel m ⟨s, ForestEdge.Leading⟩ ⟨s, ForestEdge.Trailing⟩ := by
          simpa [tourF] using hrl
        rw [← hx, ← hy]
        show prevRel m _ _
        exact move_prev_T_fromL m ⟨s, ForestEdge.Trailing⟩ rfl hp0.2
      | FList.cons u rest =>
        have hne : tourF (FList.cons u rest) ≠ [] := tourF_cons_ne_nil u rest
        rcases lastRoot_cons_some u rest with ⟨g, hg⟩
        have hlast : (tourF (FList.cons u rest)).getLast? = some ⟨g, ForestEdge.Trailing⟩ := by
          rw [getLast?_tourF, hg]; rfl
        rw [show (⟨s, ForestEdge.Leading⟩ :: tourF (FList.cons u rest) : List RawCursor)
            = [⟨s, ForestEdge.Leading⟩] ++ tourF (FList.cons u rest) by simp,
          List.getLast?_append_of_ne_nil _ hne, hlast] at hx
        simp only [Option.mem_def, Option.some.injEq] at hx
        have hgmem : g ∈ nodesF (FList.cons u rest) := lastRoot_mem _ _ hg
        have pg : linkRel m ⟨g, ForestEdge.Trailing⟩ ⟨s, ForestEdge.Trailing⟩ := by
          refine chain_last_pair (l := ⟨s, ForestEdge.Leading⟩ :: tourF (FList.cons u rest))
            ?_ ?_
          · simpa using hrl
          · rw [show (⟨s, ForestEdge.Leading⟩ :: tourF (FList.cons u rest) : List RawCursor)
              = [⟨s, ForestEdge.Leading⟩] ++ tourF (FList.cons u rest) by simp,
              List.getLast?_append_of_ne_nil _ hne, hlast]
        rw [← hx, ← hy]
        show prevRel m _ _
        refine move_prev_T_fromT m ⟨s, ForestEdge.Trailing⟩ g rfl pg.2 ?_
        exact fun hc => hs (by rw [← show g = s from hc]; exact hgmem)
    · intro x hx y hy
      rw [List.getLast?_concat] at hx
      simp only [Option.mem_def, Option.some.injEq, List.head?_cons] at hx hy
      rw [← hx, ← hy]
      exact mp_root

theorem chain'_mid {α : Type} {S : α → α → Prop} {P Q : List α} {c p : α}
    (h : List.Chain' S (P ++ c :: Q)) (hp : P.getLast? = some p) : S p c :=
  (List.chain'_append.mp h).2.2 _ hp _ rfl

theorem chain'_pair_left {α : Type} (R S : α → α → Prop) :
    ∀ (l : List α), List.Chain' R l → List.Chain' S l →
      ∀ c ∈ l.dropLast, ∃ d, R c d ∧ S c d
  | [], _, _, c, hc => by simp at hc
  | [_], _, _, c, hc => by simp at hc
  | a :: b :: rest, h1, h2, c, hc => by
    rw [List.dropLast_cons₂, List.mem_cons] at hc
    rcases hc with hc | hc
    · subst hc
      exact ⟨b, (List.chain'_cons.mp h1).1, (List.chain'_cons.mp h2).1⟩
    · exact chain'_pair_left R S (b :: rest) (List.chain'_cons.mp h1).2
        (List.chain'_cons.mp h2).2 c hc

theorem chain'_pair_right {α : Type} (R S : α → α → Prop) :
    ∀ (l : List α), List.Chain' R l → List.Chain' S l →
      ∀ c ∈ l.tail, ∃ d, R d c ∧ S d c
  | [], _, _, c, hc => by simp at hc
  | a :: rest, h1, h2, c, hc => by
    simp only [List.tail_cons] at hc
    match rest, hc with
    | b :: rest2, hc =>
      rcases List.mem_cons.mp hc with hc | hc
      · subst hc
        exact ⟨a, (List.chain'_cons.mp h1).1, (List.chain'_cons.mp h2).1⟩
      · exact chain'_pair_right R S (b :: rest2) (List.chain'_cons.mp h1).2
          (List.chain'_cons.mp h2).2 c (by simpa using hc)

theorem ringExt_dropLast (s : Nat) (ts : FList) : (ringExt s ts).dropLast = ringL s ts := by
  rw [ringExt]
  exact List.dropLast_concat

theorem mem_ringExt_tail (s : Nat) (ts : FList) (c : RawCursor) (hc : c ∈ ringL s ts) :
    c ∈ (ringExt s ts).tail := by
  rw [ringExt, ringL] at *
  rcases List.mem_cons.mp hc with hc | hc
  · subst hc
    simp
  · rw [show ((⟨s, ForestEdge.Leading⟩ :: (tourF ts ++ [⟨s, ForestEdge.Trailing⟩])) ++
      [⟨s, ForestEdge.Leading⟩] : List RawCursor).tail
      = (tourF ts ++ [⟨s, ForestEdge.Trailing⟩]) ++ [⟨s, ForestEdge.Leading⟩] by simp]
    exact List.mem_append.mpr (Or.inl hc)

/-- Round trip: on every reachable position of a well-formed forest,
    `move_prev` undoes `move_next` and `move_next` undoes `move_prev`. -/
theorem move_round_trip (m : Mem) (s : Nat) (ts : FList) (w : WF m s ts)
    (c : RawCursor) (hc : c ∈ ringL s ts) :
    move_prev m (move_next m c) = c ∧ move_next m (move_prev m c) = c := by
  obtain ⟨hn, hp⟩ := move_ring m s ts w
  constructor
  · have hc' : c ∈ (ringExt s ts).dropLast := by
      rw [ringExt_dropLast]; exact hc
    rcases chain'_pair_left (nextRel m) (prevRel m) _ hn hp c hc' with ⟨d, h1, h2⟩
    rw [h1]
    exact h2
  · rcases chain'_pair_right (nextRel m) (prevRel m) _ hn hp c
      (mem_ringExt_tail s ts c hc) with ⟨d, h1, h2⟩
    rw [show move_prev m c = d from h2]
    exact h1

/-- Fueled mirror of the begin-to-end iteration pattern: collect every
    position from `c` until the stop position `e` is reached. -/
def walkTo (m : Mem) (e : RawCursor) : Nat → RawCursor → Option (List RawCursor)
  | 0, c => if c = e then some [] else none
  | fuel + 1, c =>
    if c = e then some []
    else (walkTo m e fuel (move_next m c)).map (fun l => c :: l)

theorem walkTo_walk (m : Mem) (e : RawCursor) :
    ∀ (l : List RawCursor) (c : RawCursor) (fuel : Nat),
      List.Chain' (nextRel m) (c :: (l ++ [e])) → e ∉ c :: l →
      l.length + 1 ≤ fuel → walkTo m e fuel c = some (c :: l)
  | [], c, fuel, hch, he, hf => by
    match fuel, hf with
    | fuel + 1, _ =>
      have h0 : List.Chain' (nextRel m) (c :: e :: []) := by simpa using hch
      have hstep : move_next m c = e := List.Chain'.rel_head (R := nextRel m) h0
      have hne : c ≠ e := fun h => he (by simp [h])
      show (if c = e then some [] else (walkTo m e fuel (move_next m c)).map _) = _
      rw [if_neg hne, hstep]
      match fuel with
      | 0 => simp [walkTo]
      | fuel + 1 => simp [walkTo]
  | b :: l', c, fuel, hch, he, hf => by
    match fuel, hf with
    | fuel + 1, hf =>
      have h0 : List.Chain' (nextRel m) (c :: b :: (l' ++ [e])) := by simpa using hch
      have hstep : move_next m c = b := (List.chain'_cons.mp h0).1
      have hne : c ≠ e := fun h => he (by simp [h])
      have ih := walkTo_walk m e l' b fuel (List.chain'_cons.mp h0).2
        (fun h => he (List.mem_cons.mpr (Or.inr h)))
        (by
          have := hf
          simp only [List.length_cons] at this ⊢
          omega)
      show (if c = e then some [] else (walkTo m e fuel (move_next m c)).map _) = _
      rw [if_neg hne, hstep, ih]
      rfl

/-- In a well-formed forest the begin-to-end traversal by repeated advance
    visits exactly the Euler tour of the forest. -/
theorem walkTo_tour (m : Mem) (s : Nat) (ts : FList) (w : WF m s ts) (fuel : Nat)
    (hf : (tourF ts).length + 1 ≤ fuel) :
    walkTo m ⟨s, ForestEdge.Trailing⟩ fuel (move_next m ⟨s, ForestEdge.Leading⟩)
      = some (tourF ts) := by
  have hs : s ∉ nodesF ts := (List.nodup_cons.mp w.nodup).1
  have hn := (move_ring m s ts w).1
  rw [ringExt_eq] at hn
  have hpre : List.Chain' (nextRel m)
      (⟨s, ForestEdge.Leading⟩ :: (tourF ts ++ [⟨s, ForestEdge.Trailing⟩])) := by
    refine List.Chain'.prefix hn ⟨[⟨s, ForestEdge.Leading⟩], ?_⟩
    simp
  match hts : ts with
  | FList.nil =>
    have hb : move_next m ⟨s, ForestEdge.Leading⟩ = ⟨s, ForestEdge.Trailing⟩ := by
      have h0 : List.Chain' (nextRel m)
          (⟨s, ForestEdge.Leading⟩ :: ⟨s, ForestEdge.Trailing⟩ :: []) := by
        simpa [tourF] using hpre
      exact List.Chain'.rel_head (R := nextRel m) h0
    rw [hb]
    match fuel with
    | 0 => simp [walkTo, tourF]
    | fuel + 1 => simp [walkTo, tourF]
  | FList.cons u rest =>
    have hne : tourF (FList.cons u rest) ≠ [] := tourF_cons_ne_nil u rest
    rcases htf : tourF (FList.cons u rest) with _ | ⟨c0, l0⟩
    · exact absurd htf hne
    have hc0 : c0 ∈ ((tourF (FList.cons u rest)
        ++ [⟨s, ForestEdge.Trailing⟩] : List RawCursor)).head? := by
      rw [htf]
      simp
    have hb : move_next m ⟨s, ForestEdge.Leading⟩ = c0 :=
      List.Chain'.rel_head? (R := nextRel m) hpre hc0
    rw [hb]
    have hres := walkTo_walk m ⟨s, ForestEdge.Trailing⟩ l0 c0 fuel
      (by
        have h1 : List.Chain' (nextRel m)
            (tourF (FList.cons u rest) ++ [⟨s, ForestEdge.Trailing⟩]) :=
          List.Chain'.tail hpre
        rw [htf] at h1
        simpa using h1)
      (by
        intro hmem
        have h2 : (⟨s, ForestEdge.Trailing⟩ : RawCursor).node ∈ nodesF (FList.cons u rest) := by
          refine node_mem_tourF _ _ ?_
          rw [htf]
          exact hmem
        exact hs h2)
      (by
        have h3 : (c0 :: l0).length = (tourF (FList.cons u rest)).length := by rw [htf]
        simp only [List.length_cons] at h3
        omega)
    exact hres

/- ===== Frame reasoning: a linked chain survives heap updates that do not
   touch its link fields. ===== -/

theorem chain_linkRel_frame (m m' : Mem) :
    ∀ (l : List RawCursor), List.Chain' (linkRel m) l →
      (∀ x ∈ l.dropLast, getLink m' x.node x.edge NextPrior.Next
        = getLink m x.node x.edge NextPrior.Next) →
      (∀ x ∈ l.tail, getLink m' x.node x.edge NextPrior.Prior
        = getLink m x.node x.edge NextPrior.Prior) →
      List.Chain' (linkRel m') l
  | [], _, _, _ => List.chain'_nil
  | [a], _, _, _ => List.chain'_singleton _
  | a :: b :: rest, h, hN, hP => by
    rw [List.chain'_cons] at h ⊢
    refine ⟨⟨?_, ?_⟩, ?_⟩
    · rw [hN a (by rw [List.dropLast_cons₂]; exact List.mem_cons_self _ _)]
      exact h.1.1
    · rw [hP b (by simp)]
      exact h.1.2
    · refine chain_linkRel_frame m m' (b :: rest) h.2 ?_ ?_
      · intro x hx
        refine hN x ?_
        rw [List.dropLast_cons₂]
        exact List.mem_cons.mpr (Or.inr hx)
      · intro x hx
        simp only [List.tail_cons] at hx ⊢
        exact hP x (List.mem_cons.mpr (Or.inr hx))

theorem takeWhile_append_of_all {α : Type} (p : α → Bool) :
    ∀ (l₁ l₂ : List α), (∀ x ∈ l₁, p x) →
      (l₁ ++ l₂).takeWhile p = l₁ ++ l₂.takeWhile p
  | [], l₂, _ => rfl
  | a :: l₁, l₂, h => by
    rw [List.cons_append, List.takeWhile_cons_of_pos (h a (List.mem_cons_self _ _)),
      takeWhile_append_of_all p l₁ l₂ (fun x hx => h x (List.mem_cons.mpr (Or.inr hx)))]
    rfl

theorem dropWhile_append_of_all {α : Type} (p : α → Bool) :
    ∀ (l₁ l₂ : List α), (∀ x ∈ l₁, p x) →
      (l₁ ++ l₂).dropWhile p = l₂.dropWhile p
  | [], l₂, _ => rfl
  | a :: l₁, l₂, h => by
    rw [List.cons_append, List.dropWhile_cons_of_pos (h a (List.mem_cons_self _ _))]
    exact dropWhile_append_of_all p l₁ l₂ (fun x hx => h x (List.mem_cons.mpr (Or.inr hx)))

/- ===== Abstract structural operations on forests. ===== -/

/-- Concatenation of forests. -/
def fappendF : FList → FList → FList
  | FList.nil, ys => ys
  | FList.cons t rest, ys => FList.cons t (fappendF rest ys)

theorem tourF_fappendF (xs ys : FList) :
    tourF (fappendF xs ys) = tourF xs ++ tourF ys := by
  match xs with
  | FList.nil => simp [fappendF, tourF]
  | FList.cons t rest =>
    show tourT t ++ tourF (fappendF rest ys) = (tourT t ++ tourF rest) ++ tourF ys
    rw [tourF_fappendF rest ys, List.append_assoc]

theorem nodesF_fappendF (xs ys : FList) :
    nodesF (fappendF xs ys) = nodesF xs ++ nodesF ys := by
  match xs with
  | FList.nil => simp [fappendF, nodesF]
  | FList.cons t rest =>
    show nodesT t ++ nodesF (fappendF rest ys) = (nodesT t ++ nodesF rest) ++ nodesF ys
    rw [nodesF_fappendF rest ys, List.append_assoc]

mutual
/-- Abstract splice into one tree: the forest `xs` is placed immediately
    before the position `c` when `c` is an edge of this tree. -/
def fspliceT (t : FTree) (c : RawCursor) (xs : FList) : FTree :=
  match t with
  | FTree.mk n ch =>
    if c = ⟨n, ForestEdge.Trailing⟩ then FTree.mk n (fappendF ch xs)
    else FTree.mk n (fspliceF ch c xs)
/-- Abstract splice into a forest. -/
def fspliceF (l : FList) (c : RawCursor) (xs : FList) : FList :=
  match l with
  | FList.nil => FList.nil
  | FList.cons t rest =>
    if c = ⟨t.rootId, ForestEdge.Leading⟩ then fappendF xs (FList.cons t rest)
    else FList.cons (fspliceT t c xs) (fspliceF rest c xs)
end

/-- Abstract splice into a whole forest with sentinel `s`: positions in the
    tour plus the end position are supported. -/
def fspliceTop (s : Nat) (ts : FList) (c : RawCursor) (xs : FList) : FList :=
  if c = ⟨s, ForestEdge.Trailing⟩ then fappendF ts xs else fspliceF ts c xs

/-- Abstract insert of one fresh leaf before `c`. -/
def finsTop (s : Nat) (ts : FList) (c : RawCursor) (nu : Nat) : FList :=
  fspliceTop s ts c (FList.cons (FTree.mk nu FList.nil) FList.nil)

theorem takeWhile_append_of_exists {α : Type} (p : α → Bool) :
    ∀ (l₁ l₂ : List α), (∃ x ∈ l₁, ¬ p x) →
      (l₁ ++ l₂).takeWhile p = l₁.takeWhile p ∧
      (l₁ ++ l₂).dropWhile p = l₁.dropWhile p ++ l₂
  | [], _, h => by simp at h
  | a :: l₁, l₂, h => by
    by_cases hpa : p a
    · have h' : ∃ x ∈ l₁, ¬ p x := by
        rcases h with ⟨x, hx, hpx⟩
        rcases List.mem_cons.mp hx with hx | hx
        · exact absurd hpa (hx ▸ hpx)
        · exact ⟨x, hx, hpx⟩
      have ih := takeWhile_append_of_exists p l₁ l₂ h'
      constructor
      · rw [List.cons_append, List.takeWhile_cons_of_pos hpa,
          List.takeWhile_cons_of_pos hpa, ih.1]
      · rw [List.cons_append, List.dropWhile_cons_of_pos hpa,
          List.dropWhile_cons_of_pos hpa, ih.2]
    · constructor
      · rw [List.cons_append, List.takeWhile_cons_of_neg hpa,
          List.takeWhile_cons_of_neg hpa]
      · rw [List.cons_append, List.dropWhile_cons_of_neg hpa,
          List.dropWhile_cons_of_neg hpa]
        simp

theorem dropWhile_ne_eq_cons {α : Type} [DecidableEq α] :
    ∀ (l : List α) (c : α), c ∈ l →
      ∃ t, l.dropWhile (fun x => x != c) = c :: t
  | [], c, h => by simp at h
  | a :: l, c, h => by
    by_cases hac : a = c
    · subst hac
      exact ⟨l, by rw [List.dropWhile_cons_of_neg (by simp)]⟩
    · rcases List.mem_cons.mp h with h' | h'
      · exact absurd h'.symm hac
      · rcases dropWhile_ne_eq_cons l c h' with ⟨t, ht⟩
        exact ⟨t, by rw [List.dropWhile_cons_of_pos (by simpa using hac), ht]⟩

theorem mem_cursor_tourT_self (n : Nat) (ch : FList) (e : ForestEdge) :
    (⟨n, e⟩ : RawCursor) ∈ tourT (FTree.mk n ch) :=
  cursor_mem_tourT _ n e (by simp [nodesT_eq])

mutual
theorem fspliceT_id (t : FTree) (c : RawCursor) (xs : FList) (h : c ∉ tourT t) :
    fspliceT t c xs = t := by
  rcases t with ⟨n, ch⟩
  have h1 : c ≠ ⟨n, ForestEdge.Trailing⟩ := fun hc =>
    h (hc ▸ mem_cursor_tourT_self n ch ForestEdge.Trailing)
  show (if c = ⟨n, ForestEdge.Trailing⟩ then _ else FTree.mk n (fspliceF ch c xs)) = _
  rw [if_neg h1, fspliceF_id ch c xs (fun hc => h (by
    rw [tourT_eq]
    exact List.mem_cons.mpr (Or.inr (List.mem_append.mpr (Or.inl hc)))))]
theorem fspliceF_id (l : FList) (c : RawCursor) (xs : FList) (h : c ∉ tourF l) :
    fspliceF l c xs = l := by
  match l with
  | FList.nil => rfl
  | FList.cons t rest =>
    rcases t with ⟨n, ch⟩
    have h1 : c ≠ ⟨n, ForestEdge.Leading⟩ := fun hc => h (by
      rw [tourF_cons]
      exact List.mem_append.mpr (Or.inl (hc ▸ mem_cursor_tourT_self n ch ForestEdge.Leading)))
    show (if c = ⟨(FTree.mk n ch).rootId, ForestEdge.Leading⟩ then _
      else FList.cons (fspliceT (FTree.mk n ch) c xs) (fspliceF rest c xs)) = _
    rw [if_neg (by simpa [FTree.rootId] using h1),
      fspliceT_id (FTree.mk n ch) c xs (fun hc => h (by
        rw [tourF_cons]
        exact List.mem_append.mpr (Or.inl hc))),
      fspliceF_id rest c xs (fun hc => h (by
        rw [tourF_cons]
        exact List.mem_append.mpr (Or.inr hc)))]
end

theorem fspliceT_eq (n : Nat) (ch : FList) (c : RawCursor) (xs : FList) :
    fspliceT (FTree.mk n ch) c xs =
      if c = ⟨n, ForestEdge.Trailing⟩ then FTree.mk n (fappendF ch xs)
      else FTree.mk n (fspliceF ch c xs) := rfl

theorem fspliceF_eq (t : FTree) (rest : FList) (c : RawCursor) (xs : FList) :
    fspliceF (FList.cons t rest) c xs =
      if c = ⟨t.rootId, ForestEdge.Leading⟩ then fappendF xs (FList.cons t rest)
      else FList.cons (fspliceT t c xs) (fspliceF rest c xs) := rfl

theorem all_ne_of_not_mem {α : Type} [DecidableEq α] (l : List α) (c : α) (h : c ∉ l) :
    ∀ x ∈ l, (x != c) = true := by
  intro x hx
  simp only [bne_iff_ne, ne_eq]
  exact fun hxc => h (hxc ▸ hx)

theorem not_mem_tourF_of_node (l : FList) (n : Nat) (h : n ∉ nodesF l) (e : ForestEdge) :
    (⟨n, e⟩ : RawCursor) ∉ tourF l := fun hc => h (node_mem_tourF l _ hc)

mutual
/-- Tour of an abstract splice inside one tree: the spliced tour appears
    immediately before the position `c`. -/
theorem tour_fspliceT (t : FTree) (c : RawCursor) (xs : FList)
    (hmem : c ∈ tourT t) (hroot : c ≠ ⟨t.rootId, ForestEdge.Leading⟩)
    (hnd : (nodesT t).Nodup) :
    tourT (fspliceT t c xs)
      = (tourT t).takeWhile (fun x => x != c) ++ tourF xs
        ++ (tourT t).dropWhile (fun x => x != c) := by
  rcases t with ⟨n, ch⟩
  have hnn : n ∉ nodesF ch := (List.nodup_cons.mp (by simpa [nodesT_eq] using hnd)).1
  have hndch : (nodesF ch).Nodup := (List.nodup_cons.mp (by simpa [nodesT_eq] using hnd)).2
  have hroot' : c ≠ ⟨n, ForestEdge.Leading⟩ := by simpa [FTree.rootId] using hroot
  by_cases hc : c = ⟨n, ForestEdge.Trailing⟩
  · subst hc
    rw [fspliceT_eq, if_pos rfl]
    have hchne : (⟨n, ForestEdge.Trailing⟩ : RawCursor) ∉ tourF ch :=
      not_mem_tourF_of_node ch n hnn _
    rw [tourT_eq, tourT_eq, tourF_fappendF]
    rw [show (⟨n, ForestEdge.Leading⟩ :: (tourF ch ++ [⟨n, ForestEdge.Trailing⟩]) :
        List RawCursor) = (⟨n, ForestEdge.Leading⟩ :: tourF ch)
        ++ [⟨n, ForestEdge.Trailing⟩] by simp]
    have hall : ∀ x ∈ (⟨n, ForestEdge.Leading⟩ :: tourF ch : List RawCursor),
        (x != (⟨n, ForestEdge.Trailing⟩ : RawCursor)) = true := by
      refine all_ne_of_not_mem _ _ ?_
      intro hc2
      rcases List.mem_cons.mp hc2 with hc2 | hc2
      · simp at hc2
      · exact hchne hc2
    rw [takeWhile_append_of_all _ _ _ hall, dropWhile_append_of_all _ _ _ hall]
    rw [List.takeWhile_cons_of_neg (by simp), List.dropWhile_cons_of_neg (by simp)]
    simp
  · -- c lies inside the children tour
    have hcch : c ∈ tourF ch := by
      rw [tourT_eq] at hmem
      rcases List.mem_cons.mp hmem with h | h
      · exact absurd h hroot'
      · rcases List.mem_append.mp h with h | h
        · exact h
        · simp only [List.mem_singleton] at h
          exact absurd h hc
    have ih := tour_fspliceF ch c xs hcch hndch
    rw [fspliceT_eq, if_neg hc, tourT_eq, tourT_eq, ih]
    have hex : ∃ x ∈ tourF ch, ¬ (x != c) = true := ⟨c, hcch, by simp⟩
    have hsplit := takeWhile_append_of_exists (fun x => x != c) (tourF ch)
      [⟨n, ForestEdge.Trailing⟩] hex
    rw [List.takeWhile_cons_of_pos (by simpa using (Ne.symm hroot')),
      List.dropWhile_cons_of_pos (by simpa using (Ne.symm hroot')),
      hsplit.1, hsplit.2]
    simp
/-- Tour of an abstract splice inside a forest. -/
theorem tour_fspliceF (l : FList) (c : RawCursor) (xs : FList)
    (hmem : c ∈ tourF l) (hnd : (nodesF l).Nodup) :
    tourF (fspliceF l c xs)
      = (tourF l).takeWhile (fun x => x != c) ++ tourF xs
        ++ (tourF l).dropWhile (fun x => x != c) := by
  match l with
  | FList.nil => simp [tourF] at hmem
  | FList.cons t rest =>
    have hndT : (nodesT t).Nodup := (List.nodup_append.mp (by
      simpa [nodesF_cons] using hnd)).1
    have hndR : (nodesF rest).Nodup := (List.nodup_append.mp (by
      simpa [nodesF_cons] using hnd)).2.1
    have hdisj : (nodesT t).Disjoint (nodesF rest) := (List.nodup_append.mp (by
      simpa [nodesF_cons] using hnd)).2.2
    by_cases hc : c = ⟨t.rootId, ForestEdge.Leading⟩
    · rw [fspliceF_eq, if_pos hc, tourF_fappendF]
      have hhd : ∃ M, tourF (FList.cons t rest) = c :: M := by
        rcases t with ⟨n, ch⟩
        refine ⟨tourF ch ++ [⟨n, ForestEdge.Trailing⟩] ++ tourF rest, ?_⟩
        rw [tourF_cons, tourT_eq, hc]
        simp [FTree.rootId]
      rcases hhd with ⟨M, hM⟩
      rw [hM, List.takeWhile_cons_of_neg (by simp), List.dropWhile_cons_of_neg (by simp)]
      simp
    · rw [fspliceF_eq, if_neg hc]
      by_cases hct : c ∈ tourT t
      · have hcr : c ∉ tourF rest := by
          intro hcr
          exact hdisj (node_mem_tourT t c hct) (node_mem_tourF rest c hcr)
        have ih := tour_fspliceT t c xs hct hc hndT
        rw [tourF_cons, tourF_cons, ih, fspliceF_id rest c xs hcr]
        have hex : ∃ x ∈ tourT t, ¬ (x != c) = true := ⟨c, hct, by simp⟩
        have hsplit := takeWhile_append_of_exists (fun x => x != c) (tourT t)
          (tourF rest) hex
        rw [hsplit.1, hsplit.2]
        simp
      · have hcr : c ∈ tourF rest := by
          rcases List.mem_append.mp (by rw [tourF_cons] at hmem; exact hmem) with h | h
          · exact absurd h hct
          · exact h
        have ih := tour_fspliceF rest c xs hcr hndR
        rw [tourF_cons, tourF_cons, fspliceT_id t c xs hct, ih]
        have hall : ∀ x ∈ tourT t, (x != c) = true := all_ne_of_not_mem _ _ hct
        rw [takeWhile_append_of_all _ _ _ hall, dropWhile_append_of_all _ _ _ hall]
        simp
end

mutual
/-- The node list of a tree is the leading-edge subsequence of its tour. -/
theorem nodes_eq_tour_T (t : FTree) :
    (((tourT t).filter (fun c => is_leading c.edge)).map RawCursor.node) = nodesT t := by
  rcases t with ⟨n, ch⟩
  rw [tourT_eq, nodesT_eq]
  rw [List.filter_cons_of_pos (by simp [is_leading]), List.filter_append]
  rw [show (([⟨n, ForestEdge.Trailing⟩] : List RawCursor).filter
    (fun c => is_leading c.edge)) = [] by simp [is_leading]]
  simp only [List.map_cons, List.append_nil]
  rw [nodes_eq_tour_F ch]
theorem nodes_eq_tour_F (l : FList) :
    (((tourF l).filter (fun c => is_leading c.edge)).map RawCursor.node) = nodesF l := by
  match l with
  | FList.nil => rfl
  | FList.cons t rest =>
    rw [tourF_cons, nodesF_cons, List.filter_append, List.map_append,
      nodes_eq_tour_T t, nodes_eq_tour_F rest]
end

theorem head?_append_two {α : Type} (l : List α) (a b : α) :
    (l ++ [a, b]).head? = (l ++ [a]).head? := by
  cases l <;> simp

/-- Advancing from the root position lands on the first position of the
    forest (begin), which is the head of the tour or the end position. -/
theorem wf_begin (m : Mem) (s : Nat) (ts : FList) (w : WF m s ts) (h : RawCursor)
    (hh : h ∈ ((tourF ts ++ [⟨s, ForestEdge.Trailing⟩] : List RawCursor)).head?) :
    move_next m ⟨s, ForestEdge.Leading⟩ = h := by
  have hn := (move_ring m s ts w).1
  rw [ringExt_eq] at hn
  refine List.Chain'.rel_head? (R := nextRel m) hn ?_
  rw [head?_append_two]
  exact hh

/-- Around any decomposition of the cyclic tour, the three local facts that
    every mutation proof needs about the predecessor of a position. -/
theorem wf_prev_pair (m : Mem) (s : Nat) (ts : FList) (w : WF m s ts)
    (P Q : List RawCursor) (c p : RawCursor)
    (hdec : ringExt s ts = P ++ c :: Q) (hp : P.getLast? = some p) :
    move_prev m c = p ∧ move_next m p = c ∧ linkRel m p c := by
  have hn := (move_ring m s ts w).1
  have hpv := (move_ring m s ts w).2
  rw [hdec] at hn hpv
  have hc := w.chain
  rw [hdec] at hc
  exact ⟨chain'_mid (S := prevRel m) hpv hp, chain'_mid (S := nextRel m) hn hp,
    chain'_mid (S := linkRel m) hc hp⟩

/-- The tour itself is internally linked. -/
theorem wf_tour_chain (m : Mem) (s : Nat) (ts : FList) (w : WF m s ts) :
    List.Chain' (linkRel m) (tourF ts) := by
  have hc := w.chain
  rw [ringExt_eq] at hc
  exact List.Chain'.infix hc ⟨[⟨s, ForestEdge.Leading⟩],
    [⟨s, ForestEdge.Trailing⟩, ⟨s, ForestEdge.Leading⟩], by simp⟩

/-- Retreating from the end position of a nonempty well-formed forest lands
    on the trailing edge of the last root. -/
theorem wf_back (m : Mem) (s : Nat) (ts : FList) (w : WF m s ts) (g : Nat)
    (hg : lastRoot ts = some g) :
    move_prev m ⟨s, ForestEdge.Trailing⟩ = ⟨g, ForestEdge.Trailing⟩ := by
  match ts, hg with
  | FList.cons u rest, hg =>
    have hne : tourF (FList.cons u rest) ≠ [] := tourF_cons_ne_nil u rest
    have hlast : (tourF (FList.cons u rest)).getLast? = some ⟨g, ForestEdge.Trailing⟩ := by
      rw [getLast?_tourF, hg]; rfl
    have hdec : ringExt s (FList.cons u rest)
        = (⟨s, ForestEdge.Leading⟩ :: tourF (FList.cons u rest))
          ++ ⟨s, ForestEdge.Trailing⟩ :: [⟨s, ForestEdge.Leading⟩] := by
      rw [ringExt_eq]
      simp
    have hfin : (⟨s, ForestEdge.Leading⟩ :: tourF (FList.cons u rest) :
        List RawCursor).getLast? = some ⟨g, ForestEdge.Trailing⟩ := by
      rw [show (⟨s, ForestEdge.Leading⟩ :: tourF (FList.cons u rest) : List RawCursor)
        = [⟨s, ForestEdge.Leading⟩] ++ tourF (FList.cons u rest) by simp,
        List.getLast?_append_of_ne_nil _ hne, hlast]
    exact (wf_prev_pair m s (FList.cons u rest) w _ _ _ _ hdec hfin).1

/-- Retreating from the leading edge of the first root lands on the root
    position. -/
theorem wf_prev_first (m : Mem) (s : Nat) (u : FTree) (rest : FList)
    (w : WF m s (FList.cons u rest)) :
    move_prev m ⟨u.rootId, ForestEdge.Leading⟩ = ⟨s, ForestEdge.Leading⟩ := by
  rcases htf : tourF (FList.cons u rest) with _ | ⟨c0, M⟩
  · exact absurd htf (tourF_cons_ne_nil u rest)
  have hc0 : c0 = ⟨u.rootId, ForestEdge.Leading⟩ := by
    have := head?_tourF_cons u rest
    rw [htf] at this
    simpa using this
  subst hc0
  have hdec : ringExt s (FList.cons u rest)
      = [⟨s, ForestEdge.Leading⟩] ++ ⟨u.rootId, ForestEdge.Leading⟩ ::
        (M ++ [⟨s, ForestEdge.Trailing⟩, ⟨s, ForestEdge.Leading⟩]) := by
    rw [ringExt_eq, htf]
    simp
  exact (wf_prev_pair m s (FList.cons u rest) w _ _ _ _ hdec rfl).1

theorem fappendF_nilR (l : FList) : fappendF l FList.nil = l := by
  match l with
  | FList.nil => rfl
  | FList.cons t rest =>
    show FList.cons t (fappendF rest FList.nil) = _
    rw [fappendF_nilR rest]

mutual
theorem fspliceT_nilX (t : FTree) (c : RawCursor) : fspliceT t c FList.nil = t := by
  rcases t with ⟨n, ch⟩
  rw [fspliceT_eq]
  by_cases h : c = ⟨n, ForestEdge.Trailing⟩
  · rw [if_pos h, fappendF_nilR]
  · rw [if_neg h, fspliceF_nilX ch c]
theorem fspliceF_nilX (l : FList) (c : RawCursor) : fspliceF l c FList.nil = l := by
  match l with
  | FList.nil => rfl
  | FList.cons t rest =>
    rw [fspliceF_eq]
    by_cases h : c = ⟨t.rootId, ForestEdge.Leading⟩
    · rw [if_pos h]
      rfl
    · rw [if_neg h, fspliceT_nilX t c, fspliceF_nilX rest c]
end

theorem fspliceTop_nil (s : Nat) (ts : FList) (c : RawCursor) :
    fspliceTop s ts c FList.nil = ts := by
  rw [fspliceTop]
  by_cases h : c = ⟨s, ForestEdge.Trailing⟩
  · rw [if_pos h, fappendF_nilR]
  · rw [if_neg h, fspliceF_nilX]

/-- The cyclic tour splits at any valid destination position, and the tour
    of the abstract splice re-assembles around it. -/
theorem ringL_decomp (s : Nat) (ts : FList) (c : RawCursor) (xs : FList)
    (hnd : (s :: nodesF ts).Nodup)
    (hc : c ∈ tourF ts ++ [⟨s, ForestEdge.Trailing⟩]) :
    ∃ T1 T2,
      ringL s ts = (⟨s, ForestEdge.Leading⟩ :: T1) ++ c :: T2 ∧
      ringL s (fspliceTop s ts c xs)
        = (⟨s, ForestEdge.Leading⟩ :: T1) ++ (tourF xs ++ c :: T2) := by
  have hs : s ∉ nodesF ts := (List.nodup_cons.mp hnd).1
  have hndF : (nodesF ts).Nodup := (List.nodup_cons.mp hnd).2
  rcases List.mem_append.mp hc with hin | hend
  · have hce : c ≠ ⟨s, ForestEdge.Trailing⟩ := by
      intro he
      exact hs (by
        have := node_mem_tourF ts c hin
        rw [he] at this
        exact this)
    obtain ⟨T2', hT2'⟩ := dropWhile_ne_eq_cons (tourF ts) c hin
    have htw := List.takeWhile_append_dropWhile (p := fun x => x != c) (l := tourF ts)
    refine ⟨(tourF ts).takeWhile (fun x => x != c), T2' ++ [⟨s, ForestEdge.Trailing⟩],
      ?_, ?_⟩
    · rw [ringL]
      conv_lhs => rw [← htw]
      rw [hT2']
      simp
    · rw [ringL, fspliceTop, if_neg hce, tour_fspliceF ts c xs hin hndF, hT2']
      simp
  · simp only [List.mem_singleton] at hend
    subst hend
    refine ⟨tourF ts, [], ?_, ?_⟩
    · rw [ringL]
      simp
    · rw [ringL, fspliceTop, if_pos rfl, tourF_fappendF]
      simp

theorem ne_of_node_ne {x y : RawCursor} (h : x.node ≠ y.node) : x ≠ y :=
  fun he => h (he ▸ rfl)

theorem cursor_cond_of_ne {d x : RawCursor} (h : d ≠ x) :
    ¬(d.node = x.node ∧ d.edge = x.edge) := by
  rintro ⟨h1, h2⟩
  rcases d with ⟨dn, de⟩
  rcases x with ⟨xn, xe⟩
  simp_all

theorem getLink_set_next_ne_next (m : Mem) (x y d : RawCursor) (h : d ≠ x) :
    getLink (set_next m x y) d.node d.edge NextPrior.Next
      = getLink m d.node d.edge NextPrior.Next := by
  rw [getLink_set_next]
  have := cursor_cond_of_ne h
  simp_all

theorem getLink_set_next_ne_prior (m : Mem) (x y d : RawCursor) (h : d ≠ y) :
    getLink (set_next m x y) d.node d.edge NextPrior.Prior
      = getLink m d.node d.edge NextPrior.Prior := by
  rw [getLink_set_next]
  have := cursor_cond_of_ne h
  simp_all

theorem getLink_set_next_self_next (m : Mem) (x y : RawCursor) :
    getLink (set_next m x y) x.node x.edge NextPrior.Next = y.node := by
  rw [getLink_set_next]
  simp

theorem getLink_set_next_self_prior (m : Mem) (x y : RawCursor) :
    getLink (set_next m x y) y.node y.edge NextPrior.Prior = x.node := by
  rw [getLink_set_next]
  simp

theorem ne_getLast_of_mem_dropLast {α : Type} (l : List α) (hl : l.Nodup) (x a : α)
    (hx : x ∈ l.dropLast) (ha : l.getLast? = some a) : x ≠ a := by
  match l with
  | [] => simp at hx
  | b :: l' =>
    have hne : b :: l' ≠ [] := by simp
    have heq : (b :: l').dropLast ++ [(b :: l').getLast hne] = b :: l' :=
      List.dropLast_append_getLast hne
    have ha' : (b :: l').getLast hne = a := by
      have := List.getLast?_eq_getLast (b :: l') hne
      rw [this] at ha
      simpa using ha
    rw [← heq] at hl
    have hdisj := (List.nodup_append.mp hl).2.2
    intro hxa
    exact hdisj hx (by simp [ha', hxa])

theorem ne_head_of_mem_tail {α : Type} (l : List α) (hl : l.Nodup) (x a : α)
    (hx : x ∈ l.tail) (ha : l.head? = some a) : x ≠ a := by
  match l with
  | [] => simp at hx
  | b :: l' =>
    simp only [List.head?_cons, Option.some.injEq] at ha
    subst ha
    simp only [List.tail_cons] at hx
    intro hxa
    subst hxa
    exact (List.nodup_cons.mp hl).1 hx

/-- Distinctness of ids is preserved by an abstract splice of disjoint
    forests. -/
theorem nodup_fspliceTop (s : Nat) (ts xs : FList) (c : RawCursor)
    (hnd : (s :: nodesF ts).Nodup) (hndxs : (nodesF xs).Nodup)
    (hdj : (s :: nodesF ts).Disjoint (nodesF xs))
    (hc : c ∈ tourF ts ++ [⟨s, ForestEdge.Trailing⟩]) :
    (s :: nodesF (fspliceTop s ts c xs)).Nodup := by
  obtain ⟨T1, T2, h1, h2⟩ := ringL_decomp s ts c xs hnd hc
  have h1' : tourF ts ++ [⟨s, ForestEdge.Trailing⟩] = T1 ++ c :: T2 := by
    have h := h1
    rw [ringL] at h
    simpa using h
  have h2' : tourF (fspliceTop s ts c xs) ++ [⟨s, ForestEdge.Trailing⟩]
      = T1 ++ (tourF xs ++ c :: T2) := by
    have h := h2
    rw [ringL] at h
    simpa using h
  have e1 : nodesF ts
      = ((T1 ++ c :: T2).filter (fun d => is_leading d.edge)).map RawCursor.node := by
    rw [← h1', List.filter_append]
    rw [show (([⟨s, ForestEdge.Trailing⟩] : List RawCursor).filter
      (fun d => is_leading d.edge)) = [] by simp [is_leading]]
    rw [List.append_nil, nodes_eq_tour_F]
  have e2 : nodesF (fspliceTop s ts c xs)
      = ((T1 ++ (tourF xs ++ c :: T2)).filter (fun d => is_leading d.edge)).map
          RawCursor.node := by
    rw [← h2', List.filter_append]
    rw [show (([⟨s, ForestEdge.Trailing⟩] : List RawCursor).filter
      (fun d => is_leading d.edge)) = [] by simp [is_leading]]
    rw [List.append_nil, nodes_eq_tour_F]
  have hperm : (s :: nodesF (fspliceTop s ts c xs)).Perm
      ((s :: nodesF ts) ++ nodesF xs) := by
    rw [e1, e2]
    simp only [List.filter_append, List.map_append, nodes_eq_tour_F]
    refine List.Perm.cons s ?_
    refine List.Perm.trans (List.Perm.append_left _ List.perm_append_comm) ?_
    rw [← List.append_assoc]
    exact List.Perm.refl _
  refine hperm.symm.nodup ?_
  exact List.Nodup.append hnd hndxs hdj

theorem move_prev_congr (m m' : Mem) (c : RawCursor)
    (h1 : getLink m' c.node c.edge NextPrior.Prior = getLink m c.node c.edge NextPrior.Prior)
    (h2 : getLink m' (getLink m c.node c.edge NextPrior.Prior) ForestEdge.Trailing
        NextPrior.Next
      = getLink m (getLink m c.node c.edge NextPrior.Prior) ForestEdge.Trailing
        NextPrior.Next) :
    move_prev m' c = move_prev m c := by
  rw [move_prev_spec, move_prev_spec, h1]
  rcases hce : c.edge with _ | _
  · simp [hce]
  · rw [hce] at h2
    simp [hce, h2]

theorem getLink_next_frame3 (m : Mem) (x1 y1 x2 y2 x3 y3 d : RawCursor)
    (h1 : d ≠ x1) (h2 : d ≠ x2) (h3 : d ≠ x3) :
    getLink (set_next (set_next (set_next m x1 y1) x2 y2) x3 y3) d.node d.edge
        NextPrior.Next
      = getLink m d.node d.edge NextPrior.Next := by
  rw [getLink_set_next_ne_next _ _ _ _ h3, getLink_set_next_ne_next _ _ _ _ h2,
    getLink_set_next_ne_next _ _ _ _ h1]

theorem getLink_prior_frame3 (m : Mem) (x1 y1 x2 y2 x3 y3 d : RawCursor)
    (h1 : d ≠ y1) (h2 : d ≠ y2) (h3 : d ≠ y3) :
    getLink (set_next (set_next (set_next m x1 y1) x2 y2) x3 y3) d.node d.edge
        NextPrior.Prior
      = getLink m d.node d.edge NextPrior.Prior := by
  rw [getLink_set_next_ne_prior _ _ _ _ h3, getLink_set_next_ne_prior _ _ _ _ h2,
    getLink_set_next_ne_prior _ _ _ _ h1]

theorem splice_eq_of_ne (m : Mem) (c first last : RawCursor)
    (h : ¬(first = last ∨ first = c)) :
    RawCursor.splice m c first last =
      (set_next (set_next (set_next m (prev_child m first) last)
        (move_prev (set_next m (prev_child m first) last) c) first)
        (move_prev m last) c, first) := by
  rw [RawCursor.splice, if_neg h]

/-- Raw splice of a whole source forest `[A.begin, A.end)` before a valid
    destination position `c` of forest B: the destination realises the
    abstract splice, and the source forest is left empty. -/
theorem splice_wf (m : Mem) (sB sA : Nat) (tsB tsA : FList) (c : RawCursor)
    (wB : WF m sB tsB) (wA : WF m sA tsA)
    (hdisj : (sB :: nodesF tsB).Disjoint (sA :: nodesF tsA))
    (hc : c ∈ tourF tsB ++ [⟨sB, ForestEdge.Trailing⟩]) :
    WF (RawCursor.splice m c (move_next m ⟨sA, ForestEdge.Leading⟩)
        ⟨sA, ForestEdge.Trailing⟩).1 sB (fspliceTop sB tsB c tsA)
    ∧ WF (RawCursor.splice m c (move_next m ⟨sA, ForestEdge.Leading⟩)
        ⟨sA, ForestEdge.Trailing⟩).1 sA FList.nil
    ∧ (tsA = FList.nil → RawCursor.splice m c (move_next m ⟨sA, ForestEdge.Leading⟩)
        ⟨sA, ForestEdge.Trailing⟩ = (m, c))
    ∧ (tsA ≠ FList.nil → (RawCursor.splice m c (move_next m ⟨sA, ForestEdge.Leading⟩)
        ⟨sA, ForestEdge.Trailing⟩).2 = move_next m ⟨sA, ForestEdge.Leading⟩) := by
  have hcnode : c.node ∈ sB :: nodesF tsB := by
    rcases List.mem_append.mp hc with h | h
    · exact List.mem_cons.mpr (Or.inr (node_mem_tourF _ _ h))
    · simp only [List.mem_singleton] at h
      rw [h]
      exact List.mem_cons_self _ _
  match htsA : tsA with
  | FList.nil =>
    have hb : move_next m ⟨sA, ForestEdge.Leading⟩ = ⟨sA, ForestEdge.Trailing⟩ :=
      wf_begin m sA FList.nil wA _ (by simp [tourF])
    have hsp : RawCursor.splice m c (move_next m ⟨sA, ForestEdge.Leading⟩)
        ⟨sA, ForestEdge.Trailing⟩ = (m, c) := by
      rw [hb, RawCursor.splice, if_pos (Or.inl rfl)]
    rw [hsp]
    refine ⟨?_, wA, fun _ => rfl, fun h => absurd rfl h⟩
    rw [fspliceTop_nil]
    exact wB
  | FList.cons a0 restA =>
    -- names for the boundary cursors
    have hndA := wA.nodup
    have hsAnm : sA ∉ nodesF (FList.cons a0 restA) := (List.nodup_cons.mp hndA).1
    have hndFA : (nodesF (FList.cons a0 restA)).Nodup := (List.nodup_cons.mp hndA).2
    have hr0mem : a0.rootId ∈ nodesF (FList.cons a0 restA) := by
      rw [nodesF_cons]
      exact List.mem_append.mpr (Or.inl (rootId_mem_nodesT a0))
    have hfirst : move_next m ⟨sA, ForestEdge.Leading⟩ = ⟨a0.rootId, ForestEdge.Leading⟩ :=
      wf_begin m sA (FList.cons a0 restA) wA _ (by
        rw [show (tourF (FList.cons a0 restA) ++ [⟨sA, ForestEdge.Trailing⟩] :
          List RawCursor).head? = (tourF (FList.cons a0 restA)).head? from
          List.head?_append_of_ne_nil _ (tourF_cons_ne_nil a0 restA),
          head?_tourF_cons]
        simp)
    rcases lastRoot_cons_some a0 restA with ⟨gA, hgA⟩
    have hgAmem : gA ∈ nodesF (FList.cons a0 restA) := lastRoot_mem _ _ hgA
    have hback : move_prev m ⟨sA, ForestEdge.Trailing⟩ = ⟨gA, ForestEdge.Trailing⟩ :=
      wf_back m sA (FList.cons a0 restA) wA gA hgA
    have hpcfst : prev_child m ⟨a0.rootId, ForestEdge.Leading⟩ = ⟨sA, ForestEdge.Leading⟩ := by
      rw [prev_child, wf_prev_first m sA a0 restA wA]
      rfl
    -- destination-side decomposition
    have hndB := wB.nodup
    have hsBnm : sB ∉ nodesF tsB := (List.nodup_cons.mp hndB).1
    obtain ⟨T1, T2, hdecB, hdecB'⟩ :=
      ringL_decomp sB tsB c (FList.cons a0 restA) hndB hc
    have hRLnodup : (ringL sB tsB).Nodup := ringL_nodup sB tsB hndB
    have hPQnodup := hRLnodup
    rw [hdecB] at hPQnodup
    have hPnodup : (⟨sB, ForestEdge.Leading⟩ :: T1 : List RawCursor).Nodup :=
      (List.nodup_append.mp hPQnodup).1
    have hcT2nodup : (c :: T2 : List RawCursor).Nodup :=
      (List.nodup_append.mp hPQnodup).2.1
    have hPdisj : (⟨sB, ForestEdge.Leading⟩ :: T1 : List RawCursor).Disjoint (c :: T2) :=
      (List.nodup_append.mp hPQnodup).2.2
    rcases hlp : (⟨sB, ForestEdge.Leading⟩ :: T1 : List RawCursor).getLast? with _ | p
    · simp at hlp
    have hpmem : p ∈ (⟨sB, ForestEdge.Leading⟩ :: T1 : List RawCursor) :=
      List.mem_of_mem_getLast? hlp
    have hsubP : ∀ x ∈ (⟨sB, ForestEdge.Leading⟩ :: T1 : List RawCursor), x ∈ ringL sB tsB := by
      intro x hx
      rw [hdecB]
      exact List.mem_append.mpr (Or.inl hx)
    have hsubCT2 : ∀ x ∈ (c :: T2 : List RawCursor), x ∈ ringL sB tsB := by
      intro x hx
      rw [hdecB]
      exact List.mem_append.mpr (Or.inr hx)
    -- every destination-ring cursor differs from every source-side cursor
    have hBfacts : ∀ x ∈ ringL sB tsB,
        x ≠ ⟨sA, ForestEdge.Leading⟩ ∧ x ≠ ⟨sA, ForestEdge.Trailing⟩ ∧
        x ≠ ⟨a0.rootId, ForestEdge.Leading⟩ ∧ x ≠ ⟨gA, ForestEdge.Trailing⟩ := by
      intro x hx
      have hxB : x.node ∈ sB :: nodesF tsB := node_mem_ringL sB tsB x hx
      have hA1 : sA ∈ sA :: nodesF (FList.cons a0 restA) := List.mem_cons_self _ _
      have hA2 : a0.rootId ∈ sA :: nodesF (FList.cons a0 restA) :=
        List.mem_cons.mpr (Or.inr hr0mem)
      have hA3 : gA ∈ sA :: nodesF (FList.cons a0 restA) :=
        List.mem_cons.mpr (Or.inr hgAmem)
      refine ⟨ne_of_node_ne ?_, ne_of_node_ne ?_, ne_of_node_ne ?_, ne_of_node_ne ?_⟩
      · exact fun h => hdisj hxB (h ▸ hA1)
      · exact fun h => hdisj hxB (h ▸ hA1)
      · exact fun h => hdisj hxB (h ▸ hA2)
      · exact fun h => hdisj hxB (h ▸ hA3)
    have hpfacts := hBfacts p (hsubP p hpmem)
    have hcfacts := hBfacts c (hsubCT2 c (List.mem_cons_self _ _))
    -- the guard of the raw splice fails
    have hfc : (⟨a0.rootId, ForestEdge.Leading⟩ : RawCursor) ≠ c :=
      (hBfacts c (hsubCT2 c (List.mem_cons_self _ _))).2.2.1.symm
    have hguard : ¬((⟨a0.rootId, ForestEdge.Leading⟩ : RawCursor)
        = ⟨sA, ForestEdge.Trailing⟩ ∨ (⟨a0.rootId, ForestEdge.Leading⟩ : RawCursor) = c) := by
      rintro (h | h)
      · simp at h
      · exact hfc h
    -- the predecessor of the destination position
    have hdecExt : ringExt sB tsB = (⟨sB, ForestEdge.Leading⟩ :: T1)
        ++ c :: (T2 ++ [⟨sB, ForestEdge.Leading⟩]) := by
      rw [ringExt, hdecB]
      simp
    obtain ⟨hprevc, hnextp, hlinkpc⟩ :=
      wf_prev_pair m sB tsB wB _ _ c p hdecExt hlp
    -- the first relink (emptying A's sentinel) does not affect reads at c
    have hm1prev : move_prev (set_next m ⟨sA, ForestEdge.Leading⟩ ⟨sA, ForestEdge.Trailing⟩) c
        = p := by
      rw [← hprevc]
      refine move_prev_congr m _ c ?_ ?_
      · refine getLink_set_next_ne_prior _ _ _ _ ?_
        exact (hBfacts c (hsubCT2 c (List.mem_cons_self _ _))).2.1
      · have hv : getLink m c.node c.edge NextPrior.Prior = p.node := hlinkpc.2
        rw [hv]
        exact getLink_set_next_ne_next m _ _ ⟨p.node, ForestEdge.Trailing⟩
          (ne_of_node_ne (fun h => hdisj (node_mem_ringL sB tsB p (hsubP p hpmem))
            (by rw [h]; exact List.mem_cons_self _ _)))
    have hcRoot : c ≠ (⟨sB, ForestEdge.Leading⟩ : RawCursor) := by
      rcases List.mem_append.mp hc with h | h
      · exact ne_of_node_ne (fun hn => hsBnm (by
          have hn' : c.node = sB := hn
          rw [← hn']
          exact node_mem_tourF _ _ h))
      · simp only [List.mem_singleton] at h
        rw [h]
        simp
    rw [hfirst, splice_eq_of_ne m c _ _ hguard, hpcfst, hm1prev, hback]
    have hchainB := wB.chain
    rw [hdecExt] at hchainB
    have chainP0 : List.Chain' (linkRel m) (⟨sB, ForestEdge.Leading⟩ :: T1) :=
      hchainB.left_of_append
    have chainQQ0 : List.Chain' (linkRel m)
        (c :: (T2 ++ [⟨sB, ForestEdge.Leading⟩])) := hchainB.right_of_append
    have chainA0 : List.Chain' (linkRel m) (tourF (FList.cons a0 restA)) :=
      wf_tour_chain m sA _ wA
    have hAne : tourF (FList.cons a0 restA) ≠ [] := tourF_cons_ne_nil a0 restA
    have hAnodup : (tourF (FList.cons a0 restA)).Nodup := tourF_nodup _ hndFA
    have hAhead : (tourF (FList.cons a0 restA)).head?
        = some ⟨a0.rootId, ForestEdge.Leading⟩ := head?_tourF_cons a0 restA
    have hAlast : (tourF (FList.cons a0 restA)).getLast?
        = some ⟨gA, ForestEdge.Trailing⟩ := by
      rw [getLast?_tourF, hgA]; rfl
    have chainP : List.Chain'
        (linkRel (set_next (set_next (set_next m ⟨sA, ForestEdge.Leading⟩
          ⟨sA, ForestEdge.Trailing⟩) p ⟨a0.rootId, ForestEdge.Leading⟩)
          ⟨gA, ForestEdge.Trailing⟩ c)) (⟨sB, ForestEdge.Leading⟩ :: T1) := by
      refine chain_linkRel_frame m _ _ chainP0 ?_ ?_
      · intro x hx
        have hxP : x ∈ (⟨sB, ForestEdge.Leading⟩ :: T1 : List RawCursor) :=
          (List.dropLast_sublist _).subset hx
        have hbf := hBfacts x (hsubP x hxP)
        refine getLink_next_frame3 m _ _ _ _ _ _ x hbf.1 ?_ hbf.2.2.2
        exact ne_getLast_of_mem_dropLast _ hPnodup x p hx hlp
      · intro x hx
        have hxP : x ∈ (⟨sB, ForestEdge.Leading⟩ :: T1 : List RawCursor) :=
          List.mem_of_mem_tail hx
        have hbf := hBfacts x (hsubP x hxP)
        refine getLink_prior_frame3 m _ _ _ _ _ _ x hbf.2.1 hbf.2.2.1 ?_
        exact fun hxc => hPdisj hxP (by rw [hxc]; exact List.mem_cons_self _ _)
    have chainQQ : List.Chain'
        (linkRel (set_next (set_next (set_next m ⟨sA, ForestEdge.Leading⟩
          ⟨sA, ForestEdge.Trailing⟩) p ⟨a0.rootId, ForestEdge.Leading⟩)
          ⟨gA, ForestEdge.Trailing⟩ c)) (c :: (T2 ++ [⟨sB, ForestEdge.Leading⟩])) := by
      refine chain_linkRel_frame m _ _ chainQQ0 ?_ ?_
      · intro x hx
        have hx' : x ∈ (c :: T2 : List RawCursor) := by
          rw [show ((c :: (T2 ++ [⟨sB, ForestEdge.Leading⟩]) : List RawCursor)).dropLast
            = c :: T2 by
              rw [show (c :: (T2 ++ [⟨sB, ForestEdge.Leading⟩]) : List RawCursor)
                = (c :: T2) ++ [⟨sB, ForestEdge.Leading⟩] by simp]
              exact List.dropLast_concat] at hx
          exact hx
        have hbf := hBfacts x (hsubCT2 x hx')
        refine getLink_next_frame3 m _ _ _ _ _ _ x hbf.1 ?_ hbf.2.2.2
        exact fun hxp => hPdisj hpmem (by rw [← hxp]; exact hx')
      · intro x hx
        simp only [List.tail_cons] at hx
        rcases List.mem_append.mp hx with hx2 | hxq
        · have hbf := hBfacts x (hsubCT2 x (List.mem_cons.mpr (Or.inr hx2)))
          refine getLink_prior_frame3 m _ _ _ _ _ _ x hbf.2.1 hbf.2.2.1 ?_
          exact fun hxc => (List.nodup_cons.mp hcT2nodup).1 (by rw [← hxc]; exact hx2)
        · simp only [List.mem_singleton] at hxq
          subst hxq
          have hbf := hBfacts ⟨sB, ForestEdge.Leading⟩
            (by rw [ringL]; exact List.mem_cons_self _ _)
          refine getLink_prior_frame3 m _ _ _ _ _ _ _ hbf.2.1 hbf.2.2.1 ?_
          exact fun hxc => hcRoot hxc.symm
    have chainA : List.Chain'
        (linkRel (set_next (set_next (set_next m ⟨sA, ForestEdge.Leading⟩
          ⟨sA, ForestEdge.Trailing⟩) p ⟨a0.rootId, ForestEdge.Leading⟩)
          ⟨gA, ForestEdge.Trailing⟩ c)) (tourF (FList.cons a0 restA)) := by
      refine chain_linkRel_frame m _ _ chainA0 ?_ ?_
      · intro x hx
        have hx' : x ∈ tourF (FList.cons a0 restA) := (List.dropLast_sublist _).subset hx
        have hxn : x.node ∈ nodesF (FList.cons a0 restA) := node_mem_tourF _ _ hx'
        refine getLink_next_frame3 m _ _ _ _ _ _ x ?_ ?_ ?_
        · exact ne_of_node_ne (fun h => hsAnm (by
            have h' : x.node = sA := h
            rw [← h']
            exact hxn))
        · exact ne_of_node_ne (fun h => hdisj (node_mem_ringL sB tsB p (hsubP p hpmem))
            (by
              have h' : x.node = p.node := h
              rw [← h']
              exact List.mem_cons.mpr (Or.inr hxn)))
        · exact ne_getLast_of_mem_dropLast _ hAnodup x _ hx hAlast
      · intro x hx
        have hx' : x ∈ tourF (FList.cons a0 restA) := List.mem_of_mem_tail hx
        have hxn : x.node ∈ nodesF (FList.cons a0 restA) := node_mem_tourF _ _ hx'
        refine getLink_prior_frame3 m _ _ _ _ _ _ x ?_ ?_ ?_
        · exact ne_of_node_ne (fun h => hsAnm (by
            have h' : x.node = sA := h
            rw [← h']
            exact hxn))
        · exact ne_head_of_mem_tail _ hAnodup x _ hx hAhead
        · exact ne_of_node_ne (fun h => hdisj hcnode
            (by
              have h' : x.node = c.node := h
              rw [show c.node = x.node from h'.symm]
              exact List.mem_cons.mpr (Or.inr hxn)))
    have glue1 : linkRel (set_next (set_next (set_next m ⟨sA, ForestEdge.Leading⟩
          ⟨sA, ForestEdge.Trailing⟩) p ⟨a0.rootId, ForestEdge.Leading⟩)
          ⟨gA, ForestEdge.Trailing⟩ c) p ⟨a0.rootId, ForestEdge.Leading⟩ := by
      constructor
      · rw [getLink_set_next_ne_next _ _ _ p hpfacts.2.2.2]
        exact getLink_set_next_self_next _ _ _
      · rw [getLink_set_next_ne_prior _ _ _ ⟨a0.rootId, ForestEdge.Leading⟩ hfc]
        exact getLink_set_next_self_prior _ _ _
    have glue2 : linkRel (set_next (set_next (set_next m ⟨sA, ForestEdge.Leading⟩
          ⟨sA, ForestEdge.Trailing⟩) p ⟨a0.rootId, ForestEdge.Leading⟩)
          ⟨gA, ForestEdge.Trailing⟩ c) ⟨gA, ForestEdge.Trailing⟩ c :=
      ⟨getLink_set_next_self_next _ _ _, getLink_set_next_self_prior _ _ _⟩
    refine ⟨⟨?_, ?_⟩, ⟨by simp [nodesF], ?_⟩, fun h => by simp at h, fun _ => rfl⟩
    · refine nodup_fspliceTop sB tsB (FList.cons a0 restA) c hndB hndFA ?_ hc
      intro x hx hy
      exact hdisj hx (List.mem_cons.mpr (Or.inr hy))
    · have hringNew : ringExt sB (fspliceTop sB tsB c (FList.cons a0 restA))
          = (⟨sB, ForestEdge.Leading⟩ :: T1) ++ (tourF (FList.cons a0 restA)
            ++ (c :: (T2 ++ [⟨sB, ForestEdge.Leading⟩]))) := by
        rw [ringExt, hdecB']
        simp
      rw [hringNew]
      refine List.Chain'.append chainP (List.Chain'.append chainA chainQQ ?_) ?_
      · intro x hx y hy
        rw [hAlast] at hx
        simp only [Option.mem_def, Option.some.injEq, List.head?_cons] at hx hy
        rw [← hx, ← hy]
        exact glue2
      · intro x hx y hy
        rw [hlp] at hx
        rw [List.head?_append_of_ne_nil _ hAne, hAhead] at hy
        simp only [Option.mem_def, Option.some.injEq] at hx hy
        rw [← hx, ← hy]
        exact glue1
    · -- the source forest is empty and still well linked
      have e1 : getLink (set_next (set_next (set_next m ⟨sA, ForestEdge.Leading⟩
          ⟨sA, ForestEdge.Trailing⟩) p ⟨a0.rootId, ForestEdge.Leading⟩)
          ⟨gA, ForestEdge.Trailing⟩ c) sA ForestEdge.Leading NextPrior.Next = sA := by
        rw [getLink_set_next_ne_next _ _ _ ⟨sA, ForestEdge.Leading⟩
          (ne_of_node_ne (fun h => hsAnm (by
            have h' : sA = gA := h
            rw [h']
            exact hgAmem)))]
        rw [getLink_set_next_ne_next _ _ _ ⟨sA, ForestEdge.Leading⟩
          (ne_of_node_ne (fun h => hdisj (node_mem_ringL sB tsB p (hsubP p hpmem))
            (by
              have h' : sA = p.node := h
              rw [← h']
              exact List.mem_cons_self _ _)))]
        exact getLink_set_next_self_next _ _ _
      have e2 : getLink (set_next (set_next (set_next m ⟨sA, ForestEdge.Leading⟩
          ⟨sA, ForestEdge.Trailing⟩) p ⟨a0.rootId, ForestEdge.Leading⟩)
          ⟨gA, ForestEdge.Trailing⟩ c) sA ForestEdge.Trailing NextPrior.Prior = sA := by
        rw [getLink_set_next_ne_prior _ _ _ ⟨sA, ForestEdge.Trailing⟩
          (ne_of_node_ne (fun h => hdisj hcnode (by
            have h' : sA = c.node := h
            rw [← h']
            exact List.mem_cons_self _ _)))]
        rw [getLink_set_next_ne_prior _ _ _ ⟨sA, ForestEdge.Trailing⟩
          (ne_of_node_ne (fun h => hsAnm (by
            have h' : sA = a0.rootId := h
            rw [h']
            exact hr0mem)))]
        exact getLink_set_next_self_prior _ _ _
      have e3 : getLink (set_next (set_next (set_next m ⟨sA, ForestEdge.Leading⟩
          ⟨sA, ForestEdge.Trailing⟩) p ⟨a0.rootId, ForestEdge.Leading⟩)
          ⟨gA, ForestEdge.Trailing⟩ c) sA ForestEdge.Trailing NextPrior.Next = sA := by
        rw [getLink_set_next_ne_next _ _ _ ⟨sA, ForestEdge.Trailing⟩
          (ne_of_node_ne (fun h => hsAnm (by
            have h' : sA = gA := h
            rw [h']
            exact hgAmem)))]
        rw [getLink_set_next_ne_next _ _ _ ⟨sA, ForestEdge.Trailing⟩
          (ne_of_node_ne (fun h => hdisj (node_mem_ringL sB tsB p (hsubP p hpmem))
            (by
              have h' : sA = p.node := h
              rw [← h']
              exact List.mem_cons_self _ _)))]
        rw [getLink_set_next_ne_next _ _ _ ⟨sA, ForestEdge.Trailing⟩ (by simp)]
        exact (wf_wrap_pair m sA _ wA).1
      have e4 : getLink (set_next (set_next (set_next m ⟨sA, ForestEdge.Leading⟩
          ⟨sA, ForestEdge.Trailing⟩) p ⟨a0.rootId, ForestEdge.Leading⟩)
          ⟨gA, ForestEdge.Trailing⟩ c) sA ForestEdge.Leading NextPrior.Prior = sA := by
        rw [getLink_set_next_ne_prior _ _ _ ⟨sA, ForestEdge.Leading⟩
          (ne_of_node_ne (fun h => hdisj hcnode (by
            have h' : sA = c.node := h
            rw [← h']
            exact List.mem_cons_self _ _)))]
        rw [getLink_set_next_ne_prior _ _ _ ⟨sA, ForestEdge.Leading⟩
          (ne_of_node_ne (fun h => hsAnm (by
            have h' : sA = a0.rootId := h
            rw [h']
            exact hr0mem)))]
        rw [getLink_set_next_ne_prior _ _ _ ⟨sA, ForestEdge.Leading⟩ (by simp)]
        exact (wf_wrap_pair m sA _ wA).2
      show List.Chain' _ (ringExt sA FList.nil)
      rw [show ringExt sA FList.nil = [⟨sA, ForestEdge.Leading⟩, ⟨sA, ForestEdge.Trailing⟩,
        ⟨sA, ForestEdge.Leading⟩] by rw [ringExt, ringL]; simp [tourF]]
      exact List.Chain'.cons ⟨e1, e2⟩ (List.Chain'.cons ⟨e3, e4⟩ (List.chain'_singleton _))

theorem getLink_initNode_ne (m : Mem) (nu : Nat) (d : RawCursor) (h : d.node ≠ nu)
    (w : NextPrior) :
    getLink (initNode m nu) d.node d.edge w = getLink m d.node d.edge w := by
  rw [getLink_initNode]
  simp [h]

theorem insert_eq (m : Mem) (c : RawCursor) (nu : Nat) :
    RawCursor.insert m c nu =
      (set_next (set_next (initNode m nu) (move_prev (initNode m nu) c)
        ⟨nu, ForestEdge.Leading⟩)
        (move_next (set_next (initNode m nu) (move_prev (initNode m nu) c)
          ⟨nu, ForestEdge.Leading⟩) ⟨nu, ForestEdge.Leading⟩) c,
       ⟨nu, ForestEdge.Leading⟩) := rfl

/-- The one-leaf forest used by the abstract insert. -/
def leafF (nu : Nat) : FList := FList.cons (FTree.mk nu FList.nil) FList.nil

/-- Raw insert of a fresh node before a valid position `c` realises the
    abstract insert of one leaf, and returns the new node's leading edge. -/
theorem insert_wf (m : Mem) (s : Nat) (ts : FList) (c : RawCursor) (nu : Nat)
    (w : WF m s ts) (hnu : nu ∉ s :: nodesF ts)
    (hc : c ∈ tourF ts ++ [⟨s, ForestEdge.Trailing⟩]) :
    WF (RawCursor.insert m c nu).1 s (fspliceTop s ts c (leafF nu)) ∧
    (RawCursor.insert m c nu).2 = ⟨nu, ForestEdge.Leading⟩ := by
  have hndB := w.nodup
  have hsBnm : s ∉ nodesF ts := (List.nodup_cons.mp hndB).1
  have hcnode : c.node ∈ s :: nodesF ts := by
    rcases List.mem_append.mp hc with h | h
    · exact List.mem_cons.mpr (Or.inr (node_mem_tourF _ _ h))
    · simp only [List.mem_singleton] at h
      rw [h]
      exact List.mem_cons_self _ _
  have hcnu : c.node ≠ nu := fun h => hnu (by rw [← h]; exact hcnode)
  obtain ⟨T1, T2, hdecB, hdecB'⟩ := ringL_decomp s ts c (leafF nu) hndB hc
  have hRLnodup : (ringL s ts).Nodup := ringL_nodup s ts hndB
  have hPQnodup := hRLnodup
  rw [hdecB] at hPQnodup
  have hPnodup : (⟨s, ForestEdge.Leading⟩ :: T1 : List RawCursor).Nodup :=
    (List.nodup_append.mp hPQnodup).1
  have hcT2nodup : (c :: T2 : List RawCursor).Nodup :=
    (List.nodup_append.mp hPQnodup).2.1
  have hPdisj : (⟨s, ForestEdge.Leading⟩ :: T1 : List RawCursor).Disjoint (c :: T2) :=
    (List.nodup_append.mp hPQnodup).2.2
  rcases hlp : (⟨s, ForestEdge.Leading⟩ :: T1 : List RawCursor).getLast? with _ | p
  · simp at hlp
  have hpmem : p ∈ (⟨s, ForestEdge.Leading⟩ :: T1 : List RawCursor) :=
    List.mem_of_mem_getLast? hlp
  have hsubP : ∀ x ∈ (⟨s, ForestEdge.Leading⟩ :: T1 : List RawCursor), x ∈ ringL s ts := by
    intro x hx
    rw [hdecB]
    exact List.mem_append.mpr (Or.inl hx)
  have hsubCT2 : ∀ x ∈ (c :: T2 : List RawCursor), x ∈ ringL s ts := by
    intro x hx
    rw [hdecB]
    exact List.mem_append.mpr (Or.inr hx)
  have hBnu : ∀ x ∈ ringL s ts, x.node ≠ nu := by
    intro x hx h
    exact hnu (by rw [← h]; exact node_mem_ringL s ts x hx)
  have hpnu : p.node ≠ nu := hBnu p (hsubP p hpmem)
  have hcRoot : c ≠ (⟨s, ForestEdge.Leading⟩ : RawCursor) := by
    rcases List.mem_append.mp hc with h | h
    · exact ne_of_node_ne (fun hn => hsBnm (by
        have hn' : c.node = s := hn
        rw [← hn']
        exact node_mem_tourF _ _ h))
    · simp only [List.mem_singleton] at h
      rw [h]
      simp
  have hdecExt : ringExt s ts = (⟨s, ForestEdge.Leading⟩ :: T1)
      ++ c :: (T2 ++ [⟨s, ForestEdge.Leading⟩]) := by
    rw [ringExt, hdecB]
    simp
  obtain ⟨hprevc, hnextp, hlinkpc⟩ := wf_prev_pair m s ts w _ _ c p hdecExt hlp
  have hm1prev : move_prev (initNode m nu) c = p := by
    rw [← hprevc]
    refine move_prev_congr m _ c ?_ ?_
    · exact getLink_initNode_ne m nu c hcnu _
    · have hv : getLink m c.node c.edge NextPrior.Prior = p.node := hlinkpc.2
      rw [hv]
      exact getLink_initNode_ne m nu ⟨p.node, ForestEdge.Trailing⟩ hpnu _
  rw [insert_eq, hm1prev]
  have hq : move_next (set_next (initNode m nu) p ⟨nu, ForestEdge.Leading⟩)
      ⟨nu, ForestEdge.Leading⟩ = ⟨nu, ForestEdge.Trailing⟩ := by
    refine move_next_L_leaf _ _ rfl ?_
    rw [getLink_set_next_ne_next _ _ _ ⟨nu, ForestEdge.Leading⟩
      (ne_of_node_ne (fun h => hpnu h.symm))]
    rw [getLink_initNode]
    simp
  rw [hq]
  refine ⟨⟨?_, ?_⟩, rfl⟩
  · refine nodup_fspliceTop s ts (leafF nu) c hndB (by simp [leafF, nodesF, nodesT]) ?_ hc
    intro x hx hy
    have : x = nu := by simpa [leafF, nodesF, nodesT] using hy
    subst this
    exact hnu hx
  · have hchainB := w.chain
    rw [hdecExt] at hchainB
    have chainP0 : List.Chain' (linkRel m) (⟨s, ForestEdge.Leading⟩ :: T1) :=
      hchainB.left_of_append
    have chainQQ0 : List.Chain' (linkRel m)
        (c :: (T2 ++ [⟨s, ForestEdge.Leading⟩])) := hchainB.right_of_append
    have chainP : List.Chain'
        (linkRel (set_next (set_next (initNode m nu) p ⟨nu, ForestEdge.Leading⟩)
          ⟨nu, ForestEdge.Trailing⟩ c)) (⟨s, ForestEdge.Leading⟩ :: T1) := by
      refine chain_linkRel_frame m _ _ chainP0 ?_ ?_
      · intro x hx
        have hxP : x ∈ (⟨s, ForestEdge.Leading⟩ :: T1 : List RawCursor) :=
          (List.dropLast_sublist _).subset hx
        have hxnu := hBnu x (hsubP x hxP)
        rw [getLink_set_next_ne_next _ _ _ x (ne_of_node_ne hxnu)]
        rw [getLink_set_next_ne_next _ _ _ x
          (ne_getLast_of_mem_dropLast _ hPnodup x p hx hlp)]
        exact getLink_initNode_ne m nu x hxnu _
      · intro x hx
        have hxP : x ∈ (⟨s, ForestEdge.Leading⟩ :: T1 : List RawCursor) :=
          List.mem_of_mem_tail hx
        have hxnu := hBnu x (hsubP x hxP)
        rw [getLink_set_next_ne_prior _ _ _ x
          (fun hxc => hPdisj hxP (by rw [hxc]; exact List.mem_cons_self _ _))]
        rw [getLink_set_next_ne_prior _ _ _ x (ne_of_node_ne hxnu)]
        exact getLink_initNode_ne m nu x hxnu _
    have chainQQ : List.Chain'
        (linkRel (set_next (set_next (initNode m nu) p ⟨nu, ForestEdge.Leading⟩)
          ⟨nu, ForestEdge.Trailing⟩ c)) (c :: (T2 ++ [⟨s, ForestEdge.Leading⟩])) := by
      refine chain_linkRel_frame m _ _ chainQQ0 ?_ ?_
      · intro x hx
        have hx' : x ∈ (c :: T2 : List RawCursor) := by
          rw [show ((c :: (T2 ++ [⟨s, ForestEdge.Leading⟩]) : List RawCursor)).dropLast
            = c :: T2 by
              rw [show (c :: (T2 ++ [⟨s, ForestEdge.Leading⟩]) : List RawCursor)
                = (c :: T2) ++ [⟨s, ForestEdge.Leading⟩] by simp]
              exact List.dropLast_concat] at hx
          exact hx
        have hxnu := hBnu x (hsubCT2 x hx')
        rw [getLink_set_next_ne_next _ _ _ x (ne_of_node_ne hxnu)]
        rw [getLink_set_next_ne_next _ _ _ x
          (fun hxp => hPdisj hpmem (by rw [← hxp]; exact hx'))]
        exact getLink_initNode_ne m nu x hxnu _
      · intro x hx
        simp only [List.tail_cons] at hx
        have hxR : x ∈ ringL s ts := by
          rcases List.mem_append.mp hx with hx2 | hxq
          · exact hsubCT2 x (List.mem_cons.mpr (Or.inr hx2))
          · simp only [List.mem_singleton] at hxq
            rw [hxq, ringL]
            exact List.mem_cons_self _ _
        have hxnu := hBnu x hxR
        have hxc : x ≠ c := by
          rcases List.mem_append.mp hx with hx2 | hxq
          · exact fun hxc => (List.nodup_cons.mp hcT2nodup).1 (by rw [← hxc]; exact hx2)
          · simp only [List.mem_singleton] at hxq
            rw [hxq]
            exact fun hxc => hcRoot hxc.symm
        rw [getLink_set_next_ne_prior _ _ _ x hxc]
        rw [getLink_set_next_ne_prior _ _ _ x (ne_of_node_ne hxnu)]
        exact getLink_initNode_ne m nu x hxnu _
    have chainSeg : List.Chain'
        (linkRel (set_next (set_next (initNode m nu) p ⟨nu, ForestEdge.Leading⟩)
          ⟨nu, ForestEdge.Trailing⟩ c)) [⟨nu, ForestEdge.Leading⟩, ⟨nu, ForestEdge.Trailing⟩] := by
      refine List.Chain'.cons ⟨?_, ?_⟩ (List.chain'_singleton _)
      · rw [getLink_set_next_ne_next _ _ _ ⟨nu, ForestEdge.Leading⟩ (by simp)]
        rw [getLink_set_next_ne_next _ _ _ ⟨nu, ForestEdge.Leading⟩
          (ne_of_node_ne (fun h => hpnu h.symm))]
        rw [getLink_initNode]
        simp
      · rw [getLink_set_next_ne_prior _ _ _ ⟨nu, ForestEdge.Trailing⟩
          (ne_of_node_ne (fun h => hcnu h.symm))]
        rw [getLink_set_next_ne_prior _ _ _ ⟨nu, ForestEdge.Trailing⟩ (by simp)]
        rw [getLink_initNode]
        simp
    have glue1 : linkRel (set_next (set_next (initNode m nu) p ⟨nu, ForestEdge.Leading⟩)
        ⟨nu, ForestEdge.Trailing⟩ c) p ⟨nu, ForestEdge.Leading⟩ := by
      constructor
      · rw [getLink_set_next_ne_next _ _ _ p (ne_of_node_ne hpnu)]
        exact getLink_set_next_self_next _ _ _
      · rw [getLink_set_next_ne_prior _ _ _ ⟨nu, ForestEdge.Leading⟩
          (ne_of_node_ne (fun h => hcnu h.symm))]
        exact getLink_set_next_self_prior _ _ _
    have glue2 : linkRel (set_next (set_next (initNode m nu) p ⟨nu, ForestEdge.Leading⟩)
        ⟨nu, ForestEdge.Trailing⟩ c) ⟨nu, ForestEdge.Trailing⟩ c :=
      ⟨getLink_set_next_self_next _ _ _, getLink_set_next_self_prior _ _ _⟩
    have hringNew : ringExt s (fspliceTop s ts c (leafF nu))
        = (⟨s, ForestEdge.Leading⟩ :: T1) ++ ([⟨nu, ForestEdge.Leading⟩,
          ⟨nu, ForestEdge.Trailing⟩] ++ (c :: (T2 ++ [⟨s, ForestEdge.Leading⟩]))) := by
      rw [ringExt, hdecB']
      simp [leafF, tourF, tourT]
    rw [hringNew]
    refine List.Chain'.append chainP (List.Chain'.append chainSeg chainQQ ?_) ?_
    · intro x hx y hy
      simp only [List.getLast?_cons_cons, List.getLast?_singleton, Option.mem_def,
        Option.some.injEq, List.head?_cons] at hx hy
      rw [← hx, ← hy]
      exact glue2
    · intro x hx y hy
      rw [hlp] at hx
      simp only [Option.mem_def, Option.some.injEq, List.head?_append, List.head?_cons,
        Option.or_some] at hx hy
      rw [← hx, ← hy]
      exact glue1

mutual
/-- Children of node `n` in a tree, when `n` occurs in it. -/
def subtreeT : FTree → Nat → Option FList
  | FTree.mk k ch, n => if k = n then some ch else subtreeF ch n

/-- Children of node `n` in a forest, when `n` occurs in it. -/
def subtreeF : FList → Nat → Option FList
  | FList.nil, _ => none
  | FList.cons t rest, n =>
    match subtreeT t n with
    | some ch => some ch
    | none => subtreeF rest n
end

mutual
/-- Abstract erase inside a tree: the erased node is replaced in place by
    its child list (promotion); the root case yields the children. -/
def feraseT : FTree → Nat → FList
  | FTree.mk k ch, n =>
    if k = n then ch else FList.cons (FTree.mk k (feraseF ch n)) FList.nil

/-- Abstract erase inside a forest. -/
def feraseF : FList → Nat → FList
  | FList.nil, _ => FList.nil
  | FList.cons t rest, n => fappendF (feraseT t n) (feraseF rest n)
end

mutual
/-- Depth of node `n` below the root of a tree (the root has depth 0). -/
def depthT : FTree → Nat → Option Nat
  | FTree.mk k ch, n =>
    if k = n then some 0 else (depthF ch n).map (fun d => d + 1)

/-- Depth of node `n` in a forest (roots have depth 0). -/
def depthF : FList → Nat → Option Nat
  | FList.nil, _ => none
  | FList.cons t rest, n =>
    match depthT t n with
    | some d => some d
    | none => depthF rest n
end

theorem subtreeT_eq (k : Nat) (ch : FList) (n : Nat) :
    subtreeT (FTree.mk k ch) n = if k = n then some ch else subtreeF ch n := rfl

theorem subtreeF_cons (t : FTree) (rest : FList) (n : Nat) :
    subtreeF (FList.cons t rest) n
      = match subtreeT t n with
        | some ch => some ch
        | none => subtreeF rest n := rfl

theorem feraseT_eq (k : Nat) (ch : FList) (n : Nat) :
    feraseT (FTree.mk k ch) n
      = if k = n then ch else FList.cons (FTree.mk k (feraseF ch n)) FList.nil := rfl

theorem feraseF_cons (t : FTree) (rest : FList) (n : Nat) :
    feraseF (FList.cons t rest) n = fappendF (feraseT t n) (feraseF rest n) := rfl

theorem depthT_eq (k : Nat) (ch : FList) (n : Nat) :
    depthT (FTree.mk k ch) n
      = if k = n then some 0 else (depthF ch n).map (fun d => d + 1) := rfl

theorem depthF_cons (t : FTree) (rest : FList) (n : Nat) :
    depthF (FList.cons t rest) n
      = match depthT t n with
        | some d => some d
        | none => depthF rest n := rfl

mutual
theorem subtreeT_some_mem (t : FTree) (n : Nat) (ch : FList)
    (h : subtreeT t n = some ch) : n ∈ nodesT t := by
  rcases t with ⟨k, ch'⟩
  rw [subtreeT_eq] at h
  rw [nodesT_eq]
  by_cases hk : k = n
  · exact List.mem_cons.mpr (Or.inl hk.symm)
  · rw [if_neg hk] at h
    exact List.mem_cons.mpr (Or.inr (subtreeF_some_mem ch' n ch h))

theorem subtreeF_some_mem (l : FList) (n : Nat) (ch : FList)
    (h : subtreeF l n = some ch) : n ∈ nodesF l := by
  match l with
  | FList.nil => simp [subtreeF] at h
  | FList.cons t rest =>
    rw [subtreeF_cons] at h
    rw [nodesF_cons]
    rcases hst : subtreeT t n with _ | ch0
    · rw [hst] at h
      exact List.mem_append.mpr (Or.inr (subtreeF_some_mem rest n ch h))
    · exact List.mem_append.mpr (Or.inl (subtreeT_some_mem t n ch0 hst))
end

mutual
theorem subtreeT_none_not_mem (t : FTree) (n : Nat)
    (h : subtreeT t n = none) : n ∉ nodesT t := by
  rcases t with ⟨k, ch'⟩
  rw [subtreeT_eq] at h
  rw [nodesT_eq]
  by_cases hk : k = n
  · rw [if_pos hk] at h
    exact absurd h (by simp)
  · rw [if_neg hk] at h
    intro hmem
    rcases List.mem_cons.mp hmem with hmem | hmem
    · exact hk hmem.symm
    · exact subtreeF_none_not_mem ch' n h hmem

theorem subtreeF_none_not_mem (l : FList) (n : Nat)
    (h : subtreeF l n = none) : n ∉ nodesF l := by
  match l with
  | FList.nil => simp [nodesF]
  | FList.cons t rest =>
    rw [subtreeF_cons] at h
    rcases hst : subtreeT t n with _ | ch0
    · rw [hst] at h
      rw [nodesF_cons]
      intro hmem
      rcases List.mem_append.mp hmem with hmem | hmem
      · exact subtreeT_none_not_mem t n hst hmem
      · exact subtreeF_none_not_mem rest n h hmem
    · rw [hst] at h
      exact absurd h (by simp)
end

mutual
theorem subtree_nodes_subset_T (t : FTree) (n : Nat) (ch : FList)
    (h : subtreeT t n = some ch) : ∀ k ∈ nodesF ch, k ∈ nodesT t := by
  rcases t with ⟨k', ch'⟩
  rw [subtreeT_eq] at h
  intro k hk
  rw [nodesT_eq]
  by_cases hke : k' = n
  · rw [if_pos hke] at h
    have : ch = ch' := by simpa using h.symm
    subst this
    exact List.mem_cons.mpr (Or.inr hk)
  · rw [if_neg hke] at h
    exact List.mem_cons.mpr (Or.inr (subtree_nodes_subset_F ch' n ch h k hk))

theorem subtree_nodes_subset_F (l : FList) (n : Nat) (ch : FList)
    (h : subtreeF l n = some ch) : ∀ k ∈ nodesF ch, k ∈ nodesF l := by
  match l with
  | FList.nil => simp [subtreeF] at h
  | FList.cons t rest =>
    rw [subtreeF_cons] at h
    intro k hk
    rw [nodesF_cons]
    rcases hst : subtreeT t n with _ | ch0
    · rw [hst] at h
      exact List.mem_append.mpr (Or.inr (subtree_nodes_subset_F rest n ch h k hk))
    · rw [hst] at h
      have : ch0 = ch := by simpa using h
      subst this
      exact List.mem_append.mpr (Or.inl (subtree_nodes_subset_T t n ch0 hst k hk))
end

mutual
theorem feraseT_id (t : FTree) (n : Nat) (h : n ∉ nodesT t) :
    feraseT t n = FList.cons t FList.nil := by
  rcases t with ⟨k, ch⟩
  rw [nodesT_eq] at h
  rw [feraseT_eq, if_neg (fun hk => h (List.mem_cons.mpr (Or.inl hk.symm)))]
  rw [feraseF_id ch n (fun hk => h (List.mem_cons.mpr (Or.inr hk)))]

theorem feraseF_id (l : FList) (n : Nat) (h : n ∉ nodesF l) :
    feraseF l n = l := by
  match l with
  | FList.nil => rfl
  | FList.cons t rest =>
    rw [nodesF_cons] at h
    rw [feraseF_cons,
      feraseT_id t n (fun hk => h (List.mem_append.mpr (Or.inl hk))),
      feraseF_id rest n (fun hk => h (List.mem_append.mpr (Or.inr hk)))]
    rfl
end

mutual
/-- Erasing node `n` with children `ch` from a tree splits its tour as
    prefix, entry of `n`, child tour, exit of `n`, suffix; the erased tour
    drops exactly the two edges of `n`, promoting the child block in
    place; node-wise exactly `n` disappears. -/
theorem ferase_decomp_T (t : FTree) (n : Nat) (ch : FList)
    (hnd : (nodesT t).Nodup) (hsub : subtreeT t n = some ch) :
    ∃ A B : List RawCursor,
      tourT t = A ++ ⟨n, ForestEdge.Leading⟩ ::
        (tourF ch ++ ⟨n, ForestEdge.Trailing⟩ :: B)
      ∧ tourF (feraseT t n) = A ++ (tourF ch ++ B)
      ∧ (n :: nodesF (feraseT t n)).Perm (nodesT t) := by
  rcases t with ⟨k, ch'⟩
  rw [subtreeT_eq] at hsub
  by_cases hk : k = n
  · rw [if_pos hk] at hsub
    have hch : ch = ch' := by simpa using hsub.symm
    subst hch
    subst hk
    refine ⟨[], [], ?_, ?_, ?_⟩
    · rw [tourT_eq]
      simp
    · rw [feraseT_eq, if_pos rfl]
      simp
    · rw [feraseT_eq, if_pos rfl, nodesT_eq]
  · rw [if_neg hk] at hsub
    have hnd' : (nodesF ch').Nodup := by
      rw [nodesT_eq] at hnd
      exact (List.nodup_cons.mp hnd).2
    obtain ⟨A', B', h1, h2, h3⟩ := ferase_decomp_F ch' n ch hnd' hsub
    refine ⟨⟨k, ForestEdge.Leading⟩ :: A', B' ++ [⟨k, ForestEdge.Trailing⟩], ?_, ?_, ?_⟩
    · rw [tourT_eq, h1]
      simp
    · rw [feraseT_eq, if_neg hk, tourF_cons, tourT_eq, h2]
      simp [tourF]
    · rw [feraseT_eq, if_neg hk, nodesF_cons, nodesT_eq, nodesT_eq]
      have hstep : (n :: (k :: nodesF (feraseF ch' n) ++ nodesF FList.nil)).Perm
          (k :: (n :: nodesF (feraseF ch' n))) := by
        simp [nodesF]
        exact List.Perm.swap _ _ _
      exact hstep.trans (List.Perm.cons k h3)

theorem ferase_decomp_F (l : FList) (n : Nat) (ch : FList)
    (hnd : (nodesF l).Nodup) (hsub : subtreeF l n = some ch) :
    ∃ A B : List RawCursor,
      tourF l = A ++ ⟨n, ForestEdge.Leading⟩ ::
        (tourF ch ++ ⟨n, ForestEdge.Trailing⟩ :: B)
      ∧ tourF (feraseF l n) = A ++ (tourF ch ++ B)
      ∧ (n :: nodesF (feraseF l n)).Perm (nodesF l) := by
  match l with
  | FList.nil => simp [subtreeF] at hsub
  | FList.cons t rest =>
    rw [subtreeF_cons] at hsub
    rw [nodesF_cons] at hnd
    have hndT : (nodesT t).Nodup := (List.nodup_append.mp hnd).1
    have hndR : (nodesF rest).Nodup := (List.nodup_append.mp hnd).2.1
    have hdisj : (nodesT t).Disjoint (nodesF rest) := (List.nodup_append.mp hnd).2.2
    rcases hst : subtreeT t n with _ | ch0
    · rw [hst] at hsub
      have hnt : n ∉ nodesT t := subtreeT_none_not_mem t n hst
      obtain ⟨A', B', h1, h2, h3⟩ := ferase_decomp_F rest n ch hndR hsub
      refine ⟨tourT t ++ A', B', ?_, ?_, ?_⟩
      · rw [tourF_cons, h1]
        simp
      · rw [feraseF_cons, feraseT_id t n hnt, tourF_fappendF, tourF_cons, h2]
        simp [tourF]
      · rw [feraseF_cons, feraseT_id t n hnt, nodesF_fappendF, nodesF_cons,
          nodesF_cons]
        have hstep : (n :: ((nodesT t ++ nodesF FList.nil) ++ nodesF (feraseF rest n))).Perm
            (nodesT t ++ (n :: nodesF (feraseF rest n))) := by
          simp [nodesF]
          exact List.perm_middle.symm
        exact hstep.trans (List.Perm.append_left (nodesT t) h3)
    · rw [hst] at hsub
      have hch : ch0 = ch := by simpa using hsub
      subst hch
      have hmemn : n ∈ nodesT t := subtreeT_some_mem t n ch0 hst
      have hnr : n ∉ nodesF rest := fun hm => hdisj hmemn hm
      obtain ⟨A', B', h1, h2, h3⟩ := ferase_decomp_T t n ch0 hndT hst
      refine ⟨A', B' ++ tourF rest, ?_, ?_, ?_⟩
      · rw [tourF_cons, h1]
        simp
      · rw [feraseF_cons, feraseF_id rest n hnr, tourF_fappendF, h2]
        simp
      · rw [feraseF_cons, feraseF_id rest n hnr, nodesF_fappendF, nodesF_cons]
        exact List.Perm.append_right (nodesF rest) h3
end

mutual
theorem depthT_none (t : FTree) (k : Nat) (h : k ∉ nodesT t) :
    depthT t k = none := by
  rcases t with ⟨r, ch⟩
  rw [nodesT_eq] at h
  rw [depthT_eq, if_neg (fun hr => h (List.mem_cons.mpr (Or.inl hr.symm)))]
  rw [depthF_none ch k (fun hm => h (List.mem_cons.mpr (Or.inr hm)))]
  rfl

theorem depthF_none (l : FList) (k : Nat) (h : k ∉ nodesF l) :
    depthF l k = none := by
  match l with
  | FList.nil => rfl
  | FList.cons t rest =>
    rw [nodesF_cons] at h
    rw [depthF_cons, depthT_none t k (fun hm => h (List.mem_append.mpr (Or.inl hm)))]
    exact depthF_none rest k (fun hm => h (List.mem_append.mpr (Or.inr hm)))
end

mutual
theorem depthT_mem (t : FTree) (k : Nat) (h : k ∈ nodesT t) :
    ∃ d, depthT t k = some d := by
  rcases t with ⟨r, ch⟩
  rw [depthT_eq]
  by_cases hr : r = k
  · exact ⟨0, by rw [if_pos hr]⟩
  · rw [nodesT_eq] at h
    have hm : k ∈ nodesF ch := by
      rcases List.mem_cons.mp h with h | h
      · exact absurd h.symm hr
      · exact h
    obtain ⟨d, hd⟩ := depthF_mem ch k hm
    exact ⟨d + 1, by rw [if_neg hr, hd]; rfl⟩

theorem depthF_mem (l : FList) (k : Nat) (h : k ∈ nodesF l) :
    ∃ d, depthF l k = some d := by
  match l with
  | FList.nil => simp [nodesF] at h
  | FList.cons t rest =>
    rw [nodesF_cons] at h
    rw [depthF_cons]
    rcases hdt : depthT t k with _ | d
    · have hm : k ∈ nodesF rest := by
        rcases List.mem_append.mp h with h | h
        · obtain ⟨d, hd⟩ := depthT_mem t k h
          rw [hd] at hdt
          exact absurd hdt (by simp)
        · exact h
      exact depthF_mem rest k hm
    · exact ⟨d, rfl⟩
end

theorem depthF_fappendF (xs ys : FList) (k : Nat) :
    depthF (fappendF xs ys) k
      = match depthF xs k with
        | some d => some d
        | none => depthF ys k := by
  match xs with
  | FList.nil => rfl
  | FList.cons t rest =>
    show depthF (FList.cons t (fappendF rest ys)) k = _
    rw [depthF_cons, depthF_cons]
    rcases hdt : depthT t k with _ | d
    · exact depthF_fappendF rest ys k
    · rfl

mutual
/-- Erasing node `n` decreases by exactly one the depth of every node of
    its child forest `ch` (and hence of the whole promoted subtree). -/
theorem ferase_depth_T (t : FTree) (n : Nat) (ch : FList) (k : Nat)
    (hnd : (nodesT t).Nodup) (hsub : subtreeT t n = some ch)
    (hk : k ∈ nodesF ch) :
    ∃ d, depthT t k = some (d + 1) ∧ depthF (feraseT t n) k = some d := by
  rcases t with ⟨r, ch'⟩
  rw [subtreeT_eq] at hsub
  by_cases hr : r = n
  · rw [if_pos hr] at hsub
    have hch : ch = ch' := by simpa using hsub.symm
    subst hch
    have hrk : r ≠ k := by
      rw [nodesT_eq] at hnd
      intro he
      exact (List.nodup_cons.mp hnd).1 (he ▸ hk)
    obtain ⟨d, hd⟩ := depthF_mem ch k hk
    refine ⟨d, ?_, ?_⟩
    · rw [depthT_eq, if_neg (fun he => hrk he), hd]
      rfl
    · rw [feraseT_eq, if_pos hr]
      exact hd
  · rw [if_neg hr] at hsub
    have hnd' : (nodesF ch').Nodup := by
      rw [nodesT_eq] at hnd
      exact (List.nodup_cons.mp hnd).2
    obtain ⟨d, hd1, hd2⟩ := ferase_depth_F ch' n ch k hnd' hsub hk
    have hrk : r ≠ k := by
      rw [nodesT_eq] at hnd
      intro he
      have hkc : k ∈ nodesF ch' := subtree_nodes_subset_F ch' n ch hsub k hk
      exact (List.nodup_cons.mp hnd).1 (he ▸ hkc)
    refine ⟨d + 1, ?_, ?_⟩
    · rw [depthT_eq, if_neg hrk, hd1]
      rfl
    · rw [feraseT_eq, if_neg hr, depthF_cons, depthT_eq, if_neg hrk, hd2]
      rfl

theorem ferase_depth_F (l : FList) (n : Nat) (ch : FList) (k : Nat)
    (hnd : (nodesF l).Nodup) (hsub : subtreeF l n = some ch)
    (hk : k ∈ nodesF ch) :
    ∃ d, depthF l k = some (d + 1) ∧ depthF (feraseF l n) k = some d := by
  match l with
  | FList.nil => simp [subtreeF] at hsub
  | FList.cons t rest =>
    rw [subtreeF_cons] at hsub
    rw [nodesF_cons] at hnd
    have hndT : (nodesT t).Nodup := (List.nodup_append.mp hnd).1
    have hndR : (nodesF rest).Nodup := (List.nodup_append.mp hnd).2.1
    have hdisj : (nodesT t).Disjoint (nodesF rest) := (List.nodup_append.mp hnd).2.2
    rcases hst : subtreeT t n with _ | ch0
    · rw [hst] at hsub
      have hnt : n ∉ nodesT t := subtreeT_none_not_mem t n hst
      have hkr : k ∈ nodesF rest := subtree_nodes_subset_F rest n ch hsub k hk
      have hkt : k ∉ nodesT t := fun hm => hdisj hm hkr
      obtain ⟨d, hd1, hd2⟩ := ferase_depth_F rest n ch k hndR hsub hk
      refine ⟨d, ?_, ?_⟩
      · rw [depthF_cons, depthT_none t k hkt]
        exact hd1
      · rw [feraseF_cons, feraseT_id t n hnt, depthF_fappendF]
        rw [show depthF (FList.cons t FList.nil) k = none by
          rw [depthF_cons, depthT_none t k hkt]; rfl]
        exact hd2
    · rw [hst] at hsub
      have hch : ch0 = ch := by simpa using hsub
      subst hch
      have hmemn : n ∈ nodesT t := subtreeT_some_mem t n ch0 hst
      have hnr : n ∉ nodesF rest := fun hm => hdisj hmemn hm
      obtain ⟨d, hd1, hd2⟩ := ferase_depth_T t n ch0 k hndT hst hk
      refine ⟨d, ?_, ?_⟩
      · rw [depthF_cons, hd1]
      · rw [feraseF_cons, feraseF_id rest n hnr, depthF_fappendF, hd2]
end

/-- Around any decomposition of the cyclic tour exposing two adjacent
    positions, advance, retreat and the raw link pair agree with the ring. -/
theorem wf_next_pair (m : Mem) (s : Nat) (ts : FList) (w : WF m s ts)
    (P Q : List RawCursor) (c d : RawCursor)
    (hdec : ringExt s ts = P ++ c :: d :: Q) :
    move_next m c = d ∧ move_prev m d = c ∧ linkRel m c d := by
  have hdec2 : ringExt s ts = (P ++ [c]) ++ d :: Q := by
    rw [hdec]
    simp
  obtain ⟨h1, h2, h3⟩ := wf_prev_pair m s ts w (P ++ [c]) Q d c hdec2
    (List.getLast?_concat _)
  exact ⟨h2, h1, h3⟩

theorem erase_eq_children (m : Mem) (c : RawCursor) (h : has_children m c = true) :
    RawCursor.erase m c =
      (set_next (set_next m (move_prev m c.leading_of) (move_next m c.leading_of))
        (move_prev m c.trailing_of) (move_next m c.trailing_of),
       if is_leading c.edge then
         move_next (set_next (set_next m (move_prev m c.leading_of)
           (move_next m c.leading_of))
           (move_prev m c.trailing_of) (move_next m c.trailing_of))
           (move_prev m c.leading_of)
       else move_next m c.trailing_of) := by
  simp [RawCursor.erase, h]

theorem erase_eq_nochildren (m : Mem) (c : RawCursor) (h : has_children m c = false) :
    RawCursor.erase m c =
      (set_next m (move_prev m c.leading_of) (move_next m c.trailing_of),
       if is_leading c.edge then
         move_next (set_next m (move_prev m c.leading_of) (move_next m c.trailing_of))
           (move_prev m c.leading_of)
       else move_next m c.trailing_of) := by
  simp [RawCursor.erase, h]

/-- Erasing a childless node: the single bypass from the entry predecessor
    to the exit successor realises the abstract erase, and the returned
    cursor is the first surviving position after the erased node. -/
theorem erase_wf_leaf (m : Mem) (s : Nat) (ts : FList) (n : Nat) (e : ForestEdge)
    (A B : List RawCursor) (w : WF m s ts)
    (hdec : tourF ts = A ++ ⟨n, ForestEdge.Leading⟩ :: ⟨n, ForestEdge.Trailing⟩ :: B)
    (hperm : (n :: nodesF (feraseF ts n)).Perm (nodesF ts))
    (hdec' : tourF (feraseF ts n) = A ++ B) :
    WF (RawCursor.erase m ⟨n, e⟩).1 s (feraseF ts n)
    ∧ ((B ++ [(⟨s, ForestEdge.Trailing⟩ : RawCursor)]).head?
        = some ((RawCursor.erase m ⟨n, e⟩).2))
    ∧ linkRel (RawCursor.erase m ⟨n, e⟩).1
        (move_prev m ⟨n, ForestEdge.Leading⟩) (move_next m ⟨n, ForestEdge.Trailing⟩) := by
  have hndB := w.nodup
  obtain ⟨qh, Q', hQ⟩ : ∃ qh Q',
      B ++ [(⟨s, ForestEdge.Trailing⟩ : RawCursor)] = qh :: Q' := by
    rcases B with _ | ⟨b, B'⟩
    · exact ⟨_, _, rfl⟩
    · exact ⟨_, _, rfl⟩
  have hdecExt : ringExt s ts = (⟨s, ForestEdge.Leading⟩ :: A) ++
      ⟨n, ForestEdge.Leading⟩ :: ⟨n, ForestEdge.Trailing⟩ ::
      ((B ++ [⟨s, ForestEdge.Trailing⟩]) ++ [⟨s, ForestEdge.Leading⟩]) := by
    rw [ringExt_eq, hdec]
    simp
  have hdecL : ringL s ts = (⟨s, ForestEdge.Leading⟩ :: A) ++
      ⟨n, ForestEdge.Leading⟩ :: ⟨n, ForestEdge.Trailing⟩ ::
      (B ++ [⟨s, ForestEdge.Trailing⟩]) := by
    rw [ringL, hdec]
    simp
  have hRL := ringL_nodup s ts hndB
  have hsLnot : (⟨s, ForestEdge.Leading⟩ : RawCursor)
      ∉ tourF ts ++ [⟨s, ForestEdge.Trailing⟩] := by
    have h0 := ringL_nodup s ts hndB
    rw [ringL] at h0
    exact (List.nodup_cons.mp h0).1
  rw [hdecL] at hRL
  have hPnd := (List.nodup_append.mp hRL).1
  have hRestnd := (List.nodup_append.mp hRL).2.1
  have hPdisj := (List.nodup_append.mp hRL).2.2
  rcases hlp : ((⟨s, ForestEdge.Leading⟩ :: A : List RawCursor)).getLast? with _ | lp
  · simp at hlp
  obtain ⟨hprevL, hnextlp, hlinklpL⟩ := wf_prev_pair m s ts w _ _ _ _ hdecExt hlp
  obtain ⟨hnextL, hprevT, hlinkLT⟩ := wf_next_pair m s ts w
    (⟨s, ForestEdge.Leading⟩ :: A)
    ((B ++ [⟨s, ForestEdge.Trailing⟩]) ++ [⟨s, ForestEdge.Leading⟩])
    ⟨n, ForestEdge.Leading⟩ ⟨n, ForestEdge.Trailing⟩ hdecExt
  obtain ⟨hnextT, hprevqh, hlinkTqh⟩ := wf_next_pair m s ts w
    ((⟨s, ForestEdge.Leading⟩ :: A) ++ [⟨n, ForestEdge.Leading⟩])
    (Q' ++ [⟨s, ForestEdge.Leading⟩])
    ⟨n, ForestEdge.Trailing⟩ qh
    (by
      rw [hdecExt,
        show ((B ++ [⟨s, ForestEdge.Trailing⟩]) ++ [⟨s, ForestEdge.Leading⟩]
          : List RawCursor) = qh :: (Q' ++ [⟨s, ForestEdge.Leading⟩]) by rw [hQ]; simp]
      simp)
  have hQnd : (qh :: Q').Nodup := by
    have h1 := (List.nodup_cons.mp hRestnd).2
    have h2 := (List.nodup_cons.mp h1).2
    rw [hQ] at h2
    exact h2
  have hqhsub : qh ∈ tourF ts ++ [⟨s, ForestEdge.Trailing⟩] := by
    have hqB : qh ∈ B ++ [(⟨s, ForestEdge.Trailing⟩ : RawCursor)] := by
      rw [hQ]
      exact List.mem_cons_self _ _
    rcases List.mem_append.mp hqB with h | h
    · refine List.mem_append.mpr (Or.inl ?_)
      rw [hdec]
      simp [h]
    · exact List.mem_append.mpr (Or.inr h)
  have hqhsL : qh ≠ ⟨s, ForestEdge.Leading⟩ := fun he => hsLnot (he ▸ hqhsub)
  have hhc : has_children m ⟨n, e⟩ = false := by
    have hmv : move_next m (⟨n, e⟩ : RawCursor).leading_of
        = ⟨n, ForestEdge.Trailing⟩ := hnextL
    simp [has_children, hmv]
  have her := erase_eq_nochildren m ⟨n, e⟩ hhc
  rw [show (⟨n, e⟩ : RawCursor).leading_of = ⟨n, ForestEdge.Leading⟩ from rfl,
    show (⟨n, e⟩ : RawCursor).trailing_of = ⟨n, ForestEdge.Trailing⟩ from rfl,
    hprevL, hnextT] at her
  have hnodupNew : (s :: nodesF (feraseF ts n)).Nodup := by
    have h1 : (s :: n :: nodesF (feraseF ts n)).Nodup :=
      ((List.Perm.cons s hperm).symm).nodup hndB
    exact h1.sublist (List.Sublist.cons₂ s (List.sublist_cons_self n _))
  have hringNew : ringExt s (feraseF ts n)
      = (⟨s, ForestEdge.Leading⟩ :: A) ++
        ((B ++ [⟨s, ForestEdge.Trailing⟩]) ++ [⟨s, ForestEdge.Leading⟩]) := by
    rw [ringExt_eq, hdec']
    simp
  have glue : linkRel (set_next m lp qh) lp qh :=
    ⟨getLink_set_next_self_next _ _ _, getLink_set_next_self_prior _ _ _⟩
  have hchainB := w.chain
  rw [hdecExt] at hchainB
  have chainP0 := hchainB.left_of_append
  have chainR0 := hchainB.right_of_append
  have chainQ0 : List.Chain' (linkRel m)
      ((B ++ [⟨s, ForestEdge.Trailing⟩]) ++ [⟨s, ForestEdge.Leading⟩]) :=
    chainR0.tail.tail
  have chainP : List.Chain' (linkRel (set_next m lp qh))
      (⟨s, ForestEdge.Leading⟩ :: A) := by
    refine chain_linkRel_frame m _ _ chainP0 ?_ ?_
    · intro x hx
      exact getLink_set_next_ne_next _ _ _ x
        (ne_getLast_of_mem_dropLast _ hPnd x lp hx hlp)
    · intro x hx
      refine getLink_set_next_ne_prior _ _ _ x ?_
      intro hxq
      have hxP : x ∈ (⟨s, ForestEdge.Leading⟩ :: A : List RawCursor) :=
        List.mem_of_mem_tail hx
      have hqmem : qh ∈ (⟨n, ForestEdge.Leading⟩ :: ⟨n, ForestEdge.Trailing⟩ ::
          (B ++ [⟨s, ForestEdge.Trailing⟩]) : List RawCursor) := by
        refine List.mem_cons.mpr (Or.inr (List.mem_cons.mpr (Or.inr ?_)))
        rw [hQ]
        exact List.mem_cons_self _ _
      exact hPdisj hxP (hxq ▸ hqmem)
  have chainQ : List.Chain' (linkRel (set_next m lp qh))
      ((B ++ [⟨s, ForestEdge.Trailing⟩]) ++ [⟨s, ForestEdge.Leading⟩]) := by
    refine chain_linkRel_frame m _ _ chainQ0 ?_ ?_
    · intro x hx
      refine getLink_set_next_ne_next _ _ _ x ?_
      intro hxlp
      rw [List.dropLast_concat] at hx
      have hlpP : lp ∈ (⟨s, ForestEdge.Leading⟩ :: A : List RawCursor) :=
        List.mem_of_mem_getLast? hlp
      refine hPdisj hlpP ?_
      rw [← hxlp]
      exact List.mem_cons.mpr (Or.inr (List.mem_cons.mpr (Or.inr hx)))
    · intro x hx
      refine getLink_set_next_ne_prior _ _ _ x ?_
      rw [show ((B ++ [⟨s, ForestEdge.Trailing⟩]) ++ [⟨s, ForestEdge.Leading⟩]
        : List RawCursor) = qh :: (Q' ++ [⟨s, ForestEdge.Leading⟩]) by rw [hQ]; simp]
        at hx
      simp only [List.tail_cons] at hx
      rcases List.mem_append.mp hx with hx | hx
      · intro hxq
        exact (List.nodup_cons.mp hQnd).1 (hxq ▸ hx)
      · simp only [List.mem_singleton] at hx
        rw [hx]
        exact fun hc => hqhsL hc.symm
  have wfNew : WF (set_next m lp qh) s (feraseF ts n) := by
    refine ⟨hnodupNew, ?_⟩
    rw [hringNew]
    refine List.Chain'.append chainP chainQ ?_
    intro x hx y hy
    rw [hlp] at hx
    have hy' : y = qh := by
      rw [show ((B ++ [⟨s, ForestEdge.Trailing⟩]) ++ [⟨s, ForestEdge.Leading⟩]
        : List RawCursor) = qh :: (Q' ++ [⟨s, ForestEdge.Leading⟩]) by rw [hQ]; simp]
        at hy
      exact (show qh = y by simpa using hy).symm
    have hx' : x = lp := (show lp = x by simpa using hx).symm
    rw [hx', hy']
    exact glue
  have hm1 : (RawCursor.erase m ⟨n, e⟩).1 = set_next m lp qh := by
    rw [her]
  refine ⟨by rw [hm1]; exact wfNew, ?_, ?_⟩
  · have hdecNew2 : ringExt s (feraseF ts n)
        = (⟨s, ForestEdge.Leading⟩ :: A) ++ qh :: (Q' ++ [⟨s, ForestEdge.Leading⟩]) := by
      rw [hringNew,
        show ((B ++ [⟨s, ForestEdge.Trailing⟩]) ++ [⟨s, ForestEdge.Leading⟩]
          : List RawCursor) = qh :: (Q' ++ [⟨s, ForestEdge.Leading⟩]) by rw [hQ]; simp]
    obtain ⟨hp1, hp2, hp3⟩ := wf_prev_pair (set_next m lp qh) s (feraseF ts n) wfNew
      _ _ qh lp hdecNew2 hlp
    rcases he : is_leading e with _ | _
    · rw [show (RawCursor.erase m ⟨n, e⟩).2 = qh by rw [her]; simp [he], hQ]
      rfl
    · rw [show (RawCursor.erase m ⟨n, e⟩).2 = move_next (set_next m lp qh) lp by
        rw [her]; simp [he], hp2, hQ]
      rfl
  · rw [hm1, hprevL, hnextT]
    exact glue

/-- Erasing a node with children: entry predecessor is relinked to the
    entry successor and exit predecessor to the exit successor, promoting
    the child block in place; the forest stays well formed on the abstract
    erase, and the returned cursor is the first surviving position. -/
theorem erase_wf_children (m : Mem) (s : Nat) (ts : FList) (n : Nat) (e : ForestEdge)
    (ch : FList) (A B : List RawCursor) (w : WF m s ts) (hchne : ch ≠ FList.nil)
    (hdec : tourF ts = A ++ ⟨n, ForestEdge.Leading⟩ ::
      (tourF ch ++ ⟨n, ForestEdge.Trailing⟩ :: B))
    (hperm : (n :: nodesF (feraseF ts n)).Perm (nodesF ts))
    (hdec' : tourF (feraseF ts n) = A ++ (tourF ch ++ B)) :
    WF (RawCursor.erase m ⟨n, e⟩).1 s (feraseF ts n)
    ∧ (is_leading e = true →
        (tourF ch ++ (B ++ [(⟨s, ForestEdge.Trailing⟩ : RawCursor)])).head?
          = some ((RawCursor.erase m ⟨n, e⟩).2))
    ∧ (is_leading e = false →
        (B ++ [(⟨s, ForestEdge.Trailing⟩ : RawCursor)]).head?
          = some ((RawCursor.erase m ⟨n, e⟩).2))
    ∧ linkRel (RawCursor.erase m ⟨n, e⟩).1
        (move_prev m ⟨n, ForestEdge.Leading⟩) (move_next m ⟨n, ForestEdge.Leading⟩)
    ∧ linkRel (RawCursor.erase m ⟨n, e⟩).1
        (move_prev m ⟨n, ForestEdge.Trailing⟩) (move_next m ⟨n, ForestEdge.Trailing⟩) := by
  have hndB := w.nodup
  obtain ⟨hdM, M2, hM⟩ : ∃ hdM M2, tourF ch = hdM :: M2 := by
    rcases ch with _ | ⟨u, rest⟩
    · exact absurd rfl hchne
    · rcases htc : tourF (FList.cons u rest) with _ | ⟨x, xs⟩
      · exact absurd htc (tourF_cons_ne_nil u rest)
      · exact ⟨x, xs, rfl⟩
  rcases hlstM : (tourF ch).getLast? with _ | lstM
  · rw [hM] at hlstM
    simp at hlstM
  obtain ⟨qh, Q', hQ⟩ : ∃ qh Q',
      B ++ [(⟨s, ForestEdge.Trailing⟩ : RawCursor)] = qh :: Q' := by
    rcases B with _ | ⟨b, B'⟩
    · exact ⟨_, _, rfl⟩
    · exact ⟨_, _, rfl⟩
  have hdecExt : ringExt s ts = (⟨s, ForestEdge.Leading⟩ :: A) ++
      ⟨n, ForestEdge.Leading⟩ :: (tourF ch ++ ⟨n, ForestEdge.Trailing⟩ ::
        ((B ++ [⟨s, ForestEdge.Trailing⟩]) ++ [⟨s, ForestEdge.Leading⟩])) := by
    rw [ringExt_eq, hdec]
    simp
  have hdecL : ringL s ts = (⟨s, ForestEdge.Leading⟩ :: A) ++
      ⟨n, ForestEdge.Leading⟩ :: (tourF ch ++ ⟨n, ForestEdge.Trailing⟩ ::
        (B ++ [⟨s, ForestEdge.Trailing⟩])) := by
    rw [ringL, hdec]
    simp
  have hsLnot : (⟨s, ForestEdge.Leading⟩ : RawCursor)
      ∉ tourF ts ++ [⟨s, ForestEdge.Trailing⟩] := by
    have h0 := ringL_nodup s ts hndB
    rw [ringL] at h0
    exact (List.nodup_cons.mp h0).1
  have hRL := ringL_nodup s ts hndB
  rw [hdecL] at hRL
  have hPnd := (List.nodup_append.mp hRL).1
  have hRestnd := (List.nodup_append.mp hRL).2.1
  have hPdisj := (List.nodup_append.mp hRL).2.2
  have hnLnotin := (List.nodup_cons.mp hRestnd).1
  have hMTQnd := (List.nodup_cons.mp hRestnd).2
  have hMnd := (List.nodup_append.mp hMTQnd).1
  have hTQnd := (List.nodup_append.mp hMTQnd).2.1
  have hMdisj := (List.nodup_append.mp hMTQnd).2.2
  have hQnd0 := (List.nodup_cons.mp hTQnd).2
  have hQnd : (qh :: Q').Nodup := by
    rw [← hQ]
    exact hQnd0
  rcases hlp : ((⟨s, ForestEdge.Leading⟩ :: A : List RawCursor)).getLast? with _ | lp
  · simp at hlp
  have hlpP : lp ∈ (⟨s, ForestEdge.Leading⟩ :: A : List RawCursor) :=
    List.mem_of_mem_getLast? hlp
  have hdMmem : hdM ∈ tourF ch := by
    rw [hM]
    exact List.mem_cons_self _ _
  have hlstMmem : lstM ∈ tourF ch := List.mem_of_mem_getLast? hlstM
  have hqhmem : qh ∈ B ++ [(⟨s, ForestEdge.Trailing⟩ : RawCursor)] := by
    rw [hQ]
    exact List.mem_cons_self _ _
  obtain ⟨hprevL, hnextlp, hlinklpL⟩ := wf_prev_pair m s ts w _ _ _ _ hdecExt hlp
  obtain ⟨hnextL, hprevhd, hlinkLhd⟩ := wf_next_pair m s ts w
    (⟨s, ForestEdge.Leading⟩ :: A)
    (M2 ++ ⟨n, ForestEdge.Trailing⟩ ::
      ((B ++ [⟨s, ForestEdge.Trailing⟩]) ++ [⟨s, ForestEdge.Leading⟩]))
    ⟨n, ForestEdge.Leading⟩ hdM
    (by rw [hdecExt, hM]; simp)
  obtain ⟨hprevT, hnextlstM, hlinklstMT⟩ := wf_prev_pair m s ts w
    ((⟨s, ForestEdge.Leading⟩ :: A) ++ ⟨n, ForestEdge.Leading⟩ :: tourF ch)
    ((B ++ [⟨s, ForestEdge.Trailing⟩]) ++ [⟨s, ForestEdge.Leading⟩])
    ⟨n, ForestEdge.Trailing⟩ lstM
    (by rw [hdecExt]; simp)
    (by
      rw [List.getLast?_append_of_ne_nil _ (by simp),
        show (⟨n, ForestEdge.Leading⟩ :: tourF ch : List RawCursor)
          = [⟨n, ForestEdge.Leading⟩] ++ tourF ch by simp,
        List.getLast?_append_of_ne_nil _ (by rw [hM]; simp)]
      exact hlstM)
  obtain ⟨hnextT, hprevqh, hlinkTqh⟩ := wf_next_pair m s ts w
    ((⟨s, ForestEdge.Leading⟩ :: A) ++ ⟨n, ForestEdge.Leading⟩ :: tourF ch)
    (Q' ++ [⟨s, ForestEdge.Leading⟩])
    ⟨n, ForestEdge.Trailing⟩ qh
    (by
      rw [hdecExt,
        show ((B ++ [⟨s, ForestEdge.Trailing⟩]) ++ [⟨s, ForestEdge.Leading⟩]
          : List RawCursor) = qh :: (Q' ++ [⟨s, ForestEdge.Leading⟩]) by rw [hQ]; simp]
      simp)
  have hhdMn : hdM.node ≠ n := by
    intro hcn
    rcases hdM with ⟨dn, de⟩
    have hdn : dn = n := hcn
    subst hdn
    rcases de with _ | _
    · exact hMdisj hdMmem (List.mem_cons_self _ _)
    · exact hnLnotin (List.mem_append.mpr (Or.inl hdMmem))
  have hhc : has_children m ⟨n, e⟩ = true := by
    have hmv : move_next m (⟨n, e⟩ : RawCursor).leading_of = hdM := hnextL
    simp [has_children, hmv, hhdMn]
  have her := erase_eq_children m ⟨n, e⟩ hhc
  rw [show (⟨n, e⟩ : RawCursor).leading_of = ⟨n, ForestEdge.Leading⟩ from rfl,
    show (⟨n, e⟩ : RawCursor).trailing_of = ⟨n, ForestEdge.Trailing⟩ from rfl,
    hprevL, hnextL, hprevT, hnextT] at her
  have hnodupNew : (s :: nodesF (feraseF ts n)).Nodup := by
    have h1 : (s :: n :: nodesF (feraseF ts n)).Nodup :=
      ((List.Perm.cons s hperm).symm).nodup hndB
    exact h1.sublist (List.Sublist.cons₂ s (List.sublist_cons_self n _))
  have hringNew : ringExt s (feraseF ts n)
      = (⟨s, ForestEdge.Leading⟩ :: A) ++ (tourF ch ++
        ((B ++ [⟨s, ForestEdge.Trailing⟩]) ++ [⟨s, ForestEdge.Leading⟩])) := by
    rw [ringExt_eq, hdec']
    simp
  have hlpne_lstM : lp ≠ lstM := fun hc =>
    hPdisj hlpP (List.mem_cons.mpr (Or.inr (List.mem_append.mpr
      (Or.inl (hc ▸ hlstMmem)))))
  have hhdne_qh : hdM ≠ qh := fun hc =>
    hMdisj hdMmem (List.mem_cons.mpr (Or.inr (hc ▸ hqhmem)))
  have glue1 : linkRel (set_next (set_next m lp hdM) lstM qh) lp hdM := by
    constructor
    · rw [getLink_set_next_ne_next _ _ _ lp hlpne_lstM]
      exact getLink_set_next_self_next _ _ _
    · rw [getLink_set_next_ne_prior _ _ _ hdM hhdne_qh]
      exact getLink_set_next_self_prior _ _ _
  have glue2 : linkRel (set_next (set_next m lp hdM) lstM qh) lstM qh :=
    ⟨getLink_set_next_self_next _ _ _, getLink_set_next_self_prior _ _ _⟩
  have hchainB := w.chain
  rw [hdecExt] at hchainB
  have chainP0 := hchainB.left_of_append
  have chainR0 := hchainB.right_of_append
  have chainM0 : List.Chain' (linkRel m) (tourF ch) := chainR0.tail.left_of_append
  have chainQ0 : List.Chain' (linkRel m)
      ((B ++ [⟨s, ForestEdge.Trailing⟩]) ++ [⟨s, ForestEdge.Leading⟩]) :=
    chainR0.tail.right_of_append.tail
  have chainP : List.Chain' (linkRel (set_next (set_next m lp hdM) lstM qh))
      (⟨s, ForestEdge.Leading⟩ :: A) := by
    refine chain_linkRel_frame m _ _ chainP0 ?_ ?_
    · intro x hx
      have hxP : x ∈ (⟨s, ForestEdge.Leading⟩ :: A : List RawCursor) :=
        (List.dropLast_sublist _).subset hx
      rw [getLink_set_next_ne_next _ _ _ x (fun hc =>
        hPdisj hxP (List.mem_cons.mpr (Or.inr (List.mem_append.mpr
          (Or.inl (hc ▸ hlstMmem))))))]
      exact getLink_set_next_ne_next _ _ _ x
        (ne_getLast_of_mem_dropLast _ hPnd x lp hx hlp)
    · intro x hx
      have hxP : x ∈ (⟨s, ForestEdge.Leading⟩ :: A : List RawCursor) :=
        List.mem_of_mem_tail hx
      rw [getLink_set_next_ne_prior _ _ _ x (fun hc =>
        hPdisj hxP (List.mem_cons.mpr (Or.inr (List.mem_append.mpr
          (Or.inr (List.mem_cons.mpr (Or.inr (hc ▸ hqhmem))))))))]
      exact getLink_set_next_ne_prior _ _ _ x (fun hc =>
        hPdisj hxP (List.mem_cons.mpr (Or.inr (List.mem_append.mpr
          (Or.inl (hc ▸ hdMmem))))))
  have chainM : List.Chain' (linkRel (set_next (set_next m lp hdM) lstM qh))
      (tourF ch) := by
    refine chain_linkRel_frame m _ _ chainM0 ?_ ?_
    · intro x hx
      have hxM : x ∈ tourF ch := (List.dropLast_sublist _).subset hx
      rw [getLink_set_next_ne_next _ _ _ x
        (ne_getLast_of_mem_dropLast _ hMnd x lstM hx hlstM)]
      exact getLink_set_next_ne_next _ _ _ x (fun hc =>
        hPdisj hlpP (List.mem_cons.mpr (Or.inr (List.mem_append.mpr
          (Or.inl (hc ▸ hxM))))))
    · intro x hx
      have hxM : x ∈ tourF ch := List.mem_of_mem_tail hx
      rw [getLink_set_next_ne_prior _ _ _ x (fun hc =>
        hMdisj hxM (List.mem_cons.mpr (Or.inr (hc ▸ hqhmem))))]
      exact getLink_set_next_ne_prior _ _ _ x
        (ne_head_of_mem_tail _ hMnd x hdM hx (by rw [hM]; rfl))
  have chainQ : List.Chain' (linkRel (set_next (set_next m lp hdM) lstM qh))
      ((B ++ [⟨s, ForestEdge.Trailing⟩]) ++ [⟨s, ForestEdge.Leading⟩]) := by
    refine chain_linkRel_frame m _ _ chainQ0 ?_ ?_
    · intro x hx
      rw [List.dropLast_concat] at hx
      rw [getLink_set_next_ne_next _ _ _ x (fun hc =>
        hMdisj hlstMmem (List.mem_cons.mpr (Or.inr (by rw [← hc]; exact hx))))]
      exact getLink_set_next_ne_next _ _ _ x (fun hc =>
        hPdisj hlpP (List.mem_cons.mpr (Or.inr (List.mem_append.mpr
          (Or.inr (List.mem_cons.mpr (Or.inr (by rw [← hc]; exact hx))))))))
    · intro x hx
      rw [show ((B ++ [⟨s, ForestEdge.Trailing⟩]) ++ [⟨s, ForestEdge.Leading⟩]
        : List RawCursor) = qh :: (Q' ++ [⟨s, ForestEdge.Leading⟩]) by rw [hQ]; simp]
        at hx
      simp only [List.tail_cons] at hx
      rcases List.mem_append.mp hx with hx | hx
      · rw [getLink_set_next_ne_prior _ _ _ x (fun hc =>
          (List.nodup_cons.mp hQnd).1 (by rw [← hc]; exact hx))]
        refine getLink_set_next_ne_prior _ _ _ x (fun hc => ?_)
        have hxQ : x ∈ B ++ [(⟨s, ForestEdge.Trailing⟩ : RawCursor)] := by
          rw [hQ]
          exact List.mem_cons.mpr (Or.inr hx)
        exact hMdisj (by rw [hc]; exact hdMmem) (List.mem_cons.mpr (Or.inr hxQ))
      · simp only [List.mem_singleton] at hx
        subst hx
        have hxsL : (⟨s, ForestEdge.Leading⟩ : RawCursor) ≠ qh := fun hc =>
          hsLnot (by
            rcases List.mem_append.mp hqhmem with h | h
            · exact List.mem_append.mpr (Or.inl (by rw [hdec, hc]; simp [h]))
            · exact List.mem_append.mpr (Or.inr (hc ▸ h)))
        rw [getLink_set_next_ne_prior _ _ _ _ hxsL]
        refine getLink_set_next_ne_prior _ _ _ _ (fun hc => ?_)
        exact hsLnot (List.mem_append.mpr (Or.inl (by rw [hdec, hc]; simp [hdMmem])))
  have wfNew : WF (set_next (set_next m lp hdM) lstM qh) s (feraseF ts n) := by
    refine ⟨hnodupNew, ?_⟩
    rw [hringNew]
    refine List.Chain'.append chainP (List.Chain'.append chainM chainQ ?_) ?_
    · intro x hx y hy
      rw [hlstM] at hx
      have hx' : x = lstM := (show lstM = x by simpa using hx).symm
      have hy' : y = qh := by
        rw [show ((B ++ [⟨s, ForestEdge.Trailing⟩]) ++ [⟨s, ForestEdge.Leading⟩]
          : List RawCursor) = qh :: (Q' ++ [⟨s, ForestEdge.Leading⟩]) by rw [hQ]; simp]
          at hy
        exact (show qh = y by simpa using hy).symm
      rw [hx', hy']
      exact glue2
    · intro x hx y hy
      rw [hlp] at hx
      have hx' : x = lp := (show lp = x by simpa using hx).symm
      have hy' : y = hdM := by
        rw [show (tourF ch ++ ((B ++ [⟨s, ForestEdge.Trailing⟩])
            ++ [⟨s, ForestEdge.Leading⟩]) : List RawCursor)
          = hdM :: (M2 ++ ((B ++ [⟨s, ForestEdge.Trailing⟩])
            ++ [⟨s, ForestEdge.Leading⟩])) by rw [hM]; simp] at hy
        exact (show hdM = y by simpa using hy).symm
      rw [hx', hy']
      exact glue1
  have hm1 : (RawCursor.erase m ⟨n, e⟩).1 = set_next (set_next m lp hdM) lstM qh := by
    rw [her]
  refine ⟨by rw [hm1]; exact wfNew, ?_, ?_, ?_, ?_⟩
  · intro he
    have hdecNew2 : ringExt s (feraseF ts n)
        = (⟨s, ForestEdge.Leading⟩ :: A) ++ hdM :: (M2 ++
          ((B ++ [⟨s, ForestEdge.Trailing⟩]) ++ [⟨s, ForestEdge.Leading⟩])) := by
      rw [hringNew, hM]
      simp
    obtain ⟨hp1, hp2, hp3⟩ := wf_prev_pair (set_next (set_next m lp hdM) lstM qh) s
      (feraseF ts n) wfNew _ _ hdM lp hdecNew2 hlp
    rw [show (RawCursor.erase m ⟨n, e⟩).2
        = move_next (set_next (set_next m lp hdM) lstM qh) lp by
      rw [her]; simp [he], hp2, hM]
    rfl
  · intro he
    rw [show (RawCursor.erase m ⟨n, e⟩).2 = qh by rw [her]; simp [he], hQ]
    rfl
  · rw [hm1, hprevL, hnextL]
    exact glue1
  · rw [hm1, hprevT, hnextT]
    exact glue2

theorem find_edge_stop (m : Mem) (e : ForestEdge) (ff : Nat) (c : RawCursor)
    (h : c.edge = e) : find_edge m e ff c = c := by
  cases ff with
  | zero => rfl
  | succ ff => simp [find_edge, h]

/-- `find_edge` walks over a block of off-edge positions and stops on the
    first position carrying the sought edge. -/
theorem find_edge_skip (m : Mem) (e : ForestEdge) :
    ∀ (S : List RawCursor) (c d : RawCursor) (ff : Nat),
      List.Chain' (nextRel m) (c :: (S ++ [d])) →
      c.edge ≠ e → (∀ x ∈ S, x.edge ≠ e) → d.edge = e → S.length + 1 ≤ ff →
      find_edge m e ff c = d
  | [], c, d, ff + 1, hch, hc, _, hd, _ => by
    have hmv : move_next m c = d := (List.chain'_cons.mp hch).1
    rw [show find_edge m e (ff + 1) c = find_edge m e ff (move_next m c) by
      simp [find_edge, hc], hmv]
    exact find_edge_stop m e ff d hd
  | x :: S, c, d, ff + 1, hch, hc, hS, hd, hff => by
    have hmv : move_next m c = x := (List.chain'_cons.mp hch).1
    rw [show find_edge m e (ff + 1) c = find_edge m e ff (move_next m c) by
      simp [find_edge, hc], hmv]
    exact find_edge_skip m e S x d ff (List.chain'_cons.mp hch).2
      (hS x (List.mem_cons_self _ _)) (fun y hy => hS y (List.mem_cons.mpr (Or.inr hy)))
      hd (Nat.le_of_succ_le_succ hff)

theorem edge_count_zero (m : Mem) (s : Nat) (e : ForestEdge) (ff fl : Nat)
    (c : RawCursor) (h : c.node = s) : edge_count m s e ff fl c = 0 := by
  cases fl with
  | zero => rfl
  | succ fl => simp [edge_count, h]

theorem dropWhile_cons_head {α : Type} (p : α → Bool) :
    ∀ (l : List α) (c : α) (rest : List α), l.dropWhile p = c :: rest → p c = false
  | [], c, rest, h => by simp at h
  | a :: l, c, rest, h => by
    rw [List.dropWhile_cons] at h
    by_cases hp : p a
    · rw [if_pos hp] at h
      exact dropWhile_cons_head p l c rest h
    · rw [if_neg hp] at h
      have : a = c := (List.cons.injEq _ _ _ _ ▸ h).1
      rw [← this]
      exact Bool.of_not_eq_true hp

theorem mem_takeWhile_prop {α : Type} (p : α → Bool) :
    ∀ (l : List α) (x : α), x ∈ l.takeWhile p → p x = true
  | [], x, h => by simp at h
  | a :: l, x, h => by
    rw [List.takeWhile_cons] at h
    by_cases hp : p a
    · rw [if_pos hp] at h
      rcases List.mem_cons.mp h with h | h
      · rw [h]
        exact hp
      · exact mem_takeWhile_prop p l x h
    · rw [if_neg hp] at h
      simp at h

/-- The body of `Forest::size`: starting anywhere on the walk `c :: V`
    followed by the end and root positions, the leading-edge iterator
    counts one stop per yielded position and halts on the sentinel, giving
    one plus the number of leading positions in `V`. -/
theorem edge_count_spec (m : Mem) (s : Nat) :
    ∀ (fuel : Nat) (V : List RawCursor) (c : RawCursor) (ff : Nat),
      List.Chain' (nextRel m) (c :: (V ++
        [⟨s, ForestEdge.Trailing⟩, ⟨s, ForestEdge.Leading⟩])) →
      c.node ≠ s → (∀ x ∈ V, x.node ≠ s) →
      V.length + 2 ≤ ff →
      (V.filter (fun x => is_leading x.edge)).length + 1 ≤ fuel →
      edge_count m s ForestEdge.Leading ff fuel c
        = (V.filter (fun x => is_leading x.edge)).length + 1
  | 0, V, c, ff, _, _, _, _, hfl => by omega
  | fuel + 1, V, c, ff, hch, hc, hV, hff, hfl => by
    have hstep : edge_count m s ForestEdge.Leading ff (fuel + 1) c
        = edge_count m s ForestEdge.Leading ff fuel
            (find_edge m ForestEdge.Leading ff (move_next m c)) + 1 := by
      simp [edge_count, hc]
    rcases hD : V.dropWhile (fun x => !(is_leading x.edge)) with _ | ⟨c', V2⟩
    · -- no leading position left in V: the next stop is the wrapped root
      have hVtr : V = V.takeWhile (fun x => !(is_leading x.edge)) := by
        conv_lhs => rw [← List.takeWhile_append_dropWhile
          (p := fun x => !(is_leading x.edge)) (l := V)]
        rw [hD]
        simp
      have hVall : ∀ x ∈ V, x.edge ≠ ForestEdge.Leading := by
        intro x hx
        have := mem_takeWhile_prop _ V x (by rw [← hVtr]; exact hx)
        simp [is_leading] at this
        exact this
      have hfilter : V.filter (fun x => is_leading x.edge) = [] := by
        rw [List.filter_eq_nil]
        intro x hx
        simp [is_leading, hVall x hx]
      have hland : find_edge m ForestEdge.Leading ff (move_next m c)
          = ⟨s, ForestEdge.Leading⟩ := by
        rcases V with _ | ⟨v, V'⟩
        · have hmv : move_next m c = ⟨s, ForestEdge.Trailing⟩ :=
            (List.chain'_cons.mp hch).1
          rw [hmv]
          refine find_edge_skip m ForestEdge.Leading []
            ⟨s, ForestEdge.Trailing⟩ ⟨s, ForestEdge.Leading⟩ ff ?_ (by simp) ?_ rfl ?_
          · exact (List.chain'_cons.mp hch).2
          · intro x hx
            simp at hx
          · omega
        · have hmv : move_next m c = v := (List.chain'_cons.mp hch).1
          rw [hmv]
          refine find_edge_skip m ForestEdge.Leading
            (V' ++ [⟨s, ForestEdge.Trailing⟩]) v ⟨s, ForestEdge.Leading⟩ ff ?_ ?_ ?_ rfl ?_
          · have h2 := (List.chain'_cons.mp hch).2
            rw [show (v :: ((V' ++ [⟨s, ForestEdge.Trailing⟩])
              ++ [⟨s, ForestEdge.Leading⟩]) : List RawCursor)
              = v :: (V' ++ [⟨s, ForestEdge.Trailing⟩, ⟨s, ForestEdge.Leading⟩])
              by simp]
            exact h2
          · exact hVall v (List.mem_cons_self _ _)
          · intro x hx
            rcases List.mem_append.mp hx with hx | hx
            · exact hVall x (List.mem_cons.mpr (Or.inr hx))
            · simp only [List.mem_singleton] at hx
              rw [hx]
              simp
          · have : V'.length + 1 + 2 ≤ ff := by
              simpa using hff
            simp only [List.length_append, List.length_singleton]
            omega
      rw [hstep, hland, edge_count_zero m s ForestEdge.Leading ff fuel _ rfl, hfilter]
      rfl
    · -- the next leading position is the head of the dropWhile suffix
      have hVsplit : V = V.takeWhile (fun x => !(is_leading x.edge)) ++ c' :: V2 := by
        conv_lhs => rw [← List.takeWhile_append_dropWhile
          (p := fun x => !(is_leading x.edge)) (l := V)]
        rw [hD]
      have hc'lead : c'.edge = ForestEdge.Leading := by
        have := dropWhile_cons_head _ V c' V2 hD
        simp [is_leading] at this
        exact this
      have hTrall : ∀ x ∈ V.takeWhile (fun x => !(is_leading x.edge)),
          x.edge ≠ ForestEdge.Leading := by
        intro x hx
        have := mem_takeWhile_prop _ V x hx
        simp [is_leading] at this
        exact this
      have hfilterTr : (V.takeWhile (fun x => !(is_leading x.edge))).filter
          (fun x => is_leading x.edge) = [] := by
        rw [List.filter_eq_nil]
        intro x hx
        simp [is_leading, hTrall x hx]
      have hfilterV : (V.filter (fun x => is_leading x.edge)).length
          = (V2.filter (fun x => is_leading x.edge)).length + 1 := by
        conv_lhs => rw [hVsplit]
        rw [List.filter_append, hfilterTr]
        simp [is_leading, hc'lead]
      have hchsuf : List.Chain' (nextRel m) (c' :: (V2 ++
          [⟨s, ForestEdge.Trailing⟩, ⟨s, ForestEdge.Leading⟩])) := by
        refine List.Chain'.suffix hch ?_
        refine ⟨c :: V.takeWhile (fun x => !(is_leading x.edge)), ?_⟩
        rw [List.cons_append, List.cons.injEq]
        refine ⟨rfl, ?_⟩
        conv_rhs => rw [hVsplit]
        simp
      have hland : find_edge m ForestEdge.Leading ff (move_next m c) = c' := by
        rcases hTr : V.takeWhile (fun x => !(is_leading x.edge)) with _ | ⟨v, Tr'⟩
        · have hV2 : V = c' :: V2 := by rw [hVsplit, hTr]; rfl
          have hmv : move_next m c = c' := by
            rw [hV2] at hch
            exact (List.chain'_cons.mp hch).1
          rw [hmv]
          exact find_edge_stop m ForestEdge.Leading ff c' hc'lead
        · have hV2 : V = v :: (Tr' ++ c' :: V2) := by
            rw [hVsplit, hTr]
            rfl
          rw [hV2] at hch
          have hmv : move_next m c = v := (List.chain'_cons.mp hch).1
          rw [hmv]
          refine find_edge_skip m ForestEdge.Leading Tr' v c' ff ?_ ?_ ?_ hc'lead ?_
          · refine List.Chain'.infix hch ⟨[c], V2 ++
              [⟨s, ForestEdge.Trailing⟩, ⟨s, ForestEdge.Leading⟩], ?_⟩
            simp
          · exact hTrall v (by rw [hTr]; exact List.mem_cons_self _ _)
          · intro x hx
            exact hTrall x (by rw [hTr]; exact List.mem_cons.mpr (Or.inr hx))
          · have hlenV : V.length = Tr'.length + 1 + (V2.length + 1) := by
              rw [hV2]
              simp
              omega
            omega
      have hrec := edge_count_spec m s fuel V2 c' ff hchsuf
        (hV c' (by rw [hVsplit]; simp))
        (fun x hx => hV x (by rw [hVsplit]; simp [hx]))
        (by
          have : V2.length ≤ V.length := by
            rw [hVsplit]
            simp
            omega
          omega)
        (by omega)
      rw [hstep, hland, hrec, hfilterV]

theorem nodes_fspliceTop_perm (s : Nat) (ts xs : FList) (c : RawCursor)
    (hnd : (s :: nodesF ts).Nodup)
    (hc : c ∈ tourF ts ++ [⟨s, ForestEdge.Trailing⟩]) :
    (nodesF (fspliceTop s ts c xs)).Perm (nodesF ts ++ nodesF xs) := by
  obtain ⟨T1, T2, h1, h2⟩ := ringL_decomp s ts c xs hnd hc
  have h1' : tourF ts ++ [⟨s, ForestEdge.Trailing⟩] = T1 ++ c :: T2 := by
    have h := h1
    rw [ringL] at h
    simpa using h
  have h2' : tourF (fspliceTop s ts c xs) ++ [⟨s, ForestEdge.Trailing⟩]
      = T1 ++ (tourF xs ++ c :: T2) := by
    have h := h2
    rw [ringL] at h
    simpa using h
  have e1 : nodesF ts
      = ((T1 ++ c :: T2).filter (fun d => is_leading d.edge)).map RawCursor.node := by
    rw [← h1', List.filter_append]
    rw [show (([⟨s, ForestEdge.Trailing⟩] : List RawCursor).filter
      (fun d => is_leading d.edge)) = [] by simp [is_leading]]
    rw [List.append_nil, nodes_eq_tour_F]
  have e2 : nodesF (fspliceTop s ts c xs)
      = ((T1 ++ (tourF xs ++ c :: T2)).filter (fun d => is_leading d.edge)).map
          RawCursor.node := by
    rw [← h2', List.filter_append]
    rw [show (([⟨s, ForestEdge.Trailing⟩] : List RawCursor).filter
      (fun d => is_leading d.edge)) = [] by simp [is_leading]]
    rw [List.append_nil, nodes_eq_tour_F]
  rw [e1, e2]
  simp only [List.filter_append, List.map_append, nodes_eq_tour_F]
  refine List.Perm.trans (List.Perm.append_left _ List.perm_append_comm) ?_
  rw [← List.append_assoc]

mutual
theorem tourT_length (t : FTree) : (tourT t).length = 2 * (nodesT t).length := by
  rcases t with ⟨n, ch⟩
  rw [tourT_eq, nodesT_eq]
  have h1 := tourF_length ch
  simp only [List.length_cons, List.length_append, List.length_singleton,
    List.length_nil]
  omega

theorem tourF_length (l : FList) : (tourF l).length = 2 * (nodesF l).length := by
  match l with
  | FList.nil => rfl
  | FList.cons t rest =>
    rw [tourF_cons, nodesF_cons]
    have h1 := tourT_length t
    have h2 := tourF_length rest
    simp only [List.length_append]
    omega
end

/-- A well-formed forest is reported empty exactly when its abstract forest
    is empty. -/
theorem empty_iff (m : Mem) (f : Forest) (ts : FList) (w : WF m f.tail ts) :
    f.empty m = true ↔ ts = FList.nil := by
  constructor
  · intro h
    rcases hts : ts with _ | ⟨u, rest⟩
    · rfl
    · subst hts
      have hb : f.unsafe_begin m = ⟨u.rootId, ForestEdge.Leading⟩ := by
        refine wf_begin m f.tail _ w _ ?_
        rw [show (tourF (FList.cons u rest) ++ [⟨f.tail, ForestEdge.Trailing⟩]
            : List RawCursor).head? = (tourF (FList.cons u rest)).head? from
          List.head?_append_of_ne_nil _ (tourF_cons_ne_nil u rest)]
        exact head?_tourF_cons u rest
      rw [Forest.empty, hb] at h
      have heq : (⟨u.rootId, ForestEdge.Leading⟩ : RawCursor) = f.unsafe_end :=
        beq_iff_eq.mp h
      have : ForestEdge.Leading = ForestEdge.Trailing := congrArg RawCursor.edge heq
      exact absurd this (by simp)
  · intro h
    subst h
    have hb : f.unsafe_begin m = ⟨f.tail, ForestEdge.Trailing⟩ := by
      refine wf_begin m f.tail _ w _ ?_
      rfl
    rw [Forest.empty, hb]
    exact beq_iff_eq.mpr rfl

/-- A freshly initialised sentinel is a well-formed empty forest. -/
theorem WF_initNode (m : Mem) (s : Nat) : WF (initNode m s) s FList.nil := by
  refine ⟨by simp [nodesF], ?_⟩
  show List.Chain' (linkRel (initNode m s))
    ((⟨s, ForestEdge.Leading⟩ :: (tourF FList.nil ++ [⟨s, ForestEdge.Trailing⟩]))
      ++ [⟨s, ForestEdge.Leading⟩])
  rw [show (tourF FList.nil : List RawCursor) = [] from rfl]
  refine List.Chain'.cons ⟨?_, ?_⟩ (List.Chain'.cons ⟨?_, ?_⟩ (List.chain'_singleton _))
  all_goals
    rw [getLink_initNode]
    simp

/-- `Forest::size` is correct: with a trustworthy cache it returns the
    cached node count, otherwise it recounts the leading-edge stops from
    begin to end, which is exactly the number of nodes. -/
theorem sizeFn_correct (m : Mem) (f : Forest) (ts : FList) (w : WF m f.tail ts)
    (hcache : f.size_valid m = true → f.size = (nodesF ts).length)
    (fuel : Nat) (hfuel : 2 * (nodesF ts).length + 2 <= fuel) :
    (f.sizeFn m fuel).1 = (nodesF ts).length := by
  by_cases hv : f.size_valid m
  · simp [Forest.sizeFn, hv, hcache hv]
  · have hne : ts ≠ FList.nil := by
      intro h
      subst h
      have hemp : f.empty m = true := (empty_iff m f FList.nil w).mpr rfl
      exact hv (by rw [Forest.size_valid, hemp]; simp)
    rcases hts : ts with _ | ⟨u, rest⟩
    · exact absurd hts hne
    subst hts
    rcases htf : tourF (FList.cons u rest) with _ | ⟨c0, V⟩
    · exact absurd htf (tourF_cons_ne_nil u rest)
    have hc0 : c0 = ⟨u.rootId, ForestEdge.Leading⟩ := by
      have hh := head?_tourF_cons u rest
      rw [htf] at hh
      simpa using hh
    have hchain := (move_ring m f.tail _ w).1
    rw [ringExt_eq] at hchain
    have hchain2 : List.Chain' (nextRel m) (c0 :: (V ++
        [⟨f.tail, ForestEdge.Trailing⟩, ⟨f.tail, ForestEdge.Leading⟩])) := by
      have h2 := hchain.tail
      simp only [List.tail_cons] at h2
      rw [htf] at h2
      exact h2
    have hb : f.unsafe_begin m = c0 := by
      refine wf_begin m f.tail _ w c0 ?_
      rw [show (tourF (FList.cons u rest) ++ [⟨f.tail, ForestEdge.Trailing⟩]
          : List RawCursor).head? = (tourF (FList.cons u rest)).head? from
        List.head?_append_of_ne_nil _ (tourF_cons_ne_nil u rest), htf]
      rfl
    have hsnot : f.tail ∉ nodesF (FList.cons u rest) := (List.nodup_cons.mp w.nodup).1
    have hc0n : c0.node ≠ f.tail := by
      intro h
      exact hsnot (h ▸ node_mem_tourF _ c0 (by rw [htf]; exact List.mem_cons_self _ _))
    have hVn : ∀ x ∈ V, x.node ≠ f.tail := by
      intro x hx h
      exact hsnot (h ▸ node_mem_tourF _ x (by rw [htf]; exact List.mem_cons.mpr (Or.inr hx)))
    have hlen : (tourF (FList.cons u rest)).length
        = 2 * (nodesF (FList.cons u rest)).length := tourF_length _
    have hlenV : V.length + 1 = 2 * (nodesF (FList.cons u rest)).length := by
      rw [htf] at hlen
      simp at hlen
      omega
    have hn : (nodesF (FList.cons u rest)).length
        = ((tourF (FList.cons u rest)).filter (fun x => is_leading x.edge)).length := by
      rw [← nodes_eq_tour_F]
      exact List.length_map _ _
    have hnV : (nodesF (FList.cons u rest)).length
        = (V.filter (fun x => is_leading x.edge)).length + 1 := by
      rw [hn, htf, List.filter_cons, if_pos (by rw [hc0]; rfl)]
      rfl
    have hec := edge_count_spec m f.tail fuel V c0 fuel hchain2 hc0n hVn
      (by omega) (by omega)
    have hgoal : (f.sizeFn m fuel).1
        = edge_count m f.tail ForestEdge.Leading fuel fuel (f.unsafe_begin m) := by
      simp [Forest.sizeFn, hv]
    rw [hgoal, hb, hec]
    omega

/-- The forest invariant: right sentinel, well-formed ring, and a cache
    that is correct whenever it is trustworthy. -/
def INV (s : Nat) (st : Mem × Forest × FList) : Prop :=
  st.2.1.tail = s ∧ WF st.1 s st.2.2 ∧
    (st.2.1.size_valid st.1 = true → st.2.1.size = (nodesF st.2.2).length)

/-- One forest mutation through the public cursor API, together with the
    abstract forest it realises. -/
inductive Step (s : Nat) : Mem × Forest × FList → Mem × Forest × FList → Prop where
  | insert (m : Mem) (f : Forest) (ts : FList) (c : RawCursor) (nu : Nat)
      (hc : c ∈ tourF ts ++ [⟨s, ForestEdge.Trailing⟩])
      (hnu : nu ∉ s :: nodesF ts) :
      Step s (m, f, ts)
        ((CursorMut.insert m ⟨f, c⟩ nu).1,
         (CursorMut.insert m ⟨f, c⟩ nu).2.forest,
         fspliceTop s ts c (leafF nu))
  | remove (m : Mem) (f : Forest) (ts : FList) (n : Nat) (e : ForestEdge) (ch : FList)
      (hsub : subtreeF ts n = some ch) :
      Step s (m, f, ts)
        ((CursorMut.remove m ⟨f, ⟨n, e⟩⟩).1,
         (CursorMut.remove m ⟨f, ⟨n, e⟩⟩).2.forest,
         feraseF ts n)
  | splice (m : Mem) (f : Forest) (ts : FList) (x : Forest) (tsx : FList)
      (c : RawCursor) (fuel : Nat)
      (hx : WF m x.tail tsx)
      (hxinv : x.size_valid m = true → x.size = (nodesF tsx).length)
      (hdisj : (s :: nodesF ts).Disjoint (x.tail :: nodesF tsx))
      (hc : c ∈ tourF ts ++ [⟨s, ForestEdge.Trailing⟩]) :
      Step s (m, f, ts)
        ((CursorMut.splice m ⟨f, c⟩ x fuel).1,
         (CursorMut.splice m ⟨f, c⟩ x fuel).2.forest,
         fspliceTop s ts c tsx)

/-- Every public mutation preserves the forest invariant. -/
theorem step_inv (s : Nat) (st st' : Mem × Forest × FList)
    (hst : Step s st st') (hinv : INV s st) : INV s st' := by
  obtain ⟨htail, w, hcache⟩ := hinv
  cases hst with
  | insert m f ts c nu hc hnu =>
    dsimp only at htail w hcache
    dsimp only [INV]
    subst htail
    obtain ⟨w', hret⟩ := insert_wf m f.tail ts c nu w hnu hc
    have hm' : (CursorMut.insert m ⟨f, c⟩ nu).1 = (RawCursor.insert m c nu).1 := rfl
    have hlen' : (nodesF (fspliceTop f.tail ts c (leafF nu))).length
        = (nodesF ts).length + 1 := by
      have hp := nodes_fspliceTop_perm f.tail ts (leafF nu) c w.nodup hc
      have h2 := hp.length_eq
      simpa using h2
    refine ⟨?_, ?_, ?_⟩
    · by_cases hv : f.size_valid m <;> simp [CursorMut.insert, hv]
    · rw [hm']
      exact w'
    · intro hval
      by_cases hv : f.size_valid m
      · have h1 : (CursorMut.insert m ⟨f, c⟩ nu).2.forest.size = f.size + 1 := by
          simp [CursorMut.insert, hv]
        rw [h1, hcache hv, hlen']
      · have h1 : (CursorMut.insert m ⟨f, c⟩ nu).2.forest = f := by
          simp [CursorMut.insert, hv]
        rw [h1] at hval ⊢
        have hz : f.size = 0 := by
          rw [Forest.size_valid] at hv
          simp at hv
          exact hv.1
        rw [Forest.size_valid, hz] at hval
        simp at hval
        rw [hm'] at hval
        have hnil : fspliceTop f.tail ts c (leafF nu) = FList.nil :=
          (empty_iff (RawCursor.insert m c nu).1 f _ w').mp hval
        rw [hnil] at hlen'
        simp [nodesF] at hlen'
  | remove m f ts n e ch hsub =>
    dsimp only at htail w hcache
    dsimp only [INV]
    subst htail
    have hndF : (nodesF ts).Nodup := (List.nodup_cons.mp w.nodup).2
    obtain ⟨A, B, hdec, hdec', hperm⟩ := ferase_decomp_F ts n ch hndF hsub
    have hm' : (CursorMut.remove m ⟨f, ⟨n, e⟩⟩).1 = (RawCursor.erase m ⟨n, e⟩).1 := rfl
    have w' : WF (RawCursor.erase m ⟨n, e⟩).1 f.tail (feraseF ts n) := by
      by_cases hch : ch = FList.nil
      · subst hch
        rw [show (tourF FList.nil : List RawCursor) = [] from rfl,
          List.nil_append] at hdec hdec'
        exact (erase_wf_leaf m f.tail ts n e A B w hdec hperm hdec').1
      · exact (erase_wf_children m f.tail ts n e ch A B w hch hdec hperm hdec').1
    have hlen' : (nodesF ts).length = (nodesF (feraseF ts n)).length + 1 := by
      have h2 := hperm.length_eq
      simpa using h2.symm
    refine ⟨?_, ?_, ?_⟩
    · by_cases hv : f.size_valid m <;> simp [CursorMut.remove, hv]
    · rw [hm']
      exact w'
    · intro hval
      by_cases hv : f.size_valid m
      · have h1 : (CursorMut.remove m ⟨f, ⟨n, e⟩⟩).2.forest.size = f.size - 1 := by
          simp [CursorMut.remove, hv]
        rw [h1, hcache hv]
        omega
      · have h1 : (CursorMut.remove m ⟨f, ⟨n, e⟩⟩).2.forest = f := by
          simp [CursorMut.remove, hv]
        rw [h1] at hval ⊢
        have hz : f.size = 0 := by
          rw [Forest.size_valid] at hv
          simp at hv
          exact hv.1
        rw [Forest.size_valid, hz] at hval
        simp at hval
        rw [hm'] at hval
        have hnil : feraseF ts n = FList.nil :=
          (empty_iff (RawCursor.erase m ⟨n, e⟩).1 f _ w').mp hval
        rw [hz, hnil]
        rfl
  | splice m f ts x tsx c fuel hx hxinv hdisj hc =>
    dsimp only at htail w hcache
    dsimp only [INV]
    subst htail
    obtain ⟨wB', wA', hnop, hretc⟩ := splice_wf m f.tail x.tail ts tsx c w hx hdisj hc
    have hm' : (CursorMut.splice m ⟨f, c⟩ x fuel).1
        = (RawCursor.splice m c (move_next m ⟨x.tail, ForestEdge.Leading⟩)
            ⟨x.tail, ForestEdge.Trailing⟩).1 := rfl
    have hlen' : (nodesF (fspliceTop f.tail ts c tsx)).length
        = (nodesF ts).length + (nodesF tsx).length := by
      have hp := nodes_fspliceTop_perm f.tail ts tsx c w.nodup hc
      have h2 := hp.length_eq
      simpa using h2
    refine ⟨?_, ?_, ?_⟩
    · by_cases hv : f.size_valid m && x.size_valid m <;> simp [CursorMut.splice, hv]
    · rw [hm']
      exact wB'
    · intro hval
      by_cases hv : f.size_valid m && x.size_valid m
      · have hv' := hv
        simp only [Bool.and_eq_true] at hv'
        have h1 : (CursorMut.splice m ⟨f, c⟩ x fuel).2.forest.size
            = f.size + (x.sizeFn m fuel).1 := by
          simp [CursorMut.splice, hv]
        have h2 : (x.sizeFn m fuel).1 = x.size := by
          simp [Forest.sizeFn, hv'.2]
        rw [h1, h2, hcache hv'.1, hxinv hv'.2, hlen']
      · have h1 : (CursorMut.splice m ⟨f, c⟩ x fuel).2.forest
            = { f with size := 0 } := by
          simp [CursorMut.splice, hv]
        rw [h1] at hval ⊢
        rw [Forest.size_valid] at hval
        simp at hval
        rw [hm'] at hval
        have hnil : fspliceTop f.tail ts c tsx = FList.nil :=
          (empty_iff (RawCursor.splice m c
              (move_next m ⟨x.tail, ForestEdge.Leading⟩)
              ⟨x.tail, ForestEdge.Trailing⟩).1 { f with size := 0 } _ wB').mp hval
        rw [hnil]
        rfl

/-- Any sequence of public mutations preserves the forest invariant. -/
theorem steps_inv (s : Nat) (st st' : Mem × Forest × FList)
    (hst : Relation.ReflTransGen (Step s) st st') (hinv : INV s st) : INV s st' := by
  induction hst with
  | refl => exact hinv
  | tail hab hbc ih => exact step_inv s _ _ hbc ih

theorem move_prev_node (m : Mem) (c : RawCursor) :
    (move_prev m c).node = getLink m c.node c.edge NextPrior.Prior := by
  rw [move_prev]
  by_cases h : is_leading c.edge <;> simp [h]

/-- The two pointer writes of the first `set_next` in `insert`: the new
    node's leading prior becomes the old predecessor, whose next becomes
    the new node. -/
theorem insert_link (m : Mem) (c : RawCursor) (nu : Nat)
    (hc : c.node ≠ nu) (hp : (move_prev m c).node ≠ nu) :
    linkRel (RawCursor.insert m c nu).1 (move_prev m c) ⟨nu, ForestEdge.Leading⟩ := by
  have hm1prev : move_prev (initNode m nu) c = move_prev m c := by
    refine move_prev_congr m (initNode m nu) c ?_ ?_
    · exact getLink_initNode_ne m nu c hc _
    · have hv : getLink m c.node c.edge NextPrior.Prior = (move_prev m c).node :=
        (move_prev_node m c).symm
      rw [hv]
      exact getLink_initNode_ne m nu ⟨(move_prev m c).node, ForestEdge.Trailing⟩ hp _
  rw [insert_eq, hm1prev]
  have hq : move_next (set_next (initNode m nu) (move_prev m c) ⟨nu, ForestEdge.Leading⟩)
      ⟨nu, ForestEdge.Leading⟩ = ⟨nu, ForestEdge.Trailing⟩ := by
    refine move_next_L_leaf _ _ rfl ?_
    rw [getLink_set_next_ne_next _ _ _ ⟨nu, ForestEdge.Leading⟩
      (ne_of_node_ne (fun h => hp h.symm))]
    rw [getLink_initNode]
    simp
  rw [hq]
  constructor
  · rw [getLink_set_next_ne_next _ _ _ (move_prev m c) (ne_of_node_ne hp)]
    exact getLink_set_next_self_next _ _ _
  · rw [getLink_set_next_ne_prior _ _ _ ⟨nu, ForestEdge.Leading⟩
      (ne_of_node_ne (fun h => hc h.symm))]
    exact getLink_set_next_self_prior _ _ _

/-- Forest states reachable from a fresh sentinel by raw inserts alone. -/
inductive InsReach (s : Nat) : Mem → FList → Prop where
  | base (m0 : Mem) : InsReach s (initNode m0 s) FList.nil
  | step (m : Mem) (ts : FList) (c : RawCursor) (nu : Nat)
      (h : InsReach s m ts)
      (hc : c ∈ tourF ts ++ [⟨s, ForestEdge.Trailing⟩])
      (hnu : nu ∉ s :: nodesF ts) :
      InsReach s (RawCursor.insert m c nu).1 (fspliceTop s ts c (leafF nu))

theorem insreach_wf (s : Nat) (m : Mem) (ts : FList) (h : InsReach s m ts) :
    WF m s ts := by
  induction h with
  | base m0 => exact WF_initNode m0 s
  | step m ts c nu h hc hnu ih => exact (insert_wf m s ts c nu ih hnu hc).1

/-- The loop of `erase_range` as the spec words it: on an exit step the
    depth counter is decremented with a floor at zero (`Nat` subtraction),
    so a depth-zero exit merely advances.  This definition follows the
    spec's words, to be compared with `erase_range_go`, which mirrors the
    code's `std::cmp::max(0, stack_depth - 1)` on `usize`. -/
def erase_range_go_specFloor (last : RawCursor) :
    Nat → Mem → RawCursor → Nat → Option Mem
  | 0, _, _, _ => none
  | fuel + 1, m, position, stack_depth =>
    if position = last then some m
    else if position.edge = ForestEdge.Leading then
      erase_range_go_specFloor last fuel m (move_next m position) (stack_depth + 1)
    else if stack_depth > 0 then
      let r := RawCursor.erase m position
      erase_range_go_specFloor last fuel r.1 r.2 (stack_depth - 1)
    else
      erase_range_go_specFloor last fuel m (move_next m position) (stack_depth - 1)

/-- The two-node forest used to exhibit the `erase_range` underflow. -/
def tsPair : FList :=
  FList.cons (FTree.mk 1 (FList.cons (FTree.mk 2 FList.nil) FList.nil)) FList.nil

def mPair : Mem := buildMem 0 tsPair

instance (s : Nat) (st : Mem × Forest × FList) : Decidable (INV s st) :=
  inferInstanceAs (Decidable (st.2.1.tail = s ∧ WF st.1 s st.2.2 ∧
    (st.2.1.size_valid st.1 = true → st.2.1.size = (nodesF st.2.2).length)))

/-- C1: splicing forest A (sentinel `x.tail`) into forest B (sentinel
    `fB.tail`) immediately before `c` keeps B well formed on the combined
    forest whose begin-to-end traversal is B's prefix up to `c`, then all
    of A in order, then B's suffix from `c`; afterwards A is empty; and the
    destination cache becomes the sum of the two caches when both are
    trustworthy, zero otherwise. -/
theorem C1_splice_traversal_and_cache (m : Mem) (fB x : Forest) (tsB tsx : FList)
    (c : RawCursor) (fuel : Nat)
    (wB : WF m fB.tail tsB) (wx : WF m x.tail tsx)
    (hdisj : (fB.tail :: nodesF tsB).Disjoint (x.tail :: nodesF tsx))
    (hc : c ∈ tourF tsB ++ [⟨fB.tail, ForestEdge.Trailing⟩]) :
    WF (CursorMut.splice m ⟨fB, c⟩ x fuel).1 fB.tail (fspliceTop fB.tail tsB c tsx)
    ∧ WF (CursorMut.splice m ⟨fB, c⟩ x fuel).1 x.tail FList.nil
    ∧ x.empty (CursorMut.splice m ⟨fB, c⟩ x fuel).1 = true
    ∧ (∃ T1 T2 : List RawCursor,
        tourF tsB ++ [⟨fB.tail, ForestEdge.Trailing⟩] = T1 ++ c :: T2
        ∧ tourF (fspliceTop fB.tail tsB c tsx) ++ [⟨fB.tail, ForestEdge.Trailing⟩]
            = T1 ++ (tourF tsx ++ c :: T2))
    ∧ walkTo (CursorMut.splice m ⟨fB, c⟩ x fuel).1 ⟨fB.tail, ForestEdge.Trailing⟩
        ((tourF (fspliceTop fB.tail tsB c tsx)).length + 1)
        (move_next (CursorMut.splice m ⟨fB, c⟩ x fuel).1 ⟨fB.tail, ForestEdge.Leading⟩)
        = some (tourF (fspliceTop fB.tail tsB c tsx))
    ∧ (fB.size_valid m = true ∧ x.size_valid m = true →
        (CursorMut.splice m ⟨fB, c⟩ x fuel).2.forest.size = fB.size + x.size)
    ∧ (¬(fB.size_valid m = true ∧ x.size_valid m = true) →
        (CursorMut.splice m ⟨fB, c⟩ x fuel).2.forest.size = 0) := by
  obtain ⟨wB', wA', hnop, hret⟩ := splice_wf m fB.tail x.tail tsB tsx c wB wx hdisj hc
  have hm' : (CursorMut.splice m ⟨fB, c⟩ x fuel).1
      = (RawCursor.splice m c (move_next m ⟨x.tail, ForestEdge.Leading⟩)
          ⟨x.tail, ForestEdge.Trailing⟩).1 := rfl
  obtain ⟨T1, T2, h1, h2⟩ := ringL_decomp fB.tail tsB c tsx wB.nodup hc
  have h1' : tourF tsB ++ [⟨fB.tail, ForestEdge.Trailing⟩] = T1 ++ c :: T2 := by
    have h := h1
    rw [ringL] at h
    simpa using h
  have h2' : tourF (fspliceTop fB.tail tsB c tsx) ++ [⟨fB.tail, ForestEdge.Trailing⟩]
      = T1 ++ (tourF tsx ++ c :: T2) := by
    have h := h2
    rw [ringL] at h
    simpa using h
  refine ⟨by rw [hm']; exact wB', by rw [hm']; exact wA', ?_, ⟨T1, T2, h1', h2'⟩,
    ?_, ?_, ?_⟩
  · exact (empty_iff (CursorMut.splice m ⟨fB, c⟩ x fuel).1 x FList.nil
      (by rw [hm']; exact wA')).mpr rfl
  · have hwf : WF (CursorMut.splice m ⟨fB, c⟩ x fuel).1 fB.tail
        (fspliceTop fB.tail tsB c tsx) := by
      rw [hm']
      exact wB'
    exact walkTo_tour _ fB.tail _ hwf _ (Nat.le_refl _)
  · rintro ⟨h1v, h2v⟩
    have hv : (fB.size_valid m && x.size_valid m) = true := by rw [h1v, h2v]; rfl
    simp [CursorMut.splice, hv, Forest.sizeFn, h1v, h2v]
  · intro hniv
    have hv : (fB.size_valid m && x.size_valid m) = false := by
      rcases hb1 : fB.size_valid m <;> rcases hb2 : x.size_valid m <;> simp_all
    simp [CursorMut.splice, hv]

/-- C2: erasing node `n` (children `ch`) from a well-formed forest keeps
    it well formed on the abstract erase; only `n` disappears; the tour
    splits so that the child block takes `n`'s former position in order,
    with every promoted node one level shallower; with children the entry
    and exit sides are relinked independently, childless a single bypass
    happens; and the returned cursor is the first surviving position after
    the erased entry (leading) or after the erased exit (trailing). -/
theorem C2_erase_relink_promote (m : Mem) (s : Nat) (ts : FList) (n : Nat)
    (e : ForestEdge) (ch : FList) (w : WF m s ts)
    (hsub : subtreeF ts n = some ch) :
    WF (RawCursor.erase m ⟨n, e⟩).1 s (feraseF ts n)
    ∧ (n :: nodesF (feraseF ts n)).Perm (nodesF ts)
    ∧ (∃ A B : List RawCursor,
        tourF ts = A ++ ⟨n, ForestEdge.Leading⟩ ::
          (tourF ch ++ ⟨n, ForestEdge.Trailing⟩ :: B)
        ∧ tourF (feraseF ts n) = A ++ (tourF ch ++ B)
        ∧ (is_leading e = true →
            (tourF ch ++ (B ++ [(⟨s, ForestEdge.Trailing⟩ : RawCursor)])).head?
              = some ((RawCursor.erase m ⟨n, e⟩).2))
        ∧ (is_leading e = false →
            (B ++ [(⟨s, ForestEdge.Trailing⟩ : RawCursor)]).head?
              = some ((RawCursor.erase m ⟨n, e⟩).2)))
    ∧ (∀ k ∈ nodesF ch, ∃ d, depthF ts k = some (d + 1)
        ∧ depthF (feraseF ts n) k = some d)
    ∧ (ch ≠ FList.nil →
        linkRel (RawCursor.erase m ⟨n, e⟩).1 (move_prev m ⟨n, ForestEdge.Leading⟩)
          (move_next m ⟨n, ForestEdge.Leading⟩)
        ∧ linkRel (RawCursor.erase m ⟨n, e⟩).1 (move_prev m ⟨n, ForestEdge.Trailing⟩)
          (move_next m ⟨n, ForestEdge.Trailing⟩))
    ∧ (ch = FList.nil →
        linkRel (RawCursor.erase m ⟨n, e⟩).1 (move_prev m ⟨n, ForestEdge.Leading⟩)
          (move_next m ⟨n, ForestEdge.Trailing⟩)) := by
  have hndF : (nodesF ts).Nodup := (List.nodup_cons.mp w.nodup).2
  obtain ⟨A, B, hdec, hdec', hperm⟩ := ferase_decomp_F ts n ch hndF hsub
  have hdepth : ∀ k ∈ nodesF ch, ∃ d, depthF ts k = some (d + 1)
      ∧ depthF (feraseF ts n) k = some d :=
    fun k hk => ferase_depth_F ts n ch k hndF hsub hk
  by_cases hch : ch = FList.nil
  · subst hch
    have hdec0 : tourF ts = A ++ ⟨n, ForestEdge.Leading⟩ ::
        ⟨n, ForestEdge.Trailing⟩ :: B := hdec
    have hdec'0 : tourF (feraseF ts n) = A ++ B := hdec'
    obtain ⟨w', hhead, hbyp⟩ := erase_wf_leaf m s ts n e A B w hdec0 hperm hdec'0
    exact ⟨w', hperm, ⟨A, B, hdec, hdec', fun _ => hhead, fun _ => hhead⟩, hdepth,
      fun hne => absurd rfl hne, fun _ => hbyp⟩
  · obtain ⟨w', hL, hT, hrel1, hrel2⟩ :=
      erase_wf_children m s ts n e ch A B w hch hdec hperm hdec'
    exact ⟨w', hperm, ⟨A, B, hdec, hdec', hL, hT⟩, hdepth,
      fun _ => ⟨hrel1, hrel2⟩, fun h => absurd h hch⟩

/-- C3: along any sequence of insert, remove and splice operations the
    forest invariant holds, so `size()` returns exactly the number of
    leading-edge stops between begin and end (the node count), the cache is
    trustworthy exactly when it is nonzero or the forest is empty, and an
    untrustworthy cache is recomputed by the leading-edge count. -/
theorem C3_size_counts_leading_stops (s : Nat) (st st' : Mem × Forest × FList)
    (hsteps : Relation.ReflTransGen (Step s) st st') (hinv : INV s st) (fuel : Nat)
    (hfuel : 2 * (nodesF st'.2.2).length + 2 ≤ fuel) :
    INV s st'
    ∧ (st'.2.1.sizeFn st'.1 fuel).1 = (nodesF st'.2.2).length
    ∧ (st'.2.1.size_valid st'.1 = true
        ↔ (st'.2.1.size ≠ 0 ∨ st'.2.1.empty st'.1 = true)) := by
  have hinv' := steps_inv s st st' hsteps hinv
  obtain ⟨htail, w, hcache⟩ := hinv'
  refine ⟨⟨htail, w, hcache⟩, ?_, ?_⟩
  · refine sizeFn_correct st'.1 st'.2.1 st'.2.2 ?_ hcache fuel hfuel
    rw [htail]
    exact w
  · rw [Forest.size_valid]
    simp

/-- C4: the spec says the depth counter of `erase_range` is decremented
    with a floor at zero on every exit step, so a depth-zero exit merely
    advances.  The code computes `std::cmp::max(0, stack_depth - 1)` on
    `usize`: the subtraction underflows before the vacuous `max`, so a
    depth-zero exit wraps the counter to 2^64 − 1 and subsequent exits
    erase nodes outside the range (debug builds panic instead).  On the
    forest with root 1 and child 2, erasing `[(2,trailing), end)` must
    leave node 1 in place (spec-floor model), but the code erases it: the
    sentinel's first child pointer ends up at 2 instead of 1. -/
theorem C4_erase_range_depth_underflow :
    WF mPair 0 tsPair
    ∧ max 0 ((0 + (U64 - 1)) % U64) ≠ 0
    ∧ (erase_range_go ⟨0, ForestEdge.Trailing⟩ 10 mPair ⟨2, ForestEdge.Trailing⟩ 0).map
        (fun me => getLink me 0 ForestEdge.Leading NextPrior.Next) = some 2
    ∧ (erase_range_go_specFloor ⟨0, ForestEdge.Trailing⟩ 10 mPair
        ⟨2, ForestEdge.Trailing⟩ 0).map
        (fun me => getLink me 0 ForestEdge.Leading NextPrior.Next) = some 1
    ∧ getLink mPair 0 ForestEdge.Leading NextPrior.Next = 1 := by
  refine ⟨by decide, by decide, by decide, by decide, by decide⟩

/-- C5: inserting a fresh node `nu` before cursor `c` keeps the forest
    well formed with exactly one new leaf at `c`'s position; the new node's
    leading prior is `c`'s former predecessor, whose next now points at the
    new node; the raw insert returns the new node's leading edge;
    `CursorMut::insert` leaves the caller's cursor in place while
    `insert_and_move` moves it onto the returned position. -/
theorem C5_insert_links_before (m : Mem) (s : Nat) (ts : FList) (f : Forest)
    (c : RawCursor) (nu : Nat) (w : WF m s ts)
    (hc : c ∈ tourF ts ++ [⟨s, ForestEdge.Trailing⟩])
    (hnu : nu ∉ s :: nodesF ts) :
    WF (RawCursor.insert m c nu).1 s (fspliceTop s ts c (leafF nu))
    ∧ linkRel (RawCursor.insert m c nu).1 (move_prev m c) ⟨nu, ForestEdge.Leading⟩
    ∧ (RawCursor.insert m c nu).2 = ⟨nu, ForestEdge.Leading⟩
    ∧ (CursorMut.insert m ⟨f, c⟩ nu).2.cursor = c
    ∧ (CursorMut.insert_and_move m ⟨f, c⟩ nu).2.cursor
        = ⟨nu, ForestEdge.Leading⟩ := by
  obtain ⟨w', hret⟩ := insert_wf m s ts c nu w hnu hc
  have hcnode : c.node ∈ s :: nodesF ts := by
    rcases List.mem_append.mp hc with h | h
    · exact List.mem_cons.mpr (Or.inr (node_mem_tourF _ _ h))
    · simp only [List.mem_singleton] at h
      rw [h]
      exact List.mem_cons_self _ _
  have hcnu : c.node ≠ nu := fun h => hnu (h ▸ hcnode)
  obtain ⟨X0, Y0, hXY⟩ := List.append_of_mem hc
  have hdecExt : ringExt s ts = (⟨s, ForestEdge.Leading⟩ :: X0)
      ++ c :: (Y0 ++ [⟨s, ForestEdge.Leading⟩]) := by
    rw [show ringExt s ts = (⟨s, ForestEdge.Leading⟩ ::
        (tourF ts ++ [⟨s, ForestEdge.Trailing⟩])) ++ [⟨s, ForestEdge.Leading⟩] from rfl,
      hXY]
    simp
  rcases hlp : ((⟨s, ForestEdge.Leading⟩ :: X0 : List RawCursor)).getLast? with _ | p
  · simp at hlp
  obtain ⟨hprevc, hnextp, hlk⟩ := wf_prev_pair m s ts w _ _ c p hdecExt hlp
  have hpnu : (move_prev m c).node ≠ nu := by
    rw [hprevc]
    have hpR : p ∈ ringL s ts := by
      rw [show ringL s ts = ⟨s, ForestEdge.Leading⟩ ::
        (tourF ts ++ [⟨s, ForestEdge.Trailing⟩]) from rfl, hXY]
      rcases List.mem_cons.mp (List.mem_of_mem_getLast? hlp) with h | h
      · rw [h]
        exact List.mem_cons_self _ _
      · exact List.mem_cons.mpr (Or.inr (List.mem_append.mpr (Or.inl h)))
    intro h
    exact hnu (h ▸ node_mem_ringL s ts p hpR)
  exact ⟨w', insert_link m c nu hcnu hpnu, hret, rfl, rfl⟩

/-- C6: in a forest built by inserts alone, traversal from begin to end is
    exactly the Euler tour, in which every node's entry edge occurs exactly
    once, before all entry edges of its descendants, and its exit edge
    exactly once, after all their exit edges: the descendants' edges are
    precisely the block strictly between the node's entry and exit. -/
theorem C6_nesting_invariant (s : Nat) (m : Mem) (ts : FList) (n : Nat) (ch : FList)
    (hreach : InsReach s m ts) (hsub : subtreeF ts n = some ch) :
    walkTo m ⟨s, ForestEdge.Trailing⟩ ((tourF ts).length + 1)
      (move_next m ⟨s, ForestEdge.Leading⟩) = some (tourF ts)
    ∧ ∃ A B : List RawCursor,
        tourF ts = A ++ ⟨n, ForestEdge.Leading⟩ ::
          (tourF ch ++ ⟨n, ForestEdge.Trailing⟩ :: B)
        ∧ (tourF ts).count ⟨n, ForestEdge.Leading⟩ = 1
        ∧ (tourF ts).count ⟨n, ForestEdge.Trailing⟩ = 1
        ∧ ∀ k ∈ nodesF ch, ⟨k, ForestEdge.Leading⟩ ∈ tourF ch
            ∧ ⟨k, ForestEdge.Trailing⟩ ∈ tourF ch := by
  have w := insreach_wf s m ts hreach
  have hndF : (nodesF ts).Nodup := (List.nodup_cons.mp w.nodup).2
  obtain ⟨A, B, hdec, hdec', hperm⟩ := ferase_decomp_F ts n ch hndF hsub
  have hmem : n ∈ nodesF ts := subtreeF_some_mem ts n ch hsub
  have hcount : (nodesF ts).count n = 1 := List.count_eq_one_of_mem hndF hmem
  refine ⟨walkTo_tour m s ts w _ (Nat.le_refl _), A, B, hdec, ?_, ?_, ?_⟩
  · rw [count_tourF ts n ForestEdge.Leading, hcount]
  · rw [count_tourF ts n ForestEdge.Trailing, hcount]
  · exact fun k hk => ⟨cursor_mem_tourF ch k ForestEdge.Leading hk,
      cursor_mem_tourF ch k ForestEdge.Trailing hk⟩

/-- C7: dereferencing a cursor at the sentinel node returns the explicit
    absence value on both the read-only and the mutable cursor, and at any
    other node both return the node's payload. -/
theorem C7_current_sentinel_none {α : Type} (data : Nat → α) (f : Forest)
    (c : RawCursor) :
    (c.node = f.tail → Cursor.current data f c = none
      ∧ CursorMut.current data f c = none)
    ∧ (c.node ≠ f.tail → Cursor.current data f c = some (data c.node)
      ∧ CursorMut.current data f c = some (data c.node)) := by
  constructor
  · intro h
    constructor <;> simp [Cursor.current, CursorMut.current, Forest.unsafe_root, h]
  · intro h
    constructor <;> simp [Cursor.current, CursorMut.current, Forest.unsafe_root, h]

/-- C8: a splice whose range is empty (`first = last`) or whose destination
    equals the range start (`first = c`) rewrites nothing: the heap and the
    returned cursor are exactly the inputs. -/
theorem C8_splice_noop_guard (m : Mem) (c first last : RawCursor)
    (h : first = last ∨ first = c) :
    RawCursor.splice m c first last = (m, c) := by
  rw [RawCursor.splice, if_pos h]

/-- C9: on every position of the cyclic tour of a well-formed forest,
    retreat undoes advance and advance undoes retreat. -/
theorem C9_advance_retreat_inverse (m : Mem) (s : Nat) (ts : FList) (w : WF m s ts)
    (c : RawCursor) (hc : c ∈ ringL s ts) :
    move_prev m (move_next m c) = c ∧ move_next m (move_prev m c) = c :=
  move_round_trip m s ts w c hc

/-- C10: advancing from the end position (sentinel, trailing) lands on the
    root position (sentinel, leading): the rings close through the
    sentinel; dereferencing there yields the absence value, and the
    leading-edge counting iteration of `size` halts there. -/
theorem C10_end_wraps_to_root {α : Type} (data : Nat → α) (m : Mem) (f : Forest)
    (ts : FList) (w : WF m f.tail ts) :
    move_next m f.unsafe_end = f.unsafe_root
    ∧ Cursor.current data f (move_next m f.unsafe_end) = none
    ∧ ∀ (e : ForestEdge) (ff fl : Nat),
        edge_count m f.tail e ff fl (move_next m f.unsafe_end) = 0 := by
  have hn := (move_ring m f.tail ts w).1
  have hwrap : move_next m ⟨f.tail, ForestEdge.Trailing⟩
      = ⟨f.tail, ForestEdge.Leading⟩ := by
    refine chain'_mid (S := nextRel m)
      (show List.Chain' (nextRel m) (ringL f.tail ts
        ++ ⟨f.tail, ForestEdge.Leading⟩ :: []) from hn) (ringL_getLast? f.tail ts)
  refine ⟨hwrap, ?_, ?_⟩
  · rw [show move_next m f.unsafe_end
      = move_next m ⟨f.tail, ForestEdge.Trailing⟩ from rfl, hwrap]
    simp [Cursor.current, Forest.unsafe_root]
  · intro e ff fl
    rw [show move_next m f.unsafe_end
      = move_next m ⟨f.tail, ForestEdge.Trailing⟩ from rfl, hwrap]
    exact edge_count_zero m f.tail e ff fl _ rfl

instance {α : Type} [DecidableEq α] (l₁ l₂ : List α) : Decidable (l₁.Disjoint l₂) :=
  decidable_of_iff (∀ a ∈ l₁, a ∉ l₂) Iff.rfl

/-- The empty heap used to seed concrete instances. -/
def mZero : Mem := fun _ => ⟨0, 0, 0, 0⟩

/-- A heap holding two disjoint well-formed forests: `tsPair` under
    sentinel 0 and a single leaf 7 under sentinel 50. -/
def mTwo : Mem := linkAll (ringExt 50 (leafF 7)) (buildMem 0 tsPair)

/-- The child forest of node 1 in `tsPair`. -/
def chPair : FList := FList.cons (FTree.mk 2 FList.nil) FList.nil

theorem C1_splice_traversal_and_cache_witness :
    WF mTwo 0 tsPair ∧ WF mTwo 50 (leafF 7)
    ∧ WF (CursorMut.splice mTwo ⟨⟨2, 0⟩, ⟨0, ForestEdge.Trailing⟩⟩ ⟨1, 50⟩ 10).1 0
        (fspliceTop 0 tsPair ⟨0, ForestEdge.Trailing⟩ (leafF 7)) :=
  ⟨by decide, by decide,
   (C1_splice_traversal_and_cache mTwo ⟨2, 0⟩ ⟨1, 50⟩ tsPair (leafF 7)
     ⟨0, ForestEdge.Trailing⟩ 10 (by decide) (by decide) (by decide) (by decide)).1⟩

theorem C2_erase_relink_promote_witness :
    subtreeF tsPair 1 = some chPair ∧ WF mPair 0 tsPair
    ∧ WF (RawCursor.erase mPair ⟨1, ForestEdge.Leading⟩).1 0 (feraseF tsPair 1) :=
  ⟨by decide, by decide,
   (C2_erase_relink_promote mPair 0 tsPair 1 ForestEdge.Leading chPair
     (by decide) (by decide)).1⟩

theorem C3_size_counts_leading_stops_witness :
    INV 100 (initNode mZero 100, ⟨0, 100⟩, FList.nil)
    ∧ ((CursorMut.insert (initNode mZero 100) ⟨⟨0, 100⟩, ⟨100, ForestEdge.Trailing⟩⟩
          1).2.forest.sizeFn
        (CursorMut.insert (initNode mZero 100) ⟨⟨0, 100⟩, ⟨100, ForestEdge.Trailing⟩⟩
          1).1 4).1
      = (nodesF (fspliceTop 100 FList.nil ⟨100, ForestEdge.Trailing⟩ (leafF 1))).length :=
  ⟨by decide,
   (C3_size_counts_leading_stops 100 _ _
     (Relation.ReflTransGen.single
       (Step.insert (initNode mZero 100) ⟨0, 100⟩ FList.nil ⟨100, ForestEdge.Trailing⟩ 1
         (by decide) (by decide)))
     (by decide) 4 (by decide)).2.1⟩

theorem C5_insert_links_before_witness :
    WF mPair 0 tsPair
    ∧ (RawCursor.insert mPair ⟨2, ForestEdge.Leading⟩ 3).2 = ⟨3, ForestEdge.Leading⟩ :=
  ⟨by decide,
   (C5_insert_links_before mPair 0 tsPair ⟨2, 0⟩ ⟨2, ForestEdge.Leading⟩ 3
     (by decide) (by decide) (by decide)).2.2.1⟩

theorem C6_nesting_invariant_witness :
    subtreeF (fspliceTop 100 FList.nil ⟨100, ForestEdge.Trailing⟩ (leafF 1)) 1
      = some FList.nil
    ∧ walkTo (RawCursor.insert (initNode mZero 100) ⟨100, ForestEdge.Trailing⟩ 1).1
        ⟨100, ForestEdge.Trailing⟩
        ((tourF (fspliceTop 100 FList.nil ⟨100, ForestEdge.Trailing⟩ (leafF 1))).length
          + 1)
        (move_next (RawCursor.insert (initNode mZero 100) ⟨100, ForestEdge.Trailing⟩
          1).1 ⟨100, ForestEdge.Leading⟩)
      = some (tourF (fspliceTop 100 FList.nil ⟨100, ForestEdge.Trailing⟩ (leafF 1))) :=
  ⟨by decide,
   (C6_nesting_invariant 100 _ _ 1 FList.nil
     (InsReach.step (initNode mZero 100) FList.nil ⟨100, ForestEdge.Trailing⟩ 1
       (InsReach.base mZero) (by decide) (by decide)) (by decide)).1⟩

theorem C7_current_sentinel_none_witness :
    Cursor.current (fun k => k) (⟨0, 7⟩ : Forest) ⟨7, ForestEdge.Leading⟩ = none
    ∧ Cursor.current (fun k => k) (⟨0, 7⟩ : Forest) ⟨3, ForestEdge.Leading⟩ = some 3 :=
  ⟨((C7_current_sentinel_none (fun k => k) ⟨0, 7⟩ ⟨7, ForestEdge.Leading⟩).1 rfl).1,
   ((C7_current_sentinel_none (fun k => k) ⟨0, 7⟩ ⟨3, ForestEdge.Leading⟩).2
     (by decide)).1⟩

theorem C8_splice_noop_guard_witness :
    RawCursor.splice mZero ⟨1, ForestEdge.Leading⟩ ⟨2, ForestEdge.Leading⟩
      ⟨2, ForestEdge.Leading⟩ = (mZero, ⟨1, ForestEdge.Leading⟩) :=
  C8_splice_noop_guard mZero ⟨1, ForestEdge.Leading⟩ _ _ (Or.inl rfl)

theorem C9_advance_retreat_inverse_witness :
    (⟨1, ForestEdge.Leading⟩ : RawCursor) ∈ ringL 0 tsPair
    ∧ move_prev mPair (move_next mPair ⟨1, ForestEdge.Leading⟩)
        = ⟨1, ForestEdge.Leading⟩ :=
  ⟨by decide,
   (C9_advance_retreat_inverse mPair 0 tsPair (by decide) ⟨1, ForestEdge.Leading⟩
     (by decide)).1⟩

theorem C10_end_wraps_to_root_witness :
    move_next mPair (Forest.unsafe_end ⟨2, 0⟩) = Forest.unsafe_root ⟨2, 0⟩ :=
  (C10_end_wraps_to_root (fun k => k) mPair ⟨2, 0⟩ tsPair (by decide)).1
